import Mathlib

/-!
Shallow embedding of `src/algorithm.c` (RPL cut-vertex detection and
self-healing).  The C program keeps its whole state in global arrays;
we model the arrays as functions `Nat → _` updated pointwise, and the
edge stack / block table as lists.  Every definition below is a direct
transcription of the corresponding C function; the few definitions whose
name starts with `spec_` are instead transcriptions of the specification
text, used to state refinement theorems.
-/

namespace RPLMesh

/-- MAX_NODES from algorithm.c line 19. -/
def MAX_NODES : Nat := 1000

/-- MAX_NEIGHBORS from algorithm.c line 20. -/
def MAX_NEIGHBORS : Nat := 80

/-- MAX_BLOCKS from algorithm.c line 21. -/
def MAX_BLOCKS : Nat := 1250

/-- Capacity of `edge_stack` (declared `Edge edge_stack[MAX_NODES * 10]`). -/
def STACK_CAP : Nat := MAX_NODES * 10

/-- Pointwise update of a one-dimensional global array modelled as a function. -/
def set1 {α : Type} (f : Nat → α) (u : Nat) (x : α) : Nat → α :=
  fun w => if w = u then x else f w

/-- Pointwise update of a two-dimensional global array. -/
def set2 {α : Type} (f : Nat → Nat → α) (u v : Nat) (x : α) : Nat → Nat → α :=
  fun a b => if a = u ∧ b = v then x else f a b

/-- Symmetric update `f[u][v] = f[v][u] = x`, as the C code always does. -/
def set2sym {α : Type} (f : Nat → Nat → α) (u v : Nat) (x : α) : Nat → Nat → α :=
  set2 (set2 f u v x) v u x

/-- Tarjan/DFS portion of the global state: arrays `disc`, `low`,
`parent_tarjan`, `visited`, `is_cut`, counter `time_dfs`, the edge stack
(head of the list = top of the stack) and the block table
(`block_nodes`/`block_size`/`num_blocks`, a block being its node list in
insertion order). -/
structure D where
  disc : Nat → Nat
  low : Nat → Nat
  parent_tarjan : Nat → Int
  visited : Nat → Bool
  time_dfs : Nat
  is_cut : Nat → Bool
  edge_stack : List (Nat × Nat)
  blocks : List (List Nat)

/-- The whole global state of algorithm.c that the core algorithms touch:
the graph store (`neighbors`, `degree`, `exists_edge`, `redundant_edge`),
the DFS state `d`, the block-cut classification (`is_leaf_block`,
`leaf_blocks`) and the statistics counters. -/
structure St where
  n : Nat
  neighbors : Nat → List Nat
  degree : Nat → Nat
  exists_edge : Nat → Nat → Bool
  redundant_edge : Nat → Nat → Bool
  d : D
  is_leaf_block : Nat → Bool
  leaf_blocks : List Nat
  original_edges : Nat
  redundant_edges_added : Nat

/-- Guarded push onto the edge stack (lines 168-172 / 205-209):
`if(stack_top < MAX_NODES * 10 - 1) { edge_stack[stack_top++] = (u,v); }`.
On overflow the edge is dropped with no signal. -/
def push_edge (s : D) (u v : Nat) : D :=
  if s.edge_stack.length < STACK_CAP - 1 then
    { s with edge_stack := (u, v) :: s.edge_stack }
  else s

/-- The `in_block` deduplication of lines 191-198: append a node to the
block's node list unless already present. -/
def add_to_block (blk : List Nat) (x : Nat) : List Nat :=
  if x ∈ blk then blk else blk ++ [x]

/-- The do-while pop loop of lines 185-199: pop edges, deduplicate
endpoints into the block, stop after popping `(u,v)` or when the stack
empties.  Returns the remaining stack and the block's node list. -/
def pop_block_loop (u v : Nat) :
    List (Nat × Nat) → List Nat → List (Nat × Nat) × List Nat
  | [], blk => ([], blk)
  | e :: rest, blk =>
    let blk := add_to_block (add_to_block blk e.1) e.2
    if e.1 = u ∧ e.2 = v then (rest, blk) else pop_block_loop u v rest blk

/-- Close one biconnected component at an articulation trigger
(lines 183-202, the `num_blocks++` included). -/
def close_block (s : D) (u v : Nat) : D :=
  let p := pop_block_loop u v s.edge_stack []
  { s with edge_stack := p.1, blocks := s.blocks ++ [p.2] }

/-- The `while(stack_top > 0)` pop of lines 218-230. -/
def pop_all_loop : List (Nat × Nat) → List Nat → List Nat
  | [], blk => blk
  | e :: rest, blk => pop_all_loop rest (add_to_block (add_to_block blk e.1) e.2)

/-- Close the final root block (lines 216-231, the `num_blocks++` included). -/
def close_root_block (s : D) : D :=
  { s with edge_stack := [], blocks := s.blocks ++ [pop_all_loop s.edge_stack []] }

/-- The `for(i=0; i<degree[u]; i++)` body of `tarjan_dfs_bicomp`
(lines 162-213), with the recursive DFS call abstracted as `recur`.
The pair threaded through is (DFS state, `children`). -/
def neighbor_loop (recur : Nat → D → D) (nbrs : Nat → List Nat) (u : Nat) :
    List Nat → D × Nat → D × Nat
  | [], sc => sc
  | i :: is, sc =>
    let s := sc.1
    let children := sc.2
    let v := (nbrs u).getD i 0
    let sc :=
      if s.visited v = false then
        let children := children + 1
        let s := { s with parent_tarjan := set1 s.parent_tarjan v (Int.ofNat u) }
        let s := push_edge s u v
        let s := recur v s
        let s := if s.low v < s.low u then { s with low := set1 s.low u (s.low v) } else s
        if (s.parent_tarjan u = -1 ∧ children > 1) ∨
            (s.parent_tarjan u ≠ -1 ∧ s.low v ≥ s.disc u) then
          let s := { s with is_cut := set1 s.is_cut u true }
          let s := if s.blocks.length < MAX_BLOCKS then close_block s u v else s
          (s, children)
        else (s, children)
      else
        if Int.ofNat v ≠ s.parent_tarjan u ∧ s.disc v < s.disc u then
          let s := push_edge s u v
          let s := if s.disc v < s.low u then { s with low := set1 s.low u (s.disc v) } else s
          (s, children)
        else (s, children)
    neighbor_loop recur nbrs u is sc

/-- `tarjan_dfs_bicomp(u)` of lines 157-233.  The C function recurses on
the call stack; we bound the recursion with fuel (any fuel larger than
the DFS depth gives the C behaviour; `find_biconnected_components` passes
`n + 1`, which always suffices since each recursive call visits a fresh
unvisited node). -/
def tarjan_dfs_bicomp (nbrs : Nat → List Nat) (deg : Nat → Nat) :
    Nat → Nat → D → D
  | 0, _, s => s
  | fuel + 1, u, s =>
    let t := s.time_dfs + 1
    let s := { s with visited := set1 s.visited u true, time_dfs := t,
                      disc := set1 s.disc u t, low := set1 s.low u t }
    let p := neighbor_loop (fun v s => tarjan_dfs_bicomp nbrs deg fuel v s) nbrs u
               (List.range (deg u)) (s, 0)
    let s := p.1
    if s.parent_tarjan u = -1 ∧ p.2 ≤ 1 ∧ s.edge_stack ≠ [] ∧
        s.blocks.length < MAX_BLOCKS then
      close_root_block s
    else s

/-- The fully reset DFS state established by the memsets of
`find_biconnected_components` (lines 236-245). -/
def initD : D :=
  { disc := fun _ => 0, low := fun _ => 0, parent_tarjan := fun _ => -1,
    visited := fun _ => false, time_dfs := 0, is_cut := fun _ => false,
    edge_stack := [], blocks := [] }

/-- The root loop of `find_biconnected_components` (lines 247-252):
for each unvisited node, set its parent to -1 and run the DFS. -/
def fbcD (n : Nat) (nbrs : Nat → List Nat) (deg : Nat → Nat) : D :=
  (List.range n).foldl
    (fun s i =>
      if s.visited i then s
      else tarjan_dfs_bicomp nbrs deg (n + 1) i
             { s with parent_tarjan := set1 s.parent_tarjan i (-1) })
    initD

/-- `find_biconnected_components` (lines 235-253): resets all DFS/block
state and recomputes it from the adjacency structure alone. -/
def find_biconnected_components (st : St) : St :=
  { st with d := fbcD st.n st.neighbors st.degree }

/-- Number of members of a block flagged as cut vertices (lines 262-266). -/
def cut_count (blk : List Nat) (isCut : Nat → Bool) : Nat :=
  blk.countP (fun x => isCut x)

/-- `identify_leaf_blocks` (lines 257-273): the ordered list of indices of
blocks containing exactly one cut vertex, in block-discovery order. -/
def identify_leaf_blocks (blocks : List (List Nat)) (isCut : Nat → Bool) : List Nat :=
  (List.range blocks.length).filter (fun b => cut_count (blocks.getD b []) isCut = 1)

/-- `find_non_cut_in_block` (lines 275-281): first non-cut member in block
order; otherwise the first member; -1 for an empty block. -/
def find_non_cut_in_block (blk : List Nat) (isCut : Nat → Bool) : Int :=
  match blk.find? (fun x => !isCut x) with
  | some x => Int.ofNat x
  | none =>
    match blk with
    | [] => -1
    | x :: _ => Int.ofNat x

/-- The unconditional bidirectional insertion used by both the generator
(lines 121-123, 142-144) and the planner (lines 300-302):
`neighbors[u][degree[u]++] = v; neighbors[v][degree[v]++] = u;
exists_edge[u][v] = exists_edge[v][u] = 1;`. -/
def insert_edge_raw (st : St) (u v : Nat) : St :=
  let nb1 := set1 st.neighbors u (st.neighbors u ++ [v])
  let nb2 := set1 nb1 v (nb1 v ++ [u])
  let dg1 := set1 st.degree u (st.degree u + 1)
  let dg2 := set1 dg1 v (dg1 v + 1)
  { st with neighbors := nb2, degree := dg2,
            exists_edge := set2sym st.exists_edge u v true }

/-- A successful planner insertion (lines 300-304): insert the edge, tag
it redundant symmetrically, bump the counter. -/
def add_redundant_pair (st : St) (u v : Nat) : St :=
  let st := insert_edge_raw st u v
  { st with redundant_edge := set2sym st.redundant_edge u v true,
            redundant_edges_added := st.redundant_edges_added + 1 }

/-- The body of one iteration of the `for(i=0; i<num_leaf_blocks; i+=2)`
pairing loop of `add_optimal_redundant_edges` (lines 294-306), after the
two block indices of the pair have been selected. -/
def planner_pair_step (blocks : List (List Nat)) (isCut : Nat → Bool)
    (b1 b2 : Nat) (st : St) : St :=
  let node1 := find_non_cut_in_block (blocks.getD b1 []) isCut
  let node2 := find_non_cut_in_block (blocks.getD b2 []) isCut
  if node1 ≠ -1 ∧ node2 ≠ -1 ∧ node1 ≠ node2 ∧
      st.exists_edge node1.toNat node2.toNat = false then
    if st.degree node1.toNat < MAX_NEIGHBORS ∧
        st.degree node2.toNat < MAX_NEIGHBORS then
      add_redundant_pair st node1.toNat node2.toNat
    else st
  else st

/-- The `for(i=0; i<num_leaf_blocks; i+=2)` pairing loop of
`add_optimal_redundant_edges` (lines 291-307); `block1 = leaf_blocks[i]`
and `block2 = (i+1 < num_leaf_blocks) ? leaf_blocks[i+1] : leaf_blocks[0]`
(lines 292-293).  The C loop terminates because `i` grows; we bound it
with fuel, and the caller passes `leafs.length + 1`, which always
exceeds the number of iterations. -/
def planner_loop (blocks : List (List Nat)) (isCut : Nat → Bool) (leafs : List Nat) :
    Nat → Nat → St → St
  | 0, _, st => st
  | fuel + 1, i, st =>
    if i < leafs.length then
      planner_loop blocks isCut leafs fuel (i + 2)
        (planner_pair_step blocks isCut (leafs.getD i 0)
          (if i + 1 < leafs.length then leafs.getD (i + 1) 0 else leafs.getD 0 0) st)
    else st

/-- `add_optimal_redundant_edges` (lines 283-310): classify leaf blocks,
reset the counter, then run the pairing loop. -/
def add_optimal_redundant_edges (st : St) : St :=
  let leafs := identify_leaf_blocks st.d.blocks st.d.is_cut
  let st := { st with leaf_blocks := leafs,
                      is_leaf_block := fun b => decide (b ∈ leafs),
                      redundant_edges_added := 0 }
  planner_loop st.d.blocks st.d.is_cut leafs (leafs.length + 1) 0 st

/-- The guarded edge insertion shared by the spec's Graph Store `addEdge`
(§4.1) and the generator's cross-edge step (lines 137-146): no-op if
`u == v`, the edge exists, or either endpoint is at capacity. -/
def add_edge (st : St) (u v : Nat) : St :=
  if u ≠ v ∧ st.exists_edge u v = false ∧
      st.degree u < MAX_NEIGHBORS ∧ st.degree v < MAX_NEIGHBORS then
    let st := insert_edge_raw st u v
    { st with original_edges := st.original_edges + 1 }
  else st

/-- The all-zero initial state established by `init_arrays` (lines 95-106). -/
def init_state (n : Nat) : St :=
  { n := n, neighbors := fun _ => [], degree := fun _ => 0,
    exists_edge := fun _ _ => false, redundant_edge := fun _ _ => false,
    d := initD, is_leaf_block := fun _ => false, leaf_blocks := [],
    original_edges := 0, redundant_edges_added := 0 }

/-- Build a concrete graph by a sequence of guarded edge insertions. -/
def mk_graph (n : Nat) (es : List (Nat × Nat)) : St :=
  es.foldl (fun st e => add_edge st e.1 e.2) (init_state n)

/-- Number of returned blocks whose node set contains both endpoints of
an edge (the spec's notion of the edge `{u,v}` belonging to a block). -/
def blocks_containing (blocks : List (List Nat)) (u v : Nat) : Nat :=
  blocks.countP (fun b => decide (u ∈ b ∧ v ∈ b))

/-- The 3-node star: center 0, leaves 1 and 2. -/
def star3 : St := mk_graph 3 [(0, 1), (0, 2)]

/-- The path graph 0-1-2-3-4 of the spec's path scenario. -/
def path5 : St := mk_graph 5 [(0, 1), (1, 2), (2, 3), (3, 4)]

/-- The star graph of the spec's star scenario: center 0, leaves 1..6. -/
def star7 : St := mk_graph 7 [(0, 1), (0, 2), (0, 3), (0, 4), (0, 5), (0, 6)]

/-- The triangle graph 0-1-2-0 of the spec's triangle scenario. -/
def triangle : St := mk_graph 3 [(0, 1), (1, 2), (2, 0)]

def path5_analyzed : St := find_biconnected_components path5

def path5_planned : St := add_optimal_redundant_edges path5_analyzed

def star7_analyzed : St := find_biconnected_components star7

def star7_planned : St := add_optimal_redundant_edges star7_analyzed

def triangle_analyzed : St := find_biconnected_components triangle

/-- A graph within all configured bounds on which the planner hits the
neighbor-capacity bound: node 0 is a pendant attached to node 1; nodes
2 and 3 are the two hubs of a complete bipartite block K(2,80) whose
other part is node 1 together with nodes 4..82.  Both hubs have degree
exactly MAX_NEIGHBORS = 80.  The analysis yields two leaf blocks; the
representative of the big block is hub 3 (degree 80), so the planner's
capacity guard at line 299 fails and the pair is skipped. -/
def bipartite_pendant : St :=
  mk_graph 83 ((0, 1) :: (2, 1) ::
    ((List.range 79).map (fun k => (2, k + 4)) ++
     (List.range 79).map (fun k => (3, k + 4)) ++ [(3, 1)]))

def bipartite_pendant_analyzed : St := find_biconnected_components bipartite_pendant

def bipartite_pendant_planned : St :=
  add_optimal_redundant_edges bipartite_pendant_analyzed

/-- The classification prefix of `add_optimal_redundant_edges`
(lines 284-290): record the leaf-block list and flags and reset the
insertion counter, leaving everything else unchanged. -/
def classified (st : St) : St :=
  { st with
    leaf_blocks := identify_leaf_blocks st.d.blocks st.d.is_cut,
    is_leaf_block := fun b =>
      decide (b ∈ identify_leaf_blocks st.d.blocks st.d.is_cut),
    redundant_edges_added := 0 }

/-- Sum of the degrees of the nodes `0..n-1`; twice the number of stored
edge endpoints among those nodes. -/
def sum_degree (st : St) : Nat :=
  ∑ u in Finset.range st.n, st.degree u

/-- Transcribed from the specification text of §4.3: `representative(block)`
returns a non-cut-vertex member if one exists, otherwise the first
member.  Used only to state the refinement of the planner against the
spec's wording; meaningful for nonempty blocks. -/
def spec_representative (blk : List Nat) (isCut : Nat → Bool) : Nat :=
  match blk.find? (fun x => !isCut x) with
  | some x => x
  | none => blk.headD 0

/-- Transcribed from the specification text of §4.4: pair the leaf list
in order, `(leaf[0],leaf[1]), (leaf[2],leaf[3]), ...`; `first` is
`leaf[0]`, with which a final unpaired leaf is paired when the count is
odd (wrap-around). -/
def spec_pairs_from (first : Nat) : List Nat → List (Nat × Nat)
  | [] => []
  | [a] => [(a, first)]
  | a :: b :: rest => (a, b) :: spec_pairs_from first rest

/-- Transcribed from the specification text of §4.4: the ordered list of
leaf-block pairs the planner processes. -/
def spec_pairs : List Nat → List (Nat × Nat)
  | [] => []
  | a :: rest => spec_pairs_from a (a :: rest)

/-- Transcribed from the specification text of §4.4: for one pair of
leaf blocks, add an edge between their representatives provided the two
representatives differ, the edge does not already exist, and both have
spare neighbor capacity; a successful insertion is tagged redundant
symmetrically. -/
def spec_planner_step (blocks : List (List Nat)) (isCut : Nat → Bool)
    (st : St) (pr : Nat × Nat) : St :=
  let r1 := spec_representative (blocks.getD pr.1 []) isCut
  let r2 := spec_representative (blocks.getD pr.2 []) isCut
  if r1 ≠ r2 ∧ st.exists_edge r1 r2 = false ∧
      st.degree r1 < MAX_NEIGHBORS ∧ st.degree r2 < MAX_NEIGHBORS then
    add_redundant_pair st r1 r2
  else st

/-- Transcribed from the specification text of §4.3-§4.4: classify the
leaf blocks in discovery order, then fold the pair-processing step over
the spec's pair list. -/
def spec_planner (st : St) : St :=
  let leafs := identify_leaf_blocks st.d.blocks st.d.is_cut
  let st := { st with leaf_blocks := leafs,
                      is_leaf_block := fun b => decide (b ∈ leafs),
                      redundant_edges_added := 0 }
  (spec_pairs leafs).foldl (spec_planner_step st.d.blocks st.d.is_cut) st

/-- The operations that touch the graph store: one backbone step of the
topology generator (lines 117-126, `p = rand() % i` so `p < i`), one
cross-edge step of the generator (lines 133-148), a planner run, and an
analyzer run. -/
inductive Op where
  | tree : Nat → Nat → Op
  | cross : Nat → Nat → Op
  | plan : Op
  | analyze : Op

/-- Effect of one operation on the global state.  The `tree` and `cross`
cases perform the generator's guarded inserts (the random draws decide
only WHICH pairs are attempted, so they are universally quantified
away); `plan` and `analyze` run the core algorithms. -/
def apply_op (st : St) : Op → St
  | Op.tree i p =>
    if p < i ∧ st.degree i < MAX_NEIGHBORS ∧ st.degree p < MAX_NEIGHBORS then
      let st := insert_edge_raw st i p
      { st with original_edges := st.original_edges + 1 }
    else st
  | Op.cross u v =>
    if u ≠ v ∧ st.exists_edge u v = false ∧
        st.degree u < MAX_NEIGHBORS ∧ st.degree v < MAX_NEIGHBORS then
      let st := insert_edge_raw st u v
      { st with original_edges := st.original_edges + 1 }
    else st
  | Op.plan => add_optimal_redundant_edges st
  | Op.analyze => find_biconnected_components st

/-- The graph-store invariant of claim C7: every degree is at most the
neighbor capacity, adjacency is symmetric (`u` appears in `v`'s neighbor
list iff `v` appears in `u`'s), and each degree equals the length of the
corresponding neighbor list. -/
def GraphInv (st : St) : Prop :=
  (∀ u, st.degree u ≤ MAX_NEIGHBORS) ∧
  (∀ u v, u ∈ st.neighbors v ↔ v ∈ st.neighbors u) ∧
  (∀ u, st.degree u = (st.neighbors u).length)


/-- Projection of the DFS state: the fields of `D` that the cut-vertex
computation reads and writes, without the edge stack and block table. -/
structure D0 where
  disc : Nat → Nat
  low : Nat → Nat
  parent : Nat → Int
  visited : Nat → Bool
  time : Nat
  cut : Nat → Bool

/-- Forget the edge stack and block table of a DFS state. -/
def projD (s : D) : D0 :=
  { disc := s.disc, low := s.low, parent := s.parent_tarjan,
    visited := s.visited, time := s.time_dfs, cut := s.is_cut }

/-- The neighbor loop of `tarjan_dfs_bicomp` restricted to the projected
state, iterating directly over the neighbor values. -/
def loop1 (recur : Nat → D0 → D0) (u : Nat) : List Nat → D0 × Nat → D0 × Nat
  | [], sc => sc
  | v :: vs, sc =>
    let s := sc.1
    let children := sc.2
    let sc' :=
      if s.visited v = false then
        let children := children + 1
        let s := { s with parent := set1 s.parent v (Int.ofNat u) }
        let s := recur v s
        let s := if s.low v < s.low u then { s with low := set1 s.low u (s.low v) } else s
        let s := if (s.parent u = -1 ∧ children > 1) ∨
                    (s.parent u ≠ -1 ∧ s.low v ≥ s.disc u) then
                   { s with cut := set1 s.cut u true }
                 else s
        (s, children)
      else
        if Int.ofNat v ≠ s.parent u ∧ s.disc v < s.disc u then
          (if s.disc v < s.low u then { s with low := set1 s.low u (s.disc v) } else s,
           children)
        else (s, children)
    loop1 recur u vs sc'

/-- `tarjan_dfs_bicomp` restricted to the projected state. -/
def dfs1 (nbrs : Nat → List Nat) : Nat → Nat → D0 → D0
  | 0, _, s => s
  | fuel + 1, u, s =>
    let t := s.time + 1
    let s := { s with visited := set1 s.visited u true, time := t,
                      disc := set1 s.disc u t, low := set1 s.low u t }
    (loop1 (fun v s => dfs1 nbrs fuel v s) u (nbrs u) (s, 0)).1

/-- The all-clear projected DFS state. -/
def initD0 : D0 :=
  { disc := fun _ => 0, low := fun _ => 0, parent := fun _ => -1,
    visited := fun _ => false, time := 0, cut := fun _ => false }

/-- `find_biconnected_components` restricted to the projected state. -/
def fbcD0 (n : Nat) (nbrs : Nat → List Nat) : D0 :=
  (List.range n).foldl
    (fun s i =>
      if s.visited i then s
      else dfs1 nbrs (n + 1) i { s with parent := set1 s.parent i (-1) })
    initD0

/-- One iteration body of `neighbor_loop`, named so that the cons
equation holds by definitional unfolding. -/
def nbody (recur : Nat → D → D) (nbrs : Nat → List Nat) (u i : Nat)
    (sc : D × Nat) : D × Nat :=
  let s := sc.1
  let children := sc.2
  let v := (nbrs u).getD i 0
  if s.visited v = false then
    let children := children + 1
    let s := { s with parent_tarjan := set1 s.parent_tarjan v (Int.ofNat u) }
    let s := push_edge s u v
    let s := recur v s
    let s := if s.low v < s.low u then { s with low := set1 s.low u (s.low v) } else s
    if (s.parent_tarjan u = -1 ∧ children > 1) ∨
        (s.parent_tarjan u ≠ -1 ∧ s.low v ≥ s.disc u) then
      let s := { s with is_cut := set1 s.is_cut u true }
      let s := if s.blocks.length < MAX_BLOCKS then close_block s u v else s
      (s, children)
    else (s, children)
  else
    if Int.ofNat v ≠ s.parent_tarjan u ∧ s.disc v < s.disc u then
      let s := push_edge s u v
      let s := if s.disc v < s.low u then { s with low := set1 s.low u (s.disc v) } else s
      (s, children)
    else (s, children)

/-- One iteration body of `loop1`. -/
def lbody (recur0 : Nat → D0 → D0) (u v : Nat) (sc : D0 × Nat) : D0 × Nat :=
  let s := sc.1
  let children := sc.2
  if s.visited v = false then
    let children := children + 1
    let s := { s with parent := set1 s.parent v (Int.ofNat u) }
    let s := recur0 v s
    let s := if s.low v < s.low u then { s with low := set1 s.low u (s.low v) } else s
    let s := if (s.parent u = -1 ∧ children > 1) ∨
                (s.parent u ≠ -1 ∧ s.low v ≥ s.disc u) then
               { s with cut := set1 s.cut u true }
             else s
    (s, children)
  else
    if Int.ofNat v ≠ s.parent u ∧ s.disc v < s.disc u then
      (if s.disc v < s.low u then { s with low := set1 s.low u (s.disc v) } else s,
       children)
    else (s, children)

/-- DFS state instrumented with ghost finish times, used to reason about
the projected DFS. -/
structure D1 where
  disc : Nat → Nat
  low : Nat → Nat
  parent : Nat → Int
  visited : Nat → Bool
  time : Nat
  cut : Nat → Bool
  fintime : Nat → Nat

/-- Forget the ghost finish times. -/
def projD1 (s : D1) : D0 :=
  { disc := s.disc, low := s.low, parent := s.parent,
    visited := s.visited, time := s.time, cut := s.cut }

/-- `loop1` on the instrumented state. -/
def loop2 (recur : Nat → D1 → D1) (u : Nat) : List Nat → D1 × Nat → D1 × Nat
  | [], sc => sc
  | v :: vs, sc =>
    let s := sc.1
    let children := sc.2
    let sc' :=
      if s.visited v = false then
        let children := children + 1
        let s := { s with parent := set1 s.parent v (Int.ofNat u) }
        let s := recur v s
        let s := if s.low v < s.low u then { s with low := set1 s.low u (s.low v) } else s
        let s := if (s.parent u = -1 ∧ children > 1) ∨
                    (s.parent u ≠ -1 ∧ s.low v ≥ s.disc u) then
                   { s with cut := set1 s.cut u true }
                 else s
        (s, children)
      else
        if Int.ofNat v ≠ s.parent u ∧ s.disc v < s.disc u then
          (if s.disc v < s.low u then { s with low := set1 s.low u (s.disc v) } else s,
           children)
        else (s, children)
    loop2 recur u vs sc'

/-- `dfs1` on the instrumented state; the finish time of the call node is
recorded at the end of the call. -/
def dfs2 (nbrs : Nat → List Nat) : Nat → Nat → D1 → D1
  | 0, _, s => s
  | fuel + 1, u, s =>
    let t := s.time + 1
    let s := { s with visited := set1 s.visited u true, time := t,
                      disc := set1 s.disc u t, low := set1 s.low u t }
    let s := (loop2 (fun v s => dfs2 nbrs fuel v s) u (nbrs u) (s, 0)).1
    { s with fintime := set1 s.fintime u s.time }

/-- The all-clear instrumented state. -/
def initD1 : D1 :=
  { disc := fun _ => 0, low := fun _ => 0, parent := fun _ => -1,
    visited := fun _ => false, time := 0, cut := fun _ => false,
    fintime := fun _ => 0 }

/-- `fbcD0` on the instrumented state. -/
def fbc2 (n : Nat) (nbrs : Nat → List Nat) : D1 :=
  (List.range n).foldl
    (fun s i =>
      if s.visited i then s
      else dfs2 nbrs (n + 1) i { s with parent := set1 s.parent i (-1) })
    initD1

/-- One iteration body of `loop2`. -/
def l2body (recur : Nat → D1 → D1) (u v : Nat) (sc : D1 × Nat) : D1 × Nat :=
  let s := sc.1
  let children := sc.2
  if s.visited v = false then
    let children := children + 1
    let s := { s with parent := set1 s.parent v (Int.ofNat u) }
    let s := recur v s
    let s := if s.low v < s.low u then { s with low := set1 s.low u (s.low v) } else s
    let s := if (s.parent u = -1 ∧ children > 1) ∨
                (s.parent u ≠ -1 ∧ s.low v ≥ s.disc u) then
               { s with cut := set1 s.cut u true }
             else s
    (s, children)
  else
    if Int.ofNat v ≠ s.parent u ∧ s.disc v < s.disc u then
      (if s.disc v < s.low u then { s with low := set1 s.low u (s.disc v) } else s,
       children)
    else (s, children)

/-- Count of unvisited nodes below `n`. -/
def Ucard (n : Nat) (s : D1) : Nat :=
  ((Finset.range n).filter (fun w => s.visited w = false)).card

/-- Reflexive-transitive reachability along neighbor lists. -/
def Reach (nbrs : Nat → List Nat) (a b : Nat) : Prop :=
  Relation.ReflTransGen (fun p q => q ∈ nbrs p) a b

/-- Reachability along neighbor lists avoiding the node `v`. -/
def ReachAvoid (nbrs : Nat → List Nat) (v a b : Nat) : Prop :=
  Relation.ReflTransGen (fun p q => q ∈ nbrs p ∧ p ≠ v ∧ q ≠ v) a b

/-- Brute-force reference definition of an articulation point: removing `v`
disconnects two remaining nodes. -/
def CutOracle (n : Nat) (nbrs : Nat → List Nat) (v : Nat) : Prop :=
  ∃ a b, a < n ∧ b < n ∧ a ≠ v ∧ b ≠ v ∧ ¬ ReachAvoid nbrs v a b

/-- Global wellformedness of a DFS state. -/
structure Winv (n : Nat) (nbrs : Nat → List Nat) (s : D1) : Prop where
  w1 : ∀ y, s.visited y = true → y < n
  w2 : ∀ y, s.visited y = false → s.disc y = 0 ∧ s.low y = 0 ∧ s.cut y = false
  w3 : ∀ y, s.visited y = true → 1 ≤ s.disc y ∧ s.disc y ≤ s.time
  w4 : ∀ y z, s.visited y = true → s.visited z = true → s.disc y = s.disc z → y = z
  w5 : ∀ y, s.visited y = true → 1 ≤ s.low y ∧ s.low y ≤ s.disc y
  w6 : ∀ c p, s.visited c = true → s.parent c = Int.ofNat p →
        c ∈ nbrs p ∧ s.visited p = true ∧ s.disc p < s.disc c

/-- `z` lies in the completed DFS subtree of `y`, read off discovery and
finish times. -/
def InSub (s : D1) (y z : Nat) : Prop :=
  s.visited z = true ∧ s.disc y ≤ s.disc z ∧ s.disc z ≤ s.fintime y

/-- Everything the correctness argument needs to know about a node whose
DFS call has completed. -/
structure NodeFacts (nbrs : Nat → List Nat) (s : D1) (y : Nat) : Prop where
  nfVis : s.visited y = true
  nfSane : 1 ≤ s.disc y ∧ s.disc y ≤ s.fintime y ∧ s.fintime y ≤ s.time ∧ s.low y ≤ s.disc y
  nfFe : ∀ x, x ∈ nbrs y → s.visited x = true
  nfNbrSub : ∀ x, x ∈ nbrs y → s.disc y < s.disc x → InSub s y x
  nfKids : ∀ c, s.visited c = true → s.parent c = Int.ofNat y →
    s.disc y < s.disc c ∧ s.disc c ≤ s.fintime y ∧ s.fintime c ≤ s.fintime y
  nfSplit : ∀ z, InSub s y z → z ≠ y →
    ∃ c, s.visited c = true ∧ s.parent c = Int.ofNat y ∧ InSub s c z
  nfChain : ∀ z, InSub s y z →
    Relation.ReflTransGen (fun a b => s.parent a = Int.ofNat b ∧ InSub s y a ∧ InSub s y b) z y
  nfLowUb : ∀ z x, InSub s y z → x ∈ nbrs z → s.visited x = true →
    Int.ofNat x ≠ s.parent z → s.low y ≤ s.disc x
  nfLowAch : s.low y = s.disc y ∨
    ∃ z x, InSub s y z ∧ x ∈ nbrs z ∧ s.visited x = true ∧ s.low y = s.disc x
  nfCutRoot : s.parent y = -1 → (s.cut y = true ↔
    ∃ c1 c2, c1 ≠ c2 ∧ s.visited c1 = true ∧ s.visited c2 = true ∧
      s.parent c1 = Int.ofNat y ∧ s.parent c2 = Int.ofNat y)
  nfCutIn : s.parent y ≠ -1 → (s.cut y = true ↔
    ∃ c, s.visited c = true ∧ s.parent c = Int.ofNat y ∧ s.disc y ≤ s.low c)

/-- Frame relation between two DFS states: visitedness grows, fields of
previously visited nodes are frozen except `low`/`cut` at `u`, and nodes
discovered in between get discovery times in the elapsed interval. -/
structure ExtAt (u : Nat) (s t : D1) : Prop where
  x_vis : ∀ y, s.visited y = true → t.visited y = true
  x_dpf : ∀ y, s.visited y = true →
    t.disc y = s.disc y ∧ t.parent y = s.parent y ∧ t.fintime y = s.fintime y
  x_lc : ∀ y, s.visited y = true → y ≠ u → t.low y = s.low y ∧ t.cut y = s.cut y
  x_time : s.time ≤ t.time
  x_fresh : ∀ y, s.visited y = false → t.visited y = true →
    s.time < t.disc y ∧ t.disc y ≤ t.time
  x_unvis : ∀ y, t.visited y = false →
    t.disc y = s.disc y ∧ t.low y = s.low y ∧ t.parent y = s.parent y ∧
      t.cut y = s.cut y ∧ t.fintime y = s.fintime y

/-- Precondition of a `dfs2` call on `u` with fuel bound `F` and excuse set
`O` (the open ancestors). -/
structure CallPre (n : Nat) (nbrs : Nat → List Nat) (F : Nat) (O : Nat → Prop)
    (s : D1) (u : Nat) : Prop where
  hu : u < n
  hvu : s.visited u = false
  hfuel : Ucard n s < F
  hW : Winv n nbrs s
  hpar : s.parent u = -1 ∨ ∃ p, s.parent u = Int.ofNat p ∧ s.visited p = true ∧ O p ∧ u ∈ nbrs p
  hO : ∀ y, s.visited y = true → ¬ O y → NodeFacts nbrs s y
  hOvis : ∀ a, O a → s.visited a = true

/-- Postcondition of a `dfs2` call on `u`. -/
structure CallPost (n : Nat) (nbrs : Nat → List Nat) (O : Nat → Prop)
    (s t : D1) (u : Nat) : Prop where
  cp_ext : ExtAt u s t
  cp_fp : ∀ c, s.visited c = false → t.visited c = true → c ≠ u →
    ∀ q, t.parent c = Int.ofNat q → s.visited q = false
  cp_visu : t.visited u = true
  cp_discu : t.disc u = s.time + 1
  cp_finu : t.fintime u = t.time
  cp_paru : t.parent u = s.parent u
  cp_W : Winv n nbrs t
  cp_O : ∀ y, t.visited y = true → ¬ O y → NodeFacts nbrs t y
  cp_parents : ∀ y, s.visited y = false → t.visited y = true → y ≠ u →
    ∃ p, t.parent y = Int.ofNat p ∧ t.visited p = true
  cp_newu : ∀ y, t.visited y = true → s.visited y = true ∨ InSub t u y

/-- Node `z` was discovered after the reference state `s0`. -/
def Nw (s0 σ : D1) (z : Nat) : Prop :=
  σ.visited z = true ∧ s0.time < σ.disc z

/-- `c` is a recorded tree child of `u`. -/
def Chl (σ : D1) (u c : Nat) : Prop :=
  σ.visited c = true ∧ σ.parent c = Int.ofNat u

/-- Invariant of the neighbor loop of `dfs2` at node `u`: `s` is the
pre-call state, `s1` the state right after `u` is stamped, `P` the
processed prefix of `nbrs u`, `σ`/`k` the current loop state. -/
structure LoopInv (n : Nat) (nbrs : Nat → List Nat) (O : Nat → Prop)
    (s s1 : D1) (u : Nat) (P : List Nat) (σ : D1) (k : Nat) : Prop where
  l_ext : ExtAt u s1 σ
  l_fp : ∀ c, s1.visited c = false → σ.visited c = true →
    ∀ q, σ.parent c = Int.ofNat q → q = u ∨ s1.visited q = false
  l_W : Winv n nbrs σ
  l_O : ∀ y, σ.visited y = true → ¬ O y → y ≠ u → NodeFacts nbrs σ y
  l_par : ∀ y, s1.visited y = false → σ.visited y = true →
    ∃ p, σ.parent y = Int.ofNat p ∧ σ.visited p = true
  l_pu : σ.parent u = s.parent u
  l_lowleq : σ.low u ≤ σ.disc u
  l_lowach : σ.low u = σ.disc u ∨
    ∃ z x, Nw s σ z ∧ x ∈ nbrs z ∧ σ.visited x = true ∧ σ.low u = σ.disc x
  l_lowdeep : ∀ c, Chl σ u c → σ.low u ≤ σ.low c
  l_lowpref : ∀ x ∈ P, s.visited x = true → Int.ofNat x ≠ s.parent u → σ.low u ≤ σ.disc x
  l_part : ∀ z, Nw s σ z → z ≠ u → ∃ c, Chl σ u c ∧ InSub σ c z
  l_kidfin : ∀ c, Chl σ u c → σ.disc u < σ.disc c ∧ σ.disc c ≤ σ.fintime c ∧ σ.fintime c ≤ σ.time
  l_child1 : (∃ c, Chl σ u c) ↔ 1 ≤ k
  l_child2 : (∃ c1 c2, c1 ≠ c2 ∧ Chl σ u c1 ∧ Chl σ u c2) ↔ 2 ≤ k
  l_cut : σ.cut u = true ↔
    ((s.parent u = -1 ∧ 2 ≤ k) ∨ (s.parent u ≠ -1 ∧ ∃ c, Chl σ u c ∧ σ.disc u ≤ σ.low c))
  l_pvis : ∀ x ∈ P, σ.visited x = true

/-- The state of the unvisited branch of `loop2` after the recursive call
returned `σp`: the low-min update followed by the conditional cut marking. -/
def afterchild (u v k : Nat) (σp : D1) : D1 :=
  let σm := if σp.low v < σp.low u then { σp with low := set1 σp.low u (σp.low v) } else σp
  if (σm.parent u = -1 ∧ k + 1 > 1) ∨ (σm.parent u ≠ -1 ∧ σm.low v ≥ σm.disc u) then
    { σm with cut := set1 σm.cut u true }
  else σm

/-- The state right after `dfs2` stamps its node: mark visited, advance the
clock, set `disc` and `low`. -/
def hdr (s : D1) (u : Nat) : D1 :=
  { s with visited := set1 s.visited u true, time := s.time + 1,
           disc := set1 s.disc u (s.time + 1), low := set1 s.low u (s.time + 1) }

/-- Everything the graph-theoretic phase needs about the final DFS state. -/
structure TarjanFacts (n : Nat) (nbrs : Nat → List Nat) (S : D1) : Prop where
  tf_visiff : ∀ y, S.visited y = true ↔ y < n
  tf_W : Winv n nbrs S
  tf_NF : ∀ y, S.visited y = true → NodeFacts nbrs S y
  tf_par0 : S.parent 0 = -1
  tf_vis0 : S.visited 0 = true
  tf_disc0 : S.disc 0 = 1
  tf_parents : ∀ y, S.visited y = true → y ≠ 0 →
    ∃ p, S.parent y = Int.ofNat p ∧ S.visited p = true
  tf_sub0 : ∀ y, S.visited y = true → InSub S 0 y

/-- Reachability whose every node satisfies `Q`. -/
def ReachIn (nbrs : Nat → List Nat) (Q : Nat → Prop) (a b : Nat) : Prop :=
  Relation.ReflTransGen (fun p q => q ∈ nbrs p ∧ Q p ∧ Q q) a b

/-- Neighbor lists of the 3-node path 0 - 1 - 2. -/
def path3_neighbors : Nat → List Nat := fun i => [[1], [0, 2], [1]].getD i []

/-- Global state holding the 3-node path graph. -/
def path3_st : St :=
  { n := 3, neighbors := path3_neighbors,
    degree := fun i => (path3_neighbors i).length,
    exists_edge := fun _ _ => false, redundant_edge := fun _ _ => false,
    d := initD, is_leaf_block := fun _ => false, leaf_blocks := [],
    original_edges := 0, redundant_edges_added := 0 }

end RPLMesh

set_option maxRecDepth 20000

namespace RPLMesh

/-- C1: the blocks returned by the analyzer do NOT partition the edge
set.  On the 3-node star (edges {0,1} and {0,2}, well within every
configured bound), the analyzer returns the single block {0,2}: the
edge {0,1} is present in the graph but belongs to zero returned blocks,
refuting "every edge belongs to exactly one block".  The cause is the
root handling of `tarjan_dfs_bicomp`: the articulation pop at line 178
fires for the root only from its second child on, and the final pop at
line 216 is guarded by `children <= 1`, so when the DFS root is an
articulation point the edges of its first DFS subtree are never popped
into any block. -/
theorem c1_partition_violated_on_star3 :
    star3.exists_edge 0 1 = true ∧
    (find_biconnected_components star3).d.blocks = [[0, 2]] ∧
    blocks_containing (find_biconnected_components star3).d.blocks 0 1 = 0 := by
  decide

/-- C3: evaluation of the star scenario (center 0, leaves 1..6).  The
cut-vertex set is exactly {0} and the planner adds exactly 3 edges as
claimed, but the analyzer produces only 5 blocks (all leaf blocks), not
the 6 the claim states: the bridge {0,1} of the root's first DFS
subtree is dropped.  Consequently leaf 1 is never paired (its degree
stays 1) and leaf 2 is paired twice (its degree rises from 1 to 3),
refuting "each paired leaf's degree increases by 1".  The center's
degree is unchanged. -/
theorem c3_star_scenario_diverges :
    (List.range 7).map star7_analyzed.d.is_cut =
      [true, false, false, false, false, false, false] ∧
    star7_analyzed.d.blocks = [[0, 2], [0, 3], [0, 4], [0, 5], [0, 6]] ∧
    identify_leaf_blocks star7_analyzed.d.blocks star7_analyzed.d.is_cut =
      [0, 1, 2, 3, 4] ∧
    star7_planned.redundant_edges_added = 3 ∧
    (List.range 7).map star7.degree = [6, 1, 1, 1, 1, 1, 1] ∧
    (List.range 7).map star7_planned.degree = [6, 1, 3, 2, 2, 2, 2] := by
  decide

/-- C4 counterexample: on the path graph 0-1-2-3-4 the analyzer returns
four blocks (one per bridge edge), not the three the claim states. -/
theorem c4_three_blocks_refuted :
    ¬ ((find_biconnected_components path5).d.blocks.length = 3) := by
  decide

/-- C4 amended: on the path graph 0-1-2-3-4 the analyzer reports cut
vertices exactly {1,2,3} and FOUR blocks, each a single edge, of which
exactly two ({3,4} and {0,1}) are leaf blocks; the planner adds exactly
one edge, between the representatives 4 and 0 of those two blocks,
tagged redundant; and re-running the analyzer afterwards reports zero
cut vertices. -/
theorem c4_amended_path_scenario :
    (List.range 5).map path5_analyzed.d.is_cut =
      [false, true, true, true, false] ∧
    path5_analyzed.d.blocks = [[3, 4], [2, 3], [1, 2], [0, 1]] ∧
    identify_leaf_blocks path5_analyzed.d.blocks path5_analyzed.d.is_cut = [0, 3] ∧
    path5.exists_edge 4 0 = false ∧
    path5_planned.redundant_edges_added = 1 ∧
    path5_planned.exists_edge 4 0 = true ∧
    path5_planned.redundant_edge 4 0 = true ∧
    path5_planned.redundant_edge 0 4 = true ∧
    (List.range 5).map (find_biconnected_components path5_planned).d.is_cut =
      [false, false, false, false, false] := by
  decide

/-- C5: when the neighbor-capacity bound is reached, the condition is
NOT surfaced: nothing in the state records it.  On `bipartite_pendant`
the analysis yields two leaf blocks whose representatives are node 3
(degree exactly MAX_NEIGHBORS) and node 0; the pair is otherwise
eligible (distinct representatives, edge absent), but the capacity
guard of line 299 fails, the insertion is silently skipped, and the
resulting state is indistinguishable from one in which there was
nothing to do: the counter `redundant_edges_added` is 0, no edge, no
neighbor list and no degree changed, and the state has no error flag at
all. -/
theorem c5_capacity_bound_silently_skipped :
    bipartite_pendant_analyzed.degree 3 = MAX_NEIGHBORS ∧
    identify_leaf_blocks bipartite_pendant_analyzed.d.blocks
      bipartite_pendant_analyzed.d.is_cut = [0, 1] ∧
    find_non_cut_in_block (bipartite_pendant_analyzed.d.blocks.getD 0 [])
      bipartite_pendant_analyzed.d.is_cut = 3 ∧
    find_non_cut_in_block (bipartite_pendant_analyzed.d.blocks.getD 1 [])
      bipartite_pendant_analyzed.d.is_cut = 0 ∧
    bipartite_pendant_analyzed.exists_edge 3 0 = false ∧
    bipartite_pendant_planned.exists_edge 3 0 = false ∧
    bipartite_pendant_planned.redundant_edges_added = 0 ∧
    bipartite_pendant_planned.neighbors 3 = bipartite_pendant_analyzed.neighbors 3 ∧
    bipartite_pendant_planned.neighbors 0 = bipartite_pendant_analyzed.neighbors 0 ∧
    (List.range 83).map bipartite_pendant_planned.degree =
      (List.range 83).map bipartite_pendant_analyzed.degree := by
  decide

/-- C8: the analyzer is deterministic and depends only on the adjacency
structure.  `find_biconnected_components` resets every piece of DFS and
block state before recomputing, so two states agreeing on the graph
fields produce identical DFS results, and running the analyzer twice on
an unmodified graph yields the same cut-vertex flags and the same block
list as running it once. -/
theorem c8_analyzer_deterministic (st st' : St) (h1 : st.n = st'.n)
    (h2 : st.neighbors = st'.neighbors) (h3 : st.degree = st'.degree) :
    (find_biconnected_components st).d = (find_biconnected_components st').d ∧
    (find_biconnected_components (find_biconnected_components st)).d.is_cut
      = (find_biconnected_components st).d.is_cut ∧
    (find_biconnected_components (find_biconnected_components st)).d.blocks
      = (find_biconnected_components st).d.blocks := by
  refine ⟨?_, rfl, rfl⟩
  simp only [find_biconnected_components, h1, h2, h3]

/-- C8 witness: the determinism theorem applied to the concrete star
graph. -/
theorem c8_analyzer_deterministic_witness :
    (star3.n = star3.n ∧ star3.neighbors = star3.neighbors ∧
      star3.degree = star3.degree) ∧
    ((find_biconnected_components star3).d = (find_biconnected_components star3).d ∧
     (find_biconnected_components (find_biconnected_components star3)).d.is_cut
       = (find_biconnected_components star3).d.is_cut ∧
     (find_biconnected_components (find_biconnected_components star3)).d.blocks
       = (find_biconnected_components star3).d.blocks) :=
  ⟨⟨rfl, rfl, rfl⟩, c8_analyzer_deterministic star3 star3 rfl rfl rfl⟩

/-- C9: on a state whose analysis yields zero leaf blocks, the planner
adds zero edges and leaves the graph (neighbor lists, degrees, edge and
redundancy matrices) and the analysis results unchanged. -/
theorem c9_planner_noop_without_leaf_blocks (st : St)
    (h : identify_leaf_blocks st.d.blocks st.d.is_cut = []) :
    (add_optimal_redundant_edges st).redundant_edges_added = 0 ∧
    (add_optimal_redundant_edges st).neighbors = st.neighbors ∧
    (add_optimal_redundant_edges st).degree = st.degree ∧
    (add_optimal_redundant_edges st).exists_edge = st.exists_edge ∧
    (add_optimal_redundant_edges st).redundant_edge = st.redundant_edge ∧
    (add_optimal_redundant_edges st).d = st.d := by
  simp [add_optimal_redundant_edges, h, planner_loop]

/-- C9 witness: the triangle graph is biconnected, its analysis yields
zero leaf blocks, and the planner leaves it unchanged. -/
theorem c9_planner_noop_witness :
    identify_leaf_blocks triangle_analyzed.d.blocks triangle_analyzed.d.is_cut
      = [] ∧
    ((add_optimal_redundant_edges triangle_analyzed).redundant_edges_added = 0 ∧
     (add_optimal_redundant_edges triangle_analyzed).neighbors =
       triangle_analyzed.neighbors ∧
     (add_optimal_redundant_edges triangle_analyzed).degree =
       triangle_analyzed.degree ∧
     (add_optimal_redundant_edges triangle_analyzed).exists_edge =
       triangle_analyzed.exists_edge ∧
     (add_optimal_redundant_edges triangle_analyzed).redundant_edge =
       triangle_analyzed.redundant_edge ∧
     (add_optimal_redundant_edges triangle_analyzed).d = triangle_analyzed.d) :=
  ⟨by decide, c9_planner_noop_without_leaf_blocks triangle_analyzed (by decide)⟩

end RPLMesh

namespace RPLMesh

theorem insert_edge_raw_neighbors (st : St) (u v : Nat) (huv : u ≠ v) (a : Nat) :
    (insert_edge_raw st u v).neighbors a =
      if a = v then st.neighbors v ++ [u]
      else if a = u then st.neighbors u ++ [v]
      else st.neighbors a := by
  simp only [insert_edge_raw, set1]
  split_ifs with h1 h2 <;> simp_all

theorem insert_edge_raw_degree (st : St) (u v : Nat) (huv : u ≠ v) (a : Nat) :
    (insert_edge_raw st u v).degree a =
      if a = v then st.degree v + 1
      else if a = u then st.degree u + 1
      else st.degree a := by
  simp only [insert_edge_raw, set1]
  split_ifs with h1 h2 <;> simp_all

theorem insert_edge_raw_exists_edge (st : St) (u v : Nat) (a b : Nat) :
    (insert_edge_raw st u v).exists_edge a b =
      if (a = v ∧ b = u) ∨ (a = u ∧ b = v) then true else st.exists_edge a b := by
  simp only [insert_edge_raw, set2sym, set2]
  split_ifs <;> first | rfl | tauto

theorem mem_insert_edge_raw_neighbors (st : St) (u v : Nat) (huv : u ≠ v) (a b : Nat) :
    b ∈ (insert_edge_raw st u v).neighbors a ↔
      b ∈ st.neighbors a ∨ (a = u ∧ b = v) ∨ (a = v ∧ b = u) := by
  rw [insert_edge_raw_neighbors st u v huv a]
  split_ifs with h1 h2 <;> subst_eqs <;> simp_all [List.mem_append] <;> tauto

theorem graphInv_insert (st : St) (u v : Nat) (huv : u ≠ v)
    (hu : st.degree u < MAX_NEIGHBORS) (hv : st.degree v < MAX_NEIGHBORS)
    (h : GraphInv st) : GraphInv (insert_edge_raw st u v) := by
  obtain ⟨hdeg, hsym, hlen⟩ := h
  refine ⟨?_, ?_, ?_⟩
  · intro a
    rw [insert_edge_raw_degree st u v huv a]
    split_ifs with h1 h2
    · omega
    · omega
    · exact hdeg a
  · intro a b
    rw [mem_insert_edge_raw_neighbors st u v huv a b,
        mem_insert_edge_raw_neighbors st u v huv b a]
    have h1 := hsym a b
    have h2 := hsym b a
    tauto
  · intro a
    rw [insert_edge_raw_degree st u v huv a, insert_edge_raw_neighbors st u v huv a]
    split_ifs <;> simp [hlen]

end RPLMesh

namespace RPLMesh

theorem find_non_cut_shape (blk : List Nat) (isCut : Nat → Bool) :
    find_non_cut_in_block blk isCut = -1 ∨
    ∃ x ∈ blk, find_non_cut_in_block blk isCut = Int.ofNat x := by
  unfold find_non_cut_in_block
  cases hf : blk.find? (fun x => !isCut x) with
  | some x => exact Or.inr ⟨x, List.mem_of_find?_eq_some hf, rfl⟩
  | none =>
    cases blk with
    | nil => exact Or.inl rfl
    | cons x xs => exact Or.inr ⟨x, List.mem_cons_self x xs, rfl⟩

theorem graphInv_add_redundant_pair (st : St) (u v : Nat) (huv : u ≠ v)
    (hu : st.degree u < MAX_NEIGHBORS) (hv : st.degree v < MAX_NEIGHBORS)
    (h : GraphInv st) : GraphInv (add_redundant_pair st u v) :=
  graphInv_insert st u v huv hu hv h

theorem graphInv_planner_pair_step (blocks : List (List Nat)) (isCut : Nat → Bool)
    (b1 b2 : Nat) (st : St) (h : GraphInv st) :
    GraphInv (planner_pair_step blocks isCut b1 b2 st) := by
  dsimp only [planner_pair_step]
  split_ifs with hA hB
  · obtain ⟨hn1, hn2, hne, hedge⟩ := hA
    rcases find_non_cut_shape (blocks.getD b1 []) isCut with h1 | ⟨x, hx, h1⟩
    · exact absurd h1 hn1
    rcases find_non_cut_shape (blocks.getD b2 []) isCut with h2 | ⟨y, hy, h2⟩
    · exact absurd h2 hn2
    rw [h1, h2] at hne ⊢
    rw [h1] at hB
    rw [h2] at hB
    have hxy : x ≠ y := by
      intro he
      exact hne (by rw [he])
    simpa using graphInv_add_redundant_pair st x y hxy (by simpa using hB.1) (by simpa using hB.2) h
  · exact h
  · exact h

theorem graphInv_planner_loop (blocks : List (List Nat)) (isCut : Nat → Bool)
    (leafs : List Nat) :
    ∀ (fuel i : Nat) (st : St), GraphInv st →
      GraphInv (planner_loop blocks isCut leafs fuel i st) := by
  intro fuel
  induction fuel with
  | zero => intro i st h; exact h
  | succ fuel ih =>
    intro i st h
    rw [planner_loop]
    split_ifs with hi hi2
    · exact ih (i + 2) _ (graphInv_planner_pair_step _ _ _ _ _ h)
    · exact ih (i + 2) _ (graphInv_planner_pair_step _ _ _ _ _ h)
    · exact h

theorem graphInv_apply_op (st : St) (op : Op) (h : GraphInv st) :
    GraphInv (apply_op st op) := by
  cases op with
  | tree i p =>
    simp only [apply_op]
    split_ifs with hc
    · exact graphInv_insert st i p (by omega) hc.2.1 hc.2.2 h
    · exact h
  | cross u v =>
    simp only [apply_op]
    split_ifs with hc
    · exact graphInv_insert st u v hc.1 hc.2.2.1 hc.2.2.2 h
    · exact h
  | plan => exact graphInv_planner_loop _ _ _ _ _ _ h
  | analyze => exact h

/-- C7: after any sequence of topology-generation and planner (and
analyzer) operations starting from the freshly initialized state, the
graph store satisfies the degree bound (every degree at most
MAX_NEIGHBORS), adjacency symmetry (u appears in v's neighbor list iff
v appears in u's) and degree consistency (each degree equals the length
of the corresponding neighbor list). -/
theorem c7_degree_bound_and_symmetry (ops : List Op) (n : Nat) :
    GraphInv (ops.foldl apply_op (init_state n)) := by
  have hinit : GraphInv (init_state n) := by
    refine ⟨fun u => by simp [init_state, MAX_NEIGHBORS], fun u v => by simp [init_state], fun u => by simp [init_state]⟩
  have H : ∀ (l : List Op) (st : St), GraphInv st → GraphInv (l.foldl apply_op st) := by
    intro l
    induction l with
    | nil => exact fun st h => h
    | cons o l ih => exact fun st h => ih _ (graphInv_apply_op st o h)
  exact H ops _ hinit

end RPLMesh

namespace RPLMesh

theorem getD_mem_of_lt {l : List Nat} {i : Nat} (h : i < l.length) : l.getD i 0 ∈ l := by
  rw [List.getD_eq_getElem l 0 h]
  exact List.getElem_mem h

theorem blocks_getD_mem {blocks : List (List Nat)} {b : Nat} (h : b < blocks.length) :
    blocks.getD b [] ∈ blocks := by
  rw [List.getD_eq_getElem blocks [] h]
  exact List.getElem_mem h

theorem mem_identify_lt {blocks : List (List Nat)} {isCut : Nat → Bool} {b : Nat}
    (h : b ∈ identify_leaf_blocks blocks isCut) : b < blocks.length := by
  unfold identify_leaf_blocks at h
  have := List.mem_filter.mp h
  exact List.mem_range.mp this.1

theorem sum_degree_insert (st : St) (u v : Nat) (huv : u ≠ v)
    (hu : u < st.n) (hv : v < st.n) :
    sum_degree (insert_edge_raw st u v) = sum_degree st + 2 := by
  have hdeg : (insert_edge_raw st u v).degree =
      Function.update (Function.update st.degree u (st.degree u + 1)) v
        (st.degree v + 1) := by
    funext a
    rw [insert_edge_raw_degree st u v huv a]
    simp only [Function.update_apply]
  have hn : (insert_edge_raw st u v).n = st.n := rfl
  unfold sum_degree
  rw [hn, hdeg]
  rw [Finset.sum_update_of_mem (Finset.mem_range.mpr hv)]
  rw [Finset.sdiff_singleton_eq_erase]
  rw [Finset.sum_update_of_mem
    (Finset.mem_erase.mpr ⟨huv, Finset.mem_range.mpr hu⟩)]
  rw [Finset.sdiff_singleton_eq_erase]
  have h1 : st.degree v + ∑ x in (Finset.range st.n).erase v, st.degree x
      = ∑ x in Finset.range st.n, st.degree x :=
    Finset.add_sum_erase _ _ (Finset.mem_range.mpr hv)
  have h2 : st.degree u + ∑ x in ((Finset.range st.n).erase v).erase u, st.degree x
      = ∑ x in (Finset.range st.n).erase v, st.degree x :=
    Finset.add_sum_erase _ _ (Finset.mem_erase.mpr ⟨huv, Finset.mem_range.mpr hu⟩)
  omega

theorem add_redundant_pair_frame (st : St) (u v : Nat) (huv : u ≠ v)
    (hu : u < st.n) (hv : v < st.n) :
    (add_redundant_pair st u v).n = st.n ∧
    (add_redundant_pair st u v).d = st.d ∧
    (add_redundant_pair st u v).leaf_blocks = st.leaf_blocks ∧
    (add_redundant_pair st u v).is_leaf_block = st.is_leaf_block ∧
    (∀ a b, st.exists_edge a b = true →
      (add_redundant_pair st u v).exists_edge a b = true) ∧
    (∀ a, ∃ t, (add_redundant_pair st u v).neighbors a = st.neighbors a ++ t) ∧
    (∀ a, st.degree a ≤ (add_redundant_pair st u v).degree a) ∧
    (add_redundant_pair st u v).redundant_edges_added = st.redundant_edges_added + 1 ∧
    sum_degree (add_redundant_pair st u v) = sum_degree st + 2 := by
  refine ⟨rfl, rfl, rfl, rfl, ?_, ?_, ?_, rfl, ?_⟩
  · intro a b hab
    have : (add_redundant_pair st u v).exists_edge a b
        = (insert_edge_raw st u v).exists_edge a b := rfl
    rw [this, insert_edge_raw_exists_edge]
    split_ifs <;> simp [hab]
  · intro a
    have : (add_redundant_pair st u v).neighbors a
        = (insert_edge_raw st u v).neighbors a := rfl
    rw [this, insert_edge_raw_neighbors st u v huv a]
    split_ifs with h1 h2
    · exact ⟨[u], by rw [h1]⟩
    · exact ⟨[v], by rw [h2]⟩
    · exact ⟨[], by simp⟩
  · intro a
    have : (add_redundant_pair st u v).degree a
        = (insert_edge_raw st u v).degree a := rfl
    rw [this, insert_edge_raw_degree st u v huv a]
    split_ifs with h1 h2
    · subst h1; omega
    · subst h2; omega
    · omega
  · exact sum_degree_insert st u v huv hu hv

theorem planner_pair_step_cases (blocks : List (List Nat)) (isCut : Nat → Bool)
    (b1 b2 : Nat) (st : St) :
    planner_pair_step blocks isCut b1 b2 st = st ∨
    ∃ u v, u ≠ v ∧ u ∈ blocks.getD b1 [] ∧ v ∈ blocks.getD b2 [] ∧
      st.degree u < MAX_NEIGHBORS ∧ st.degree v < MAX_NEIGHBORS ∧
      planner_pair_step blocks isCut b1 b2 st = add_redundant_pair st u v := by
  dsimp only [planner_pair_step]
  split_ifs with hA hB
  · obtain ⟨hn1, hn2, hne, hedge⟩ := hA
    rcases find_non_cut_shape (blocks.getD b1 []) isCut with h1 | ⟨x, hx, h1⟩
    · exact absurd h1 hn1
    rcases find_non_cut_shape (blocks.getD b2 []) isCut with h2 | ⟨y, hy, h2⟩
    · exact absurd h2 hn2
    rw [h1, h2] at hne
    rw [h1] at hB
    rw [h2] at hB
    have hxy : x ≠ y := fun he => hne (by rw [he])
    right
    refine ⟨x, y, hxy, hx, hy, by simpa using hB.1, by simpa using hB.2, ?_⟩
    rw [h1, h2]
    simp
  · exact Or.inl rfl
  · exact Or.inl rfl

end RPLMesh

namespace RPLMesh

theorem planner_loop_frame (blocks : List (List Nat)) (isCut : Nat → Bool)
    (leafs : List Nat) (N : Nat)
    (hmem : ∀ b ∈ leafs, ∀ x ∈ blocks.getD b [], x < N) :
    ∀ (fuel i : Nat) (st : St), st.n = N →
      (planner_loop blocks isCut leafs fuel i st).n = st.n ∧
      (planner_loop blocks isCut leafs fuel i st).d = st.d ∧
      (planner_loop blocks isCut leafs fuel i st).leaf_blocks = st.leaf_blocks ∧
      (planner_loop blocks isCut leafs fuel i st).is_leaf_block = st.is_leaf_block ∧
      (∀ a b, st.exists_edge a b = true →
        (planner_loop blocks isCut leafs fuel i st).exists_edge a b = true) ∧
      (∀ a, ∃ t, (planner_loop blocks isCut leafs fuel i st).neighbors a
        = st.neighbors a ++ t) ∧
      (∀ a, st.degree a ≤ (planner_loop blocks isCut leafs fuel i st).degree a) ∧
      ∃ k, (planner_loop blocks isCut leafs fuel i st).redundant_edges_added
              = st.redundant_edges_added + k ∧
           sum_degree (planner_loop blocks isCut leafs fuel i st)
              = sum_degree st + 2 * k ∧
           k ≤ (leafs.length - i + 1) / 2 := by
  intro fuel
  induction fuel with
  | zero =>
    intro i st hn
    rw [planner_loop]
    exact ⟨rfl, rfl, rfl, rfl, fun a b h => h,
      fun a => ⟨[], (List.append_nil _).symm⟩,
      fun a => Nat.le_refl _, 0, by omega, by omega, by omega⟩
  | succ fuel ih =>
    intro i st hn
    rw [planner_loop]
    by_cases hi : i < leafs.length
    · simp only [if_pos hi]
      set b2 := if i + 1 < leafs.length then leafs.getD (i + 1) 0 else leafs.getD 0 0 with hb2
      have hb1mem : leafs.getD i 0 ∈ leafs := getD_mem_of_lt hi
      have hb2mem : b2 ∈ leafs := by
        rw [hb2]
        split_ifs with h2
        · exact getD_mem_of_lt h2
        · exact getD_mem_of_lt (by omega)
      rcases planner_pair_step_cases blocks isCut (leafs.getD i 0) b2 st with hstep |
        ⟨u, v, huv, hu, hv, hdu, hdv, hstep⟩
      · rw [hstep]
        obtain ⟨g1, g2, g3, g4, g5, g6, g7, k, gk1, gk2, gk3⟩ := ih (i + 2) st hn
        exact ⟨g1, g2, g3, g4, g5, g6, g7, k, gk1, gk2, by omega⟩
      · rw [hstep]
        have huN : u < N := hmem _ hb1mem u hu
        have hvN : v < N := hmem _ hb2mem v hv
        obtain ⟨p1, p2, p3, p4, p5, p6, p7, p8, p9⟩ :=
          add_redundant_pair_frame st u v huv (by omega) (by omega)
        obtain ⟨g1, g2, g3, g4, g5, g6, g7, k, gk1, gk2, gk3⟩ :=
          ih (i + 2) (add_redundant_pair st u v) (by rw [p1, hn])
        refine ⟨by rw [g1, p1], by rw [g2, p2], by rw [g3, p3], by rw [g4, p4],
          ?_, ?_, ?_, k + 1, ?_, ?_, by omega⟩
        · intro a b h
          exact g5 a b (p5 a b h)
        · intro a
          obtain ⟨t1, ht1⟩ := p6 a
          obtain ⟨t2, ht2⟩ := g6 a
          exact ⟨t1 ++ t2, by rw [ht2, ht1, List.append_assoc]⟩
        · intro a
          exact Nat.le_trans (p7 a) (g7 a)
        · omega
        · omega
    · rw [if_neg hi]
      exact ⟨rfl, rfl, rfl, rfl, fun a b h => h,
        fun a => ⟨[], (List.append_nil _).symm⟩,
        fun a => Nat.le_refl _, 0, by omega, by omega, by omega⟩

/-- C10: the planner only ever extends the graph.  On a state whose
leaf-block classification agrees with its blocks and cut flags (as
established by the preceding analysis) and whose block members are
among the graph's nodes, `add_optimal_redundant_edges` leaves the
cut-vertex flags, the block list and the leaf-block classification
unchanged, never removes an edge or an entry of a neighbor list, never
decreases a degree, and its counter `redundant_edges_added` equals
exactly the number of edges inserted in that call (total degree grows
by exactly twice the counter), which is at most
`ceil(num_leaf_blocks / 2)`. -/
theorem classified_spec (st : St) :
    classified st = { st with
      leaf_blocks := identify_leaf_blocks st.d.blocks st.d.is_cut,
      is_leaf_block := fun b =>
        decide (b ∈ identify_leaf_blocks st.d.blocks st.d.is_cut),
      redundant_edges_added := 0 } := rfl

theorem add_optimal_redundant_edges_def (st : St) :
    add_optimal_redundant_edges st =
      planner_loop st.d.blocks st.d.is_cut
        (identify_leaf_blocks st.d.blocks st.d.is_cut)
        ((identify_leaf_blocks st.d.blocks st.d.is_cut).length + 1) 0
        (classified st) := rfl

/-- C10: the planner only ever extends the graph.  On a state whose
leaf-block classification agrees with its blocks and cut flags (as
established by the preceding analysis) and whose block members are
among the graph's nodes, `add_optimal_redundant_edges` leaves the
cut-vertex flags, the block list and the leaf-block classification
unchanged, never removes an edge or an entry of a neighbor list, never
decreases a degree, and its counter `redundant_edges_added` equals
exactly the number of edges inserted in that call (the total degree
grows by exactly twice the counter), which is at most
`ceil(num_leaf_blocks / 2)`. -/
theorem c10_planner_frame (st : St)
    (hleaf : st.leaf_blocks = identify_leaf_blocks st.d.blocks st.d.is_cut)
    (hbound : ∀ blk ∈ st.d.blocks, ∀ x ∈ blk, x < st.n) :
    (add_optimal_redundant_edges st).d = st.d ∧
    (add_optimal_redundant_edges st).leaf_blocks = st.leaf_blocks ∧
    (∀ a b, st.exists_edge a b = true →
      (add_optimal_redundant_edges st).exists_edge a b = true) ∧
    (∀ a, ∃ t, (add_optimal_redundant_edges st).neighbors a = st.neighbors a ++ t) ∧
    (∀ a, st.degree a ≤ (add_optimal_redundant_edges st).degree a) ∧
    sum_degree (add_optimal_redundant_edges st)
      = sum_degree st + 2 * (add_optimal_redundant_edges st).redundant_edges_added ∧
    (add_optimal_redundant_edges st).redundant_edges_added
      ≤ (st.leaf_blocks.length + 1) / 2 := by
  have hmem : ∀ b ∈ identify_leaf_blocks st.d.blocks st.d.is_cut,
      ∀ x ∈ st.d.blocks.getD b [], x < st.n := by
    intro b hb x hx
    exact hbound _ (blocks_getD_mem (mem_identify_lt hb)) x hx
  obtain ⟨g1, g2, g3, g4, g5, g6, g7, k, gk1, gk2, gk3⟩ :=
    planner_loop_frame st.d.blocks st.d.is_cut
      (identify_leaf_blocks st.d.blocks st.d.is_cut) st.n hmem
      ((identify_leaf_blocks st.d.blocks st.d.is_cut).length + 1) 0
      (classified st) rfl
  rw [add_optimal_redundant_edges_def st]
  have hc1 : (classified st).redundant_edges_added = 0 := rfl
  have hc2 : sum_degree (classified st) = sum_degree st := rfl
  have hc3 : (classified st).leaf_blocks
      = identify_leaf_blocks st.d.blocks st.d.is_cut := rfl
  refine ⟨g2, ?_, g5, g6, g7, ?_, ?_⟩
  · rw [g3, hc3, hleaf]
  · rw [gk2, gk1, hc1, hc2]
    omega
  · rw [gk1, hc1, hleaf]
    omega

end RPLMesh

namespace RPLMesh

theorem ofNat_ne_neg_one (m : Nat) : Int.ofNat m ≠ -1 := by
  intro h
  have h0 : (0 : Int) ≤ Int.ofNat m := Int.ofNat_nonneg m
  rw [h] at h0
  exact absurd h0 (by decide)

theorem ofNat_ne_of_ne {m k : Nat} (h : m ≠ k) : Int.ofNat m ≠ Int.ofNat k :=
  fun he => h (Int.ofNat.inj he)

theorem ofNat_toNat_id (m : Nat) : (Int.ofNat m).toNat = m := rfl

theorem find_non_cut_eq_spec (blk : List Nat) (isCut : Nat → Bool) (h : blk ≠ []) :
    find_non_cut_in_block blk isCut = Int.ofNat (spec_representative blk isCut) := by
  unfold find_non_cut_in_block spec_representative
  cases hf : blk.find? (fun x => !isCut x) with
  | some x => rfl
  | none =>
    cases blk with
    | nil => exact absurd rfl h
    | cons x xs => rfl

theorem pair_step_agree (blocks : List (List Nat)) (isCut : Nat → Bool)
    (b1 b2 : Nat) (st : St)
    (h1 : blocks.getD b1 [] ≠ []) (h2 : blocks.getD b2 [] ≠ []) :
    planner_pair_step blocks isCut b1 b2 st
      = spec_planner_step blocks isCut st (b1, b2) := by
  dsimp only [planner_pair_step, spec_planner_step]
  rw [find_non_cut_eq_spec _ isCut h1, find_non_cut_eq_spec _ isCut h2]
  simp only [ofNat_toNat_id, ← ite_and]
  refine if_congr ?_ rfl rfl
  constructor
  · rintro ⟨⟨-, -, h3, h4⟩, h5, h6⟩
    exact ⟨fun he => h3 (by rw [he]), h4, h5, h6⟩
  · rintro ⟨h3, h4, h5, h6⟩
    exact ⟨⟨ofNat_ne_neg_one _, ofNat_ne_neg_one _, ofNat_ne_of_ne h3, h4⟩, h5, h6⟩

theorem getD_of_drop : ∀ (l : List Nat) (i a : Nat) (t : List Nat),
    l.drop i = a :: t → l.getD i 0 = a := by
  intro l
  induction l with
  | nil => intro i a t h; simp at h
  | cons x xs ih =>
    intro i a t h
    cases i with
    | zero =>
      simp only [List.drop_zero] at h
      rw [List.getD_cons_zero]
      exact (List.cons.injEq _ _ _ _ ▸ h).1
    | succ i =>
      simp only [List.drop_succ_cons] at h
      rw [List.getD_cons_succ]
      exact ih i a t h

theorem planner_loop_eq_spec_aux (blocks : List (List Nat)) (isCut : Nat → Bool)
    (leafs : List Nat)
    (hne : ∀ b ∈ leafs, blocks.getD b [] ≠ []) :
    ∀ (fuel : Nat) (l : List Nat) (i : Nat) (st : St),
      leafs.drop i = l → l.length < fuel →
      planner_loop blocks isCut leafs fuel i st =
        (spec_pairs_from (leafs.getD 0 0) l).foldl
          (spec_planner_step blocks isCut) st := by
  intro fuel
  induction fuel with
  | zero => intro l i st hd hl; omega
  | succ fuel ih =>
    intro l i st hd hl
    have hlend := congrArg List.length hd
    simp only [List.length_drop] at hlend
    rcases l with _ | ⟨a, _ | ⟨b, rest⟩⟩
    · simp only [List.length_nil] at hlend
      rw [planner_loop, if_neg (show ¬ i < leafs.length by omega)]
      rw [spec_pairs_from]
      rfl
    · simp only [List.length_cons, List.length_nil] at hlend
      have hi : i < leafs.length := by omega
      have hni : ¬ i + 1 < leafs.length := by omega
      have hmem1 : leafs.getD i 0 ∈ leafs := getD_mem_of_lt hi
      have hmem0 : leafs.getD 0 0 ∈ leafs := getD_mem_of_lt (by omega)
      rw [planner_loop, if_pos hi, if_neg hni]
      have hdrop2 : leafs.drop (i + 2) = [] := by
        apply List.drop_eq_nil_of_le
        omega
      have hfuel : ([] : List Nat).length < fuel := by
        simp only [List.length_nil]
        simp only [List.length_cons, List.length_nil] at hl
        omega
      rw [ih [] (i + 2) _ hdrop2 hfuel]
      rw [getD_of_drop leafs i a [] hd]
      rw [spec_pairs_from, spec_pairs_from]
      simp only [List.foldl_cons, List.foldl_nil]
      rw [pair_step_agree blocks isCut a (leafs.getD 0 0) st
        (by rw [← getD_of_drop leafs i a [] hd]; exact hne _ hmem1)
        (hne _ hmem0)]
    · simp only [List.length_cons] at hlend
      have hi : i < leafs.length := by omega
      have hi2 : i + 1 < leafs.length := by omega
      have hmem1 : leafs.getD i 0 ∈ leafs := getD_mem_of_lt hi
      have hmem2 : leafs.getD (i + 1) 0 ∈ leafs := getD_mem_of_lt hi2
      rw [planner_loop, if_pos hi, if_pos hi2]
      have hdrop2 : leafs.drop (i + 2) = rest := by
        rw [← List.drop_drop, hd]
        rfl
      have hfuel : rest.length < fuel := by
        simp only [List.length_cons] at hl
        omega
      rw [ih rest (i + 2) _ hdrop2 hfuel]
      have hga : leafs.getD i 0 = a := getD_of_drop leafs i a (b :: rest) hd
      have hgb : leafs.getD (i + 1) 0 = b := by
        apply getD_of_drop leafs (i + 1) b rest
        rw [← List.drop_drop, hd]
        rfl
      rw [spec_pairs_from]
      simp only [List.foldl_cons]
      rw [pair_step_agree blocks isCut (leafs.getD i 0) (leafs.getD (i + 1) 0) st
        (hne _ hmem1) (hne _ hmem2)]
      rw [hga, hgb]

theorem spec_planner_def (st : St) :
    spec_planner st =
      (spec_pairs (identify_leaf_blocks st.d.blocks st.d.is_cut)).foldl
        (spec_planner_step st.d.blocks st.d.is_cut) (classified st) := rfl

/-- C6: the planner implements exactly the pairing policy of the spec.
When every block is nonempty (as the analyzer guarantees), the source
planner equals the spec-side planner: it pairs the leaf blocks in
discovery order as (leaf[0],leaf[1]), (leaf[2],leaf[3]), ..., pairing a
final unpaired leaf with leaf[0]; for each pair it adds an edge between
the blocks' representatives (the first non-cut member if one exists,
otherwise the first member) exactly when the representatives differ,
the edge does not already exist, and both endpoints have spare neighbor
capacity; and each inserted edge is tagged redundant symmetrically. -/
theorem c6_planner_refines_spec (st : St)
    (h : ∀ blk ∈ st.d.blocks, blk ≠ []) :
    add_optimal_redundant_edges st = spec_planner st := by
  have hne : ∀ b ∈ identify_leaf_blocks st.d.blocks st.d.is_cut,
      st.d.blocks.getD b [] ≠ [] :=
    fun b hb => h _ (blocks_getD_mem (mem_identify_lt hb))
  rw [add_optimal_redundant_edges_def st, spec_planner_def st]
  cases hL : identify_leaf_blocks st.d.blocks st.d.is_cut with
  | nil =>
    rfl
  | cons a rest =>
    rw [hL] at hne
    have := planner_loop_eq_spec_aux st.d.blocks st.d.is_cut (a :: rest) hne
      ((a :: rest).length + 1) (a :: rest) 0 (classified st) rfl
      (Nat.lt_succ_self _)
    rw [this]
    rfl

/-- C6 witness: the refinement applied to the analyzed path graph, on
which the planner actually inserts an edge. -/
theorem c6_planner_refines_spec_witness :
    (∀ blk ∈ path5_analyzed.d.blocks, blk ≠ []) ∧
    add_optimal_redundant_edges path5_analyzed = spec_planner path5_analyzed :=
  ⟨by decide, c6_planner_refines_spec path5_analyzed (by decide)⟩

end RPLMesh

namespace RPLMesh

/-- C10 witness: the frame theorem applied to the planned path-graph
state, whose leaf-block classification was computed by the planner from
the analysis results and whose blocks mention only nodes below n. -/
theorem c10_planner_frame_witness :
    (path5_planned.leaf_blocks
        = identify_leaf_blocks path5_planned.d.blocks path5_planned.d.is_cut ∧
      (∀ blk ∈ path5_planned.d.blocks, ∀ x ∈ blk, x < path5_planned.n)) ∧
    ((add_optimal_redundant_edges path5_planned).d = path5_planned.d ∧
     (add_optimal_redundant_edges path5_planned).leaf_blocks
        = path5_planned.leaf_blocks ∧
     (∀ a b, path5_planned.exists_edge a b = true →
       (add_optimal_redundant_edges path5_planned).exists_edge a b = true) ∧
     (∀ a, ∃ t, (add_optimal_redundant_edges path5_planned).neighbors a
        = path5_planned.neighbors a ++ t) ∧
     (∀ a, path5_planned.degree a
        ≤ (add_optimal_redundant_edges path5_planned).degree a) ∧
     sum_degree (add_optimal_redundant_edges path5_planned)
        = sum_degree path5_planned
          + 2 * (add_optimal_redundant_edges path5_planned).redundant_edges_added ∧
     (add_optimal_redundant_edges path5_planned).redundant_edges_added
        ≤ (path5_planned.leaf_blocks.length + 1) / 2) :=
  ⟨⟨by decide, by decide⟩, c10_planner_frame path5_planned (by decide) (by decide)⟩


theorem projD_push_edge (s : D) (u v : Nat) : projD (push_edge s u v) = projD s := by
  unfold push_edge
  split <;> rfl

theorem projD_close_block (s : D) (u v : Nat) : projD (close_block s u v) = projD s := rfl

theorem projD_close_root_block (s : D) : projD (close_root_block s) = projD s := rfl

theorem map_range_getD (l : List Nat) :
    (List.range l.length).map (fun i => l.getD i 0) = l := by
  apply List.ext_getElem
  · simp
  · intro i h1 h2
    simp only [List.getElem_map, List.getElem_range]
    exact List.getD_eq_getElem l 0 h2

theorem projD_low_eq {s : D} {t : D0} (h : projD s = t) : s.low = t.low :=
  congrArg D0.low h

theorem projD_disc_eq {s : D} {t : D0} (h : projD s = t) : s.disc = t.disc :=
  congrArg D0.disc h

theorem projD_parent_eq {s : D} {t : D0} (h : projD s = t) : s.parent_tarjan = t.parent :=
  congrArg D0.parent h

theorem projD_visited_eq {s : D} {t : D0} (h : projD s = t) : s.visited = t.visited :=
  congrArg D0.visited h

theorem projD_time_eq {s : D} {t : D0} (h : projD s = t) : s.time_dfs = t.time :=
  congrArg D0.time h

theorem projD_cut_eq {s : D} {t : D0} (h : projD s = t) : s.is_cut = t.cut :=
  congrArg D0.cut h

theorem neighbor_loop_cons (recur : Nat → D → D) (nbrs : Nat → List Nat)
    (u i : Nat) (idxs : List Nat) (sc : D × Nat) :
    neighbor_loop recur nbrs u (i :: idxs) sc
      = neighbor_loop recur nbrs u idxs (nbody recur nbrs u i sc) := rfl

theorem loop1_cons (recur0 : Nat → D0 → D0) (u v : Nat) (vs : List Nat) (sc : D0 × Nat) :
    loop1 recur0 u (v :: vs) sc = loop1 recur0 u vs (lbody recur0 u v sc) := rfl

theorem projD_disc_raw (s : D) : (projD s).disc = s.disc := rfl

theorem projD_low_raw (s : D) : (projD s).low = s.low := rfl

theorem projD_parent_raw (s : D) : (projD s).parent = s.parent_tarjan := rfl

theorem projD_visited_raw (s : D) : (projD s).visited = s.visited := rfl

theorem projD_time_raw (s : D) : (projD s).time = s.time_dfs := rfl

theorem projD_cut_raw (s : D) : (projD s).cut = s.is_cut := rfl

theorem proj_nbody (recur : Nat → D → D) (recur0 : Nat → D0 → D0)
    (hrec : ∀ v s, projD (recur v s) = recur0 v (projD s))
    (nbrs : Nat → List Nat) (u i : Nat) (sc : D × Nat) :
    (projD (nbody recur nbrs u i sc).1, (nbody recur nbrs u i sc).2)
      = lbody recur0 u ((nbrs u).getD i 0) (projD sc.1, sc.2) := by
  obtain ⟨s, children⟩ := sc
  dsimp only [nbody, lbody]
  by_cases hvis : s.visited ((nbrs u).getD i 0) = false
  · rw [if_pos hvis, if_pos (show (projD s).visited ((nbrs u).getD i 0) = false from hvis)]
    generalize hBd : recur ((nbrs u).getD i 0) (push_edge { s with parent_tarjan := set1 s.parent_tarjan ((nbrs u).getD i 0) (Int.ofNat u) } u ((nbrs u).getD i 0)) = B
    generalize hB0d : recur0 ((nbrs u).getD i 0) { projD s with parent := set1 (projD s).parent ((nbrs u).getD i 0) (Int.ofNat u) } = B0
    have hB : projD B = B0 := by
      rw [← hBd, ← hB0d, hrec]
      congr 1
      rw [projD_push_edge]
      rfl
    clear hBd hB0d
    obtain ⟨bd, bl, bp, bv, bt, bc, bes, bbl⟩ := B
    obtain ⟨d0, l0, p0, v0, t0, c0⟩ := B0
    dsimp only [projD] at hB
    injection hB with h1 h2 h3 h4 h5 h6
    subst h1 h2 h3 h4 h5 h6
    split_ifs <;> rfl
  · rw [if_neg hvis, if_neg (show ¬ (projD s).visited ((nbrs u).getD i 0) = false from hvis)]
    have hpe : projD (push_edge s u ((nbrs u).getD i 0)) = projD s :=
      projD_push_edge s u ((nbrs u).getD i 0)
    try rw [projD_low_eq hpe]
    try rw [projD_disc_eq hpe]
    try rw [projD_parent_eq hpe]
    try rw [projD_visited_eq hpe]
    try rw [projD_time_eq hpe]
    try rw [projD_cut_eq hpe]
    try rw [projD_disc_raw s]
    try rw [projD_low_raw s]
    try rw [projD_parent_raw s]
    try rw [projD_visited_raw s]
    try rw [projD_time_raw s]
    try rw [projD_cut_raw s]
    split_ifs <;> first | rfl | simp only [hpe]

theorem proj_neighbor_loop (recur : Nat → D → D) (recur0 : Nat → D0 → D0)
    (hrec : ∀ v s, projD (recur v s) = recur0 v (projD s))
    (nbrs : Nat → List Nat) (u : Nat) :
    ∀ (idxs : List Nat) (sc : D × Nat),
      (projD (neighbor_loop recur nbrs u idxs sc).1,
        (neighbor_loop recur nbrs u idxs sc).2)
        = loop1 recur0 u (idxs.map (fun i => (nbrs u).getD i 0)) (projD sc.1, sc.2) := by
  intro idxs
  induction idxs with
  | nil => intro sc; rfl
  | cons i idxs ih =>
    intro sc
    rw [neighbor_loop_cons, List.map_cons, loop1_cons, ih (nbody recur nbrs u i sc),
      proj_nbody recur recur0 hrec nbrs u i sc]

theorem proj_tarjan (nbrs : Nat → List Nat) (deg : Nat → Nat)
    (hdeg : ∀ w, deg w = (nbrs w).length) :
    ∀ (fuel u : Nat) (s : D),
      projD (tarjan_dfs_bicomp nbrs deg fuel u s) = dfs1 nbrs fuel u (projD s) := by
  intro fuel
  induction fuel with
  | zero => intro u s; rfl
  | succ fuel ih =>
    intro u s
    rw [tarjan_dfs_bicomp, dfs1, hdeg u]
    have hloop := proj_neighbor_loop (fun v s => tarjan_dfs_bicomp nbrs deg fuel v s)
      (fun v s => dfs1 nbrs fuel v s) (fun v s => ih v s) nbrs u
      (List.range (nbrs u).length)
      ({ s with visited := set1 s.visited u true, time_dfs := s.time_dfs + 1,
                disc := set1 s.disc u (s.time_dfs + 1),
                low := set1 s.low u (s.time_dfs + 1) }, 0)
    rw [map_range_getD (nbrs u)] at hloop
    have hfin : ∀ (p : D × Nat),
        projD (if p.1.parent_tarjan u = -1 ∧ p.2 ≤ 1 ∧ p.1.edge_stack ≠ [] ∧
                  p.1.blocks.length < MAX_BLOCKS then close_root_block p.1 else p.1)
          = projD p.1 := by
      intro p
      split
      · rw [projD_close_root_block]
      · rfl
    rw [hfin]
    have h1 := congrArg Prod.fst hloop
    exact h1

theorem proj_fbc (n : Nat) (nbrs : Nat → List Nat) (deg : Nat → Nat)
    (hdeg : ∀ w, deg w = (nbrs w).length) :
    projD (fbcD n nbrs deg) = fbcD0 n nbrs := by
  unfold fbcD fbcD0
  have H : ∀ (l : List Nat) (s : D),
      projD (l.foldl
        (fun s i => if s.visited i then s
          else tarjan_dfs_bicomp nbrs deg (n + 1) i
            { s with parent_tarjan := set1 s.parent_tarjan i (-1) }) s)
      = l.foldl
        (fun s i => if s.visited i then s
          else dfs1 nbrs (n + 1) i { s with parent := set1 s.parent i (-1) }) (projD s) := by
    intro l
    induction l with
    | nil => intro s; rfl
    | cons i l ihl =>
      intro s
      rw [List.foldl_cons, List.foldl_cons, ihl]
      congr 1
      by_cases hv : s.visited i
      · rw [if_pos hv, if_pos (show (projD s).visited i from hv)]
      · rw [if_neg hv, if_neg (show ¬ (projD s).visited i from hv)]
        rw [proj_tarjan nbrs deg hdeg]
        rfl
  exact H (List.range n) initD

theorem loop2_cons (recur : Nat → D1 → D1) (u v : Nat) (vs : List Nat) (sc : D1 × Nat) :
    loop2 recur u (v :: vs) sc = loop2 recur u vs (l2body recur u v sc) := rfl

theorem projD1_low_eq {s : D1} {t : D0} (h : projD1 s = t) : s.low = t.low :=
  congrArg D0.low h

theorem projD1_disc_eq {s : D1} {t : D0} (h : projD1 s = t) : s.disc = t.disc :=
  congrArg D0.disc h

theorem projD1_parent_eq {s : D1} {t : D0} (h : projD1 s = t) : s.parent = t.parent :=
  congrArg D0.parent h

theorem projD1_visited_eq {s : D1} {t : D0} (h : projD1 s = t) : s.visited = t.visited :=
  congrArg D0.visited h

theorem proj_l2body (recur : Nat → D1 → D1) (recur0 : Nat → D0 → D0)
    (hrec : ∀ v s, projD1 (recur v s) = recur0 v (projD1 s)) (u v : Nat) (sc : D1 × Nat) :
    (projD1 (l2body recur u v sc).1, (l2body recur u v sc).2)
      = lbody recur0 u v (projD1 sc.1, sc.2) := by
  obtain ⟨s, children⟩ := sc
  dsimp only [l2body, lbody]
  by_cases hvis : s.visited v = false
  · rw [if_pos hvis, if_pos (show (projD1 s).visited v = false from hvis)]
    generalize hBd : recur v { s with parent := set1 s.parent v (Int.ofNat u) } = B
    generalize hB0d : recur0 v { projD1 s with parent := set1 (projD1 s).parent v (Int.ofNat u) } = B0
    have hB : projD1 B = B0 := by rw [← hBd, ← hB0d, hrec]; rfl
    clear hBd hB0d
    obtain ⟨bd, bl, bp, bv, bt, bc, bf⟩ := B
    obtain ⟨d0, l0, p0, v0, t0, c0⟩ := B0
    dsimp only [projD1] at hB
    injection hB with h1 h2 h3 h4 h5 h6
    subst h1 h2 h3 h4 h5 h6
    split_ifs <;> rfl
  · rw [if_neg hvis, if_neg (show ¬ (projD1 s).visited v = false from hvis)]
    dsimp only [projD1]
    split_ifs <;> rfl

theorem proj_loop2 (recur : Nat → D1 → D1) (recur0 : Nat → D0 → D0)
    (hrec : ∀ v s, projD1 (recur v s) = recur0 v (projD1 s)) (u : Nat) :
    ∀ (vs : List Nat) (sc : D1 × Nat),
      (projD1 (loop2 recur u vs sc).1, (loop2 recur u vs sc).2)
        = loop1 recur0 u vs (projD1 sc.1, sc.2) := by
  intro vs
  induction vs with
  | nil => intro sc; rfl
  | cons v vs ih =>
    intro sc
    rw [loop2_cons, loop1_cons, ih (l2body recur u v sc),
      proj_l2body recur recur0 hrec u v sc]

theorem proj_dfs2 (nbrs : Nat → List Nat) :
    ∀ (fuel u : Nat) (s : D1),
      projD1 (dfs2 nbrs fuel u s) = dfs1 nbrs fuel u (projD1 s) := by
  intro fuel
  induction fuel with
  | zero => intro u s; rfl
  | succ fuel ih =>
    intro u s
    rw [dfs2, dfs1]
    have hloop := proj_loop2 (fun v s => dfs2 nbrs fuel v s)
      (fun v s => dfs1 nbrs fuel v s) (fun v s => ih v s) u (nbrs u)
      ({ s with visited := set1 s.visited u true, time := s.time + 1,
                disc := set1 s.disc u (s.time + 1),
                low := set1 s.low u (s.time + 1) }, 0)
    have h1 := congrArg Prod.fst hloop
    exact h1

theorem proj_fbc2 (n : Nat) (nbrs : Nat → List Nat) :
    projD1 (fbc2 n nbrs) = fbcD0 n nbrs := by
  unfold fbc2 fbcD0
  have H : ∀ (l : List Nat) (s : D1),
      projD1 (l.foldl
        (fun s i => if s.visited i then s
          else dfs2 nbrs (n + 1) i { s with parent := set1 s.parent i (-1) }) s)
      = l.foldl
        (fun s i => if s.visited i then s
          else dfs1 nbrs (n + 1) i { s with parent := set1 s.parent i (-1) }) (projD1 s) := by
    intro l
    induction l with
    | nil => intro s; rfl
    | cons i l ihl =>
      intro s
      rw [List.foldl_cons, List.foldl_cons, ihl]
      congr 1
      by_cases hv : s.visited i
      · rw [if_pos hv, if_pos (show (projD1 s).visited i from hv)]
      · rw [if_neg hv, if_neg (show ¬ (projD1 s).visited i from hv)]
        rw [proj_dfs2 nbrs]
        rfl
  exact H (List.range n) initD1

theorem extAt_refl (u : Nat) (s : D1) : ExtAt u s s :=
  ⟨fun _ h => h, fun _ _ => ⟨rfl, rfl, rfl⟩, fun _ _ _ => ⟨rfl, rfl⟩, le_refl _,
   fun _ h h' => absurd h' (by simp [h]), fun _ _ => ⟨rfl, rfl, rfl, rfl, rfl⟩⟩

theorem extAt_trans {u : Nat} {s t r : D1} (h1 : ExtAt u s t) (h2 : ExtAt u t r) :
    ExtAt u s r := by
  refine ⟨fun y hy => h2.x_vis y (h1.x_vis y hy), ?_, ?_, le_trans h1.x_time h2.x_time, ?_, ?_⟩
  · intro y hy
    obtain ⟨a1, a2, a3⟩ := h1.x_dpf y hy
    obtain ⟨b1, b2, b3⟩ := h2.x_dpf y (h1.x_vis y hy)
    exact ⟨b1.trans a1, b2.trans a2, b3.trans a3⟩
  · intro y hy hneq
    obtain ⟨a1, a2⟩ := h1.x_lc y hy hneq
    obtain ⟨b1, b2⟩ := h2.x_lc y (h1.x_vis y hy) hneq
    exact ⟨b1.trans a1, b2.trans a2⟩
  · intro y hy hy'
    by_cases hm : t.visited y = true
    · obtain ⟨a1, a2⟩ := h1.x_fresh y hy hm
      obtain ⟨b1, _, _⟩ := h2.x_dpf y hm
      exact ⟨by rw [b1]; exact a1, by rw [b1]; exact le_trans a2 h2.x_time⟩
    · obtain ⟨a1, a2⟩ := h2.x_fresh y (by simpa using hm) hy'
      exact ⟨lt_of_le_of_lt h1.x_time a1, a2⟩
  · intro y hy
    have hty : t.visited y = false := by
      by_contra hc
      have := h2.x_vis y (by simpa using hc)
      simp [hy] at this
    obtain ⟨a1, a2, a3, a4, a5⟩ := h1.x_unvis y hty
    obtain ⟨b1, b2, b3, b4, b5⟩ := h2.x_unvis y hy
    exact ⟨b1.trans a1, b2.trans a2, b3.trans a3, b4.trans a4, b5.trans a5⟩

theorem set1_same {α : Type} (f : Nat → α) (u : Nat) (x : α) : set1 f u x u = x := by
  simp [set1]

theorem set1_other {α : Type} (f : Nat → α) {u w : Nat} (x : α) (h : w ≠ u) :
    set1 f u x w = f w := by
  simp [set1, h]

theorem ofNat_ne_neg_one' (m : Nat) : Int.ofNat m ≠ -1 := by
  intro h
  have h0 : (0 : Int) ≤ Int.ofNat m := Int.ofNat_nonneg m
  rw [h] at h0
  exact absurd h0 (by decide)

theorem ofNat_inj' {m k : Nat} (h : Int.ofNat m = Int.ofNat k) : m = k :=
  Int.ofNat.inj h

theorem ucard_lt {n : Nat} {s t : D1}
    (h : ∀ y, s.visited y = true → t.visited y = true)
    {u : Nat} (hu : u < n) (h1 : s.visited u = false) (h2 : t.visited u = true) :
    Ucard n t < Ucard n s := by
  apply Finset.card_lt_card
  rw [Finset.ssubset_def]
  constructor
  · intro w hw
    simp only [Finset.mem_filter, Finset.mem_range] at hw ⊢
    refine ⟨hw.1, ?_⟩
    cases hsv : s.visited w with
    | false => rfl
    | true => rw [h w hsv] at hw; exact absurd hw.2 (by simp)
  · intro hback
    have hu1 : u ∈ (Finset.range n).filter (fun w => s.visited w = false) := by
      simp only [Finset.mem_filter, Finset.mem_range]
      exact ⟨hu, h1⟩
    have := hback hu1
    simp only [Finset.mem_filter, Finset.mem_range, h2] at this
    exact absurd this.2 (by simp)

theorem ucard_le {n : Nat} {s t : D1}
    (h : ∀ y, s.visited y = true → t.visited y = true) :
    Ucard n t ≤ Ucard n s := by
  apply Finset.card_le_card
  intro w hw
  simp only [Finset.mem_filter, Finset.mem_range] at hw ⊢
  refine ⟨hw.1, ?_⟩
  cases hsv : s.visited w with
  | false => rfl
  | true => rw [h w hsv] at hw; exact absurd hw.2 (by simp)

theorem extAt_write_low {u : Nat} {s : D1} (hu : s.visited u = true) (a : Nat) :
    ExtAt u s { s with low := set1 s.low u a } := by
  refine ⟨fun _ h => h, fun _ _ => ⟨rfl, rfl, rfl⟩, ?_, le_refl _, ?_, ?_⟩
  · intro y _ hneq
    exact ⟨set1_other s.low a hneq, rfl⟩
  · intro y hy hy'
    rw [hy] at hy'
    exact absurd hy' (by simp)
  · intro y hy
    have hyu : y ≠ u := fun he => by rw [he, hu] at hy; exact absurd hy (by simp)
    exact ⟨rfl, set1_other s.low a hyu, rfl, rfl, rfl⟩

theorem extAt_write_cut {u : Nat} {s : D1} (hu : s.visited u = true) :
    ExtAt u s { s with cut := set1 s.cut u true } := by
  refine ⟨fun _ h => h, fun _ _ => ⟨rfl, rfl, rfl⟩, ?_, le_refl _, ?_, ?_⟩
  · intro y _ hneq
    exact ⟨rfl, set1_other s.cut true hneq⟩
  · intro y hy hy'
    rw [hy] at hy'
    exact absurd hy' (by simp)
  · intro y hy
    have hyu : y ≠ u := fun he => by rw [he, hu] at hy; exact absurd hy (by simp)
    exact ⟨rfl, rfl, rfl, set1_other s.cut true hyu, rfl⟩

theorem extAt_iter {u v : Nat} {s1 si s2 : D1} (w : Int)
    (h1 : ExtAt u s1 si) (hv : si.visited v = false)
    (h2 : ExtAt v { si with parent := set1 si.parent v w } s2)
    (hv2 : s2.visited v = true) :
    ExtAt u s1 s2 := by
  set st := { si with parent := set1 si.parent v w } with hst
  have hvisst : ∀ y, st.visited y = si.visited y := fun _ => rfl
  refine ⟨?_, ?_, ?_, ?_, ?_, ?_⟩
  · intro y hy
    exact h2.x_vis y (h1.x_vis y hy)
  · intro y hy
    have hysi : si.visited y = true := h1.x_vis y hy
    have hyv : y ≠ v := fun he => by rw [he, hv] at hysi; exact absurd hysi (by simp)
    obtain ⟨a1, a2, a3⟩ := h1.x_dpf y hy
    obtain ⟨b1, b2, b3⟩ := h2.x_dpf y hysi
    refine ⟨b1.trans a1, ?_, b3.trans a3⟩
    rw [b2]
    show set1 si.parent v w y = s1.parent y
    rw [set1_other si.parent w hyv, a2]
  · intro y hy hneq
    have hysi : si.visited y = true := h1.x_vis y hy
    have hyv : y ≠ v := fun he => by rw [he, hv] at hysi; exact absurd hysi (by simp)
    obtain ⟨a1, a2⟩ := h1.x_lc y hy hneq
    obtain ⟨b1, b2⟩ := h2.x_lc y hysi hyv
    exact ⟨b1.trans a1, b2.trans a2⟩
  · exact le_trans h1.x_time h2.x_time
  · intro y hy hy'
    by_cases hm : si.visited y = true
    · obtain ⟨a1, a2⟩ := h1.x_fresh y hy hm
      obtain ⟨b1, _, _⟩ := h2.x_dpf y hm
      exact ⟨by rw [b1]; exact a1, by rw [b1]; exact le_trans a2 h2.x_time⟩
    · have hm' : st.visited y = false := by simpa using hm
      obtain ⟨a1, a2⟩ := h2.x_fresh y hm' hy'
      exact ⟨lt_of_le_of_lt h1.x_time a1, a2⟩
  · intro y hy
    have hyv : y ≠ v := fun he => by rw [he, hv2] at hy; exact absurd hy (by simp)
    obtain ⟨b1, b2, b3, b4, b5⟩ := h2.x_unvis y hy
    have hysi : si.visited y = false := by
      cases hm : si.visited y with
      | false => rfl
      | true =>
        have := h2.x_vis y hm
        rw [hy] at this
        exact absurd this (by simp)
    obtain ⟨a1, a2, a3, a4, a5⟩ := h1.x_unvis y hysi
    refine ⟨b1.trans a1, b2.trans a2, ?_, b4.trans a4, b5.trans a5⟩
    rw [b3]
    show set1 si.parent v w y = s1.parent y
    rw [set1_other si.parent w hyv, a3]

theorem winv_parent_write {n : Nat} {nbrs : Nat → List Nat} {s : D1} {v : Nat} (w : Int)
    (hW : Winv n nbrs s) (hv : s.visited v = false) :
    Winv n nbrs { s with parent := set1 s.parent v w } := by
  refine ⟨hW.w1, hW.w2, hW.w3, hW.w4, hW.w5, ?_⟩
  intro c p hc hp
  have hcv : c ≠ v := fun he => by rw [he, hv] at hc; exact absurd hc (by simp)
  rw [show ({ s with parent := set1 s.parent v w } : D1).parent c = s.parent c from
    set1_other s.parent w hcv] at hp
  exact hW.w6 c p hc hp

theorem nodeFacts_parent_write {nbrs : Nat → List Nat} {s : D1} {y v : Nat} (w : Int)
    (hnf : NodeFacts nbrs s y) (hv : s.visited v = false) :
    NodeFacts nbrs { s with parent := set1 s.parent v w } y := by
  have hpar : ∀ c, s.visited c = true →
      ({ s with parent := set1 s.parent v w } : D1).parent c = s.parent c := by
    intro c hc
    have hcv : c ≠ v := fun he => by rw [he, hv] at hc; exact absurd hc (by simp)
    exact set1_other s.parent w hcv
  refine ⟨hnf.nfVis, hnf.nfSane, hnf.nfFe, hnf.nfNbrSub, ?_, ?_, ?_, ?_, hnf.nfLowAch, ?_, ?_⟩
  · intro c hc hpc
    rw [hpar c hc] at hpc
    exact hnf.nfKids c hc hpc
  · intro z hz hzy
    obtain ⟨c, hc1, hc2, hc3⟩ := hnf.nfSplit z hz hzy
    exact ⟨c, hc1, (hpar c hc1).trans hc2, hc3⟩
  · intro z hz
    refine Relation.ReflTransGen.mono ?_ (hnf.nfChain z hz)
    rintro a b ⟨h1, h2, h3⟩
    exact ⟨(hpar a h2.1).trans h1, h2, h3⟩
  · intro z x hz hx2 hxv hne
    rw [hpar z hz.1] at hne
    exact hnf.nfLowUb z x hz hx2 hxv hne
  · intro hroot
    rw [hpar y hnf.nfVis] at hroot
    have h0 := hnf.nfCutRoot hroot
    constructor
    · intro hcut
      obtain ⟨c1, c2, h12, hv1, hv2, hp1, hp2⟩ := h0.mp hcut
      exact ⟨c1, c2, h12, hv1, hv2, (hpar c1 hv1).trans hp1, (hpar c2 hv2).trans hp2⟩
    · rintro ⟨c1, c2, h12, hv1, hv2, hp1, hp2⟩
      refine h0.mpr ⟨c1, c2, h12, hv1, hv2, ?_, ?_⟩
      · rw [← hpar c1 hv1]; exact hp1
      · rw [← hpar c2 hv2]; exact hp2
  · intro hnr
    rw [hpar y hnf.nfVis] at hnr
    have h0 := hnf.nfCutIn hnr
    constructor
    · intro hcut
      obtain ⟨c, hv1, hp1, hl1⟩ := h0.mp hcut
      exact ⟨c, hv1, (hpar c hv1).trans hp1, hl1⟩
    · rintro ⟨c, hv1, hp1, hl1⟩
      refine h0.mpr ⟨c, hv1, ?_, hl1⟩
      rw [← hpar c hv1]; exact hp1

theorem nodeFacts_ext {nbrs : Nat → List Nat} {u : Nat} {s t : D1} {y : Nat}
    (hnf : NodeFacts nbrs s y) (hx : ExtAt u s t) (hyu : y ≠ u)
    (hchd : ∀ c, t.visited c = true → t.parent c = Int.ofNat y → s.visited c = true ∧ c ≠ u)
    (hchs : ∀ c, s.visited c = true → s.parent c = Int.ofNat y → c ≠ u) :
    NodeFacts nbrs t y := by
  have hyv : s.visited y = true := hnf.nfVis
  obtain ⟨hdy, hpy, hfy⟩ := hx.x_dpf y hyv
  obtain ⟨hly, hcy⟩ := hx.x_lc y hyv hyu
  have hsane := hnf.nfSane
  have hpz : ∀ z, s.visited z = true → t.parent z = s.parent z :=
    fun z hz => (hx.x_dpf z hz).2.1
  have hdz : ∀ z, s.visited z = true → t.disc z = s.disc z :=
    fun z hz => (hx.x_dpf z hz).1
  have hins : ∀ z, InSub t y z ↔ InSub s y z := by
    intro z
    constructor
    · rintro ⟨hz1, hz2, hz3⟩
      by_cases hzs : s.visited z = true
      · exact ⟨hzs, by rw [hdz z hzs, hdy] at hz2; exact hz2,
          by rw [hdz z hzs, hfy] at hz3; exact hz3⟩
      · obtain ⟨hf1, _⟩ := hx.x_fresh z (by simpa using hzs) hz1
        rw [hfy] at hz3
        have h4 : s.fintime y ≤ s.time := hsane.2.2.1
        omega
    · rintro ⟨hz1, hz2, hz3⟩
      exact ⟨hx.x_vis z hz1, by rw [hdz z hz1, hdy]; exact hz2,
        by rw [hdz z hz1, hfy]; exact hz3⟩
  refine ⟨hx.x_vis y hyv, ?_, ?_, ?_, ?_, ?_, ?_, ?_, ?_, ?_, ?_⟩
  · refine ⟨by rw [hdy]; exact hsane.1, by rw [hdy, hfy]; exact hsane.2.1, ?_,
      by rw [hly, hdy]; exact hsane.2.2.2⟩
    rw [hfy]; exact le_trans hsane.2.2.1 hx.x_time
  · intro x hxm
    exact hx.x_vis x (hnf.nfFe x hxm)
  · intro x hxm hd
    have hxv : s.visited x = true := hnf.nfFe x hxm
    rw [hdy, hdz x hxv] at hd
    exact (hins x).mpr (hnf.nfNbrSub x hxm hd)
  · intro c hc hpc
    obtain ⟨hcs, _⟩ := hchd c hc hpc
    rw [hpz c hcs] at hpc
    obtain ⟨k1, k2, k3⟩ := hnf.nfKids c hcs hpc
    obtain ⟨hdc, _, hfc⟩ := hx.x_dpf c hcs
    exact ⟨by rw [hdy, hdc]; exact k1, by rw [hdc, hfy]; exact k2,
      by rw [hfc, hfy]; exact k3⟩
  · intro z hz hzy
    obtain ⟨c, hc1, hc2, hc3⟩ := hnf.nfSplit z ((hins z).mp hz) hzy
    refine ⟨c, hx.x_vis c hc1, (hpz c hc1).trans hc2, ?_⟩
    obtain ⟨hz1, hz2, hz3⟩ := hc3
    obtain ⟨hdc, _, hfc⟩ := hx.x_dpf c hc1
    exact ⟨hx.x_vis z hz1, by rw [hdc, hdz z hz1]; exact hz2,
      by rw [hfc, hdz z hz1]; exact hz3⟩
  · intro z hz
    refine Relation.ReflTransGen.mono ?_ (hnf.nfChain z ((hins z).mp hz))
    rintro a b ⟨h1, h2, h3⟩
    exact ⟨(hpz a h2.1).trans h1, (hins a).mpr h2, (hins b).mpr h3⟩
  · intro z x hz hx2 hxv hne
    have hzs := (hins z).mp hz
    by_cases hxs : s.visited x = true
    · rw [hly, hdz x hxs]
      apply hnf.nfLowUb z x hzs hx2 hxs
      rw [hpz z hzs.1] at hne
      exact hne
    · obtain ⟨hf1, _⟩ := hx.x_fresh x (by simpa using hxs) hxv
      rw [hly]
      have h1 : s.low y ≤ s.disc y := hsane.2.2.2
      have h2 : s.disc y ≤ s.fintime y := hsane.2.1
      have h3 : s.fintime y ≤ s.time := hsane.2.2.1
      omega
  · rcases hnf.nfLowAch with h | ⟨z, x, hz, hxm, hxv, hlx⟩
    · left; rw [hly, hdy]; exact h
    · right
      exact ⟨z, x, (hins z).mpr hz, hxm, hx.x_vis x hxv,
        by rw [hly, hdz x hxv]; exact hlx⟩
  · intro hroot
    rw [hpy] at hroot
    have h0 := hnf.nfCutRoot hroot
    rw [hcy]
    constructor
    · intro hcut
      obtain ⟨c1, c2, h12, hv1, hv2, hp1, hp2⟩ := h0.mp hcut
      exact ⟨c1, c2, h12, hx.x_vis c1 hv1, hx.x_vis c2 hv2,
        (hpz c1 hv1).trans hp1, (hpz c2 hv2).trans hp2⟩
    · rintro ⟨c1, c2, h12, hv1, hv2, hp1, hp2⟩
      obtain ⟨hs1, _⟩ := hchd c1 hv1 hp1
      obtain ⟨hs2, _⟩ := hchd c2 hv2 hp2
      refine h0.mpr ⟨c1, c2, h12, hs1, hs2, ?_, ?_⟩
      · rw [← hpz c1 hs1]; exact hp1
      · rw [← hpz c2 hs2]; exact hp2
  · intro hnr
    rw [hpy] at hnr
    have h0 := hnf.nfCutIn hnr
    rw [hcy]
    constructor
    · intro hcut
      obtain ⟨c, hv1, hp1, hl1⟩ := h0.mp hcut
      have hcu : c ≠ u := hchs c hv1 hp1
      refine ⟨c, hx.x_vis c hv1, (hpz c hv1).trans hp1, ?_⟩
      rw [hdy, (hx.x_lc c hv1 hcu).1]
      exact hl1
    · rintro ⟨c, hv1, hp1, hl1⟩
      obtain ⟨hs1, hcu⟩ := hchd c hv1 hp1
      refine h0.mpr ⟨c, hs1, by rw [← hpz c hs1]; exact hp1, ?_⟩
      rw [hdy, (hx.x_lc c hs1 hcu).1] at hl1
      exact hl1

theorem winv_write_low_at {n : Nat} {nbrs : Nat → List Nat} {s : D1} {u a : Nat}
    (hW : Winv n nbrs s) (hu : s.visited u = true) (h1 : 1 ≤ a) (h2 : a ≤ s.disc u) :
    Winv n nbrs { s with low := set1 s.low u a } := by
  refine ⟨hW.w1, ?_, hW.w3, hW.w4, ?_, hW.w6⟩
  · intro y hy
    have hyu : y ≠ u := fun he => by rw [he, hu] at hy; exact absurd hy (by simp)
    obtain ⟨a1, a2, a3⟩ := hW.w2 y hy
    exact ⟨a1, by rw [show ({ s with low := set1 s.low u a } : D1).low y = s.low y from
      set1_other s.low a hyu]; exact a2, a3⟩
  · intro y hy
    by_cases hyu : y = u
    · subst hyu
      rw [show ({ s with low := set1 s.low y a } : D1).low y = a from set1_same s.low y a]
      exact ⟨h1, h2⟩
    · rw [show ({ s with low := set1 s.low u a } : D1).low y = s.low y from
        set1_other s.low a hyu]
      exact hW.w5 y hy

theorem winv_write_cut_at {n : Nat} {nbrs : Nat → List Nat} {s : D1} {u : Nat}
    (hW : Winv n nbrs s) (hu : s.visited u = true) :
    Winv n nbrs { s with cut := set1 s.cut u true } := by
  refine ⟨hW.w1, ?_, hW.w3, hW.w4, hW.w5, hW.w6⟩
  intro y hy
  have hyu : y ≠ u := fun he => by rw [he, hu] at hy; exact absurd hy (by simp)
  obtain ⟨a1, a2, a3⟩ := hW.w2 y hy
  exact ⟨a1, a2, by rw [show ({ s with cut := set1 s.cut u true } : D1).cut y = s.cut y from
    set1_other s.cut true hyu]; exact a3⟩

theorem spu_ne {O : Nat → Prop} {s : D1} {u : Nat}
    (hspu : s.parent u = -1 ∨ ∃ p, s.parent u = Int.ofNat p ∧ O p)
    {y : Nat} (hOy : ¬ O y) : s.parent u ≠ Int.ofNat y := by
  rcases hspu with h | ⟨p, hp1, hp3⟩
  · rw [h]; exact fun he => ofNat_ne_neg_one' y he.symm
  · rw [hp1]
    intro he
    have : p = y := ofNat_inj' he
    rw [this] at hp3
    exact hOy hp3

theorem chl_ne_u {O : Nat → Prop} {s σ : D1} {u : Nat}
    (hsu : s.visited u = false)
    (hOvis : ∀ a, O a → s.visited a = true)
    (hspuW : s.parent u = -1 ∨ ∃ p, s.parent u = Int.ofNat p ∧ O p)
    (hpu : σ.parent u = s.parent u) :
    ∀ c, Chl σ u c → c ≠ u := by
  intro c hc he
  subst he
  have hOu : ¬ O c := fun hO => by rw [hOvis c hO] at hsu; exact absurd hsu (by simp)
  exact spu_ne hspuW hOu (hpu ▸ hc.2)

theorem loopinv_snoc_skip {n : Nat} {nbrs : Nat → List Nat} {O : Nat → Prop}
    {s s1 : D1} {u : Nat} {P : List Nat} {σ : D1} {k : Nat}
    (hinv : LoopInv n nbrs O s s1 u P σ k) (v : Nat)
    (hpv : σ.visited v = true)
    (hprefv : s.visited v = true → Int.ofNat v ≠ s.parent u → σ.low u ≤ σ.disc v) :
    LoopInv n nbrs O s s1 u (P ++ [v]) σ k := by
  obtain ⟨e1, e2, e3, e4, e5, e6, e7, e8, e9, e10, e11, e12, e13, e14, e15, e16⟩ := hinv
  refine ⟨e1, e2, e3, e4, e5, e6, e7, e8, e9, ?_, e11, e12, e13, e14, e15, ?_⟩
  · intro x hx hxs hxne
    rcases List.mem_append.mp hx with h | h
    · exact e10 x h hxs hxne
    · rw [List.mem_singleton.mp h] at hxs hxne ⊢
      exact hprefv hxs hxne
  · intro x hx
    rcases List.mem_append.mp hx with h | h
    · exact e16 x h
    · rw [List.mem_singleton.mp h]
      exact hpv

theorem step_visited {n : Nat} {nbrs : Nat → List Nat} {O : Nat → Prop}
    {s s1 : D1} {u : Nat}
    (hsu : s.visited u = false)
    (hOvis : ∀ a, O a → s.visited a = true)
    (hspuW : s.parent u = -1 ∨ ∃ p, s.parent u = Int.ofNat p ∧ O p)
    (hsW : Winv n nbrs s)
    (hx01 : ExtAt u s s1)
    (hs1u : s1.visited u = true)
    (hs1du : s1.disc u = s.time + 1)
    {P : List Nat} {σ : D1} {k : Nat}
    (hinv : LoopInv n nbrs O s s1 u P σ k)
    {v : Nat} (hvmem : v ∈ nbrs u) (hbv : σ.visited v = true)
    (recur : Nat → D1 → D1) :
    LoopInv n nbrs O s s1 u (P ++ [v]) (l2body recur u v (σ, k)).1
      (l2body recur u v (σ, k)).2 := by
  have hvisσu : σ.visited u = true := hinv.l_ext.x_vis u hs1u
  have hdiscσu : σ.disc u = s.time + 1 := by
    rw [(hinv.l_ext.x_dpf u hs1u).1, hs1du]
  have hdisc_s : ∀ y, s.visited y = true → σ.disc y = s.disc y := by
    intro y hy
    rw [(hinv.l_ext.x_dpf y (hx01.x_vis y hy)).1, (hx01.x_dpf y hy).1]
  have hsmall : ∀ y, s.visited y = true → σ.disc y < σ.disc u := by
    intro y hy
    rw [hdisc_s y hy, hdiscσu]
    have := (hsW.w3 y hy).2
    omega
  have hbody : l2body recur u v (σ, k)
      = if Int.ofNat v ≠ σ.parent u ∧ σ.disc v < σ.disc u then
          (if σ.disc v < σ.low u then { σ with low := set1 σ.low u (σ.disc v) } else σ, k)
        else (σ, k) := by
    dsimp only [l2body]
    rw [if_neg (by simp [hbv])]
  rw [hbody]
  split_ifs with hcond hlt
  · -- counted back edge strictly improving low[u]
    obtain ⟨e1, e2, e3, e4, e5, e6, e7, e8, e9, e10, e11, e12, e13, e14, e15, e16⟩ := hinv
    have hOu : ¬ O u := fun hO => by rw [hOvis u hO] at hsu; exact absurd hsu (by simp)
    have hchlne : ∀ c, Chl σ u c → c ≠ u := chl_ne_u hsu hOvis hspuW e6
    have hlowu : ({ σ with low := set1 σ.low u (σ.disc v) } : D1).low u = σ.disc v :=
      set1_same σ.low u (σ.disc v)
    have hlowne : ∀ c, c ≠ u →
        ({ σ with low := set1 σ.low u (σ.disc v) } : D1).low c = σ.low c :=
      fun c hc => set1_other σ.low _ hc
    have hdLu : ({ σ with low := set1 σ.low u (σ.disc v) } : D1).disc u = s.time + 1 := hdiscσu
    refine ⟨extAt_trans e1 (extAt_write_low hvisσu _), e2, ?_, ?_, e5, e6, ?_, ?_, ?_, ?_,
      e11, e12, e13, e14, ?_, ?_⟩
    · exact winv_write_low_at e3 hvisσu (e3.w3 v hbv).1 (le_of_lt hcond.2)
    · intro y hy hOy hyu
      have hnotu : ∀ c, σ.parent c = Int.ofNat y → c ≠ u := by
        intro c h2 he
        subst he
        rw [e6] at h2
        exact absurd h2 (spu_ne hspuW hOy)
      exact nodeFacts_ext (e4 y hy hOy hyu) (extAt_write_low hvisσu _) hyu
        (fun c h1 h2 => ⟨h1, hnotu c h2⟩) (fun c h1 h2 => hnotu c h2)
    · rw [hlowu]
      exact le_of_lt hcond.2
    · right
      exact ⟨u, v, ⟨hvisσu, lt_of_lt_of_eq (Nat.lt_succ_self s.time) hdLu.symm⟩,
        hvmem, hbv, hlowu⟩
    · intro c hc
      rw [hlowu, hlowne c (hchlne c hc)]
      exact le_trans (le_of_lt hlt) (e9 c hc)
    · intro x hx hxs hxne
      rcases List.mem_append.mp hx with h | h
      · rw [hlowu]
        exact le_trans (le_of_lt hlt) (e10 x h hxs hxne)
      · rw [List.mem_singleton.mp h]
        rw [hlowu]
    · refine e15.trans ?_
      constructor
      · rintro (⟨h1, h2⟩ | ⟨h1, c, hc, hlc⟩)
        · exact Or.inl ⟨h1, h2⟩
        · refine Or.inr ⟨h1, c, hc, ?_⟩
          rw [hlowne c (hchlne c hc)]
          exact hlc
      · rintro (⟨h1, h2⟩ | ⟨h1, c, hc, hlc⟩)
        · exact Or.inl ⟨h1, h2⟩
        · rw [hlowne c (hchlne c hc)] at hlc
          exact Or.inr ⟨h1, c, hc, hlc⟩
    · intro x hx
      rcases List.mem_append.mp hx with h | h
      · exact e16 x h
      · rw [List.mem_singleton.mp h]
        exact hbv
  · exact loopinv_snoc_skip hinv v hbv (fun _ _ => le_of_not_lt hlt)
  · refine loopinv_snoc_skip hinv v hbv ?_
    intro hxs hxne
    rcases not_and_or.mp hcond with h | h
    · rw [not_not, hinv.l_pu] at h
      exact absurd h hxne
    · exact absurd (hsmall v hxs) h

theorem ac_vis (u v k : Nat) (σp : D1) : (afterchild u v k σp).visited = σp.visited := by
  unfold afterchild
  dsimp only
  split_ifs <;> rfl

theorem ac_disc (u v k : Nat) (σp : D1) : (afterchild u v k σp).disc = σp.disc := by
  unfold afterchild
  dsimp only
  split_ifs <;> rfl

theorem ac_par (u v k : Nat) (σp : D1) : (afterchild u v k σp).parent = σp.parent := by
  unfold afterchild
  dsimp only
  split_ifs <;> rfl

theorem ac_fin (u v k : Nat) (σp : D1) : (afterchild u v k σp).fintime = σp.fintime := by
  unfold afterchild
  dsimp only
  split_ifs <;> rfl

theorem ac_time (u v k : Nat) (σp : D1) : (afterchild u v k σp).time = σp.time := by
  unfold afterchild
  dsimp only
  split_ifs <;> rfl

theorem ac_lowne (u v k : Nat) (σp : D1) {y : Nat} (hy : y ≠ u) :
    (afterchild u v k σp).low y = σp.low y := by
  unfold afterchild
  dsimp only
  split_ifs <;> first | rfl | exact set1_other σp.low _ hy

theorem ac_cutne (u v k : Nat) (σp : D1) {y : Nat} (hy : y ≠ u) :
    (afterchild u v k σp).cut y = σp.cut y := by
  unfold afterchild
  dsimp only
  split_ifs <;> first | rfl | exact set1_other σp.cut true hy

theorem ac_lowu (u v k : Nat) (σp : D1) :
    ((afterchild u v k σp).low u = σp.low v ∧ σp.low v ≤ σp.low u) ∨
      ((afterchild u v k σp).low u = σp.low u ∧ σp.low u ≤ σp.low v) := by
  unfold afterchild
  dsimp only
  split_ifs with h1 h2 h3
  · exact Or.inl ⟨set1_same σp.low u (σp.low v), le_of_lt h1⟩
  · exact Or.inl ⟨set1_same σp.low u (σp.low v), le_of_lt h1⟩
  · exact Or.inr ⟨rfl, le_of_not_lt h1⟩
  · exact Or.inr ⟨rfl, le_of_not_lt h1⟩

theorem ac_cutu (u v k : Nat) (σp : D1) (hvu : v ≠ u) :
    ((afterchild u v k σp).cut u = true ↔
      ((σp.parent u = -1 ∧ 2 ≤ k + 1) ∨
        (σp.parent u ≠ -1 ∧ σp.disc u ≤ σp.low v) ∨ σp.cut u = true)) := by
  have hlv : set1 σp.low u (σp.low v) v = σp.low v := set1_other σp.low _ hvu
  unfold afterchild
  dsimp only
  split_ifs with h1 h2 h3
  · refine iff_of_true (set1_same σp.cut u true) ?_
    rcases h2 with ⟨ha, hb⟩ | ⟨ha, hb⟩
    · exact Or.inl ⟨ha, hb⟩
    · have hb2 : set1 σp.low u (σp.low v) v ≥ σp.disc u := hb
      rw [hlv] at hb2
      exact Or.inr (Or.inl ⟨ha, hb2⟩)
  · constructor
    · intro hc
      exact Or.inr (Or.inr hc)
    · rintro (⟨ha, hb⟩ | ⟨ha, hb⟩ | hc)
      · exact absurd (Or.inl ⟨ha, hb⟩) h2
      · refine absurd (Or.inr ⟨ha, ?_⟩) h2
        show set1 σp.low u (σp.low v) v ≥ σp.disc u
        rw [hlv]
        exact hb
      · exact hc
  · refine iff_of_true (set1_same σp.cut u true) ?_
    rcases h3 with ⟨ha, hb⟩ | ⟨ha, hb⟩
    · exact Or.inl ⟨ha, hb⟩
    · exact Or.inr (Or.inl ⟨ha, hb⟩)
  · constructor
    · intro hc
      exact Or.inr (Or.inr hc)
    · rintro (⟨ha, hb⟩ | ⟨ha, hb⟩ | hc)
      · exact absurd (Or.inl ⟨ha, hb⟩) h3
      · exact absurd (Or.inr ⟨ha, hb⟩) h3
      · exact hc

theorem loopinv_after_child {n : Nat} {nbrs : Nat → List Nat} {O : Nat → Prop}
    {s s1 : D1} {u : Nat}
    (hsu : s.visited u = false)
    (hOvis : ∀ a, O a → s.visited a = true)
    (hspuW : s.parent u = -1 ∨ ∃ p, s.parent u = Int.ofNat p ∧ O p)
    (hx01 : ExtAt u s s1)
    (hs1u : s1.visited u = true)
    (hs1t : s1.time = s.time + 1)
    (hs1du : s1.disc u = s.time + 1)
    {P : List Nat} {σ : D1} {k : Nat}
    (hinv : LoopInv n nbrs O s s1 u P σ k)
    {v : Nat} (hvmem : v ∈ nbrs u) (hbv : σ.visited v = false)
    {σp : D1}
    (f_vis : ∀ y, σ.visited y = true → σp.visited y = true)
    (f_froz : ∀ y, σ.visited y = true →
      σp.disc y = σ.disc y ∧ σp.parent y = σ.parent y ∧ σp.fintime y = σ.fintime y)
    (f_frozlc : ∀ y, σ.visited y = true → σp.low y = σ.low y ∧ σp.cut y = σ.cut y)
    (f_time : σ.time ≤ σp.time)
    (f_fresh : ∀ y, σ.visited y = false → σp.visited y = true →
      σ.time < σp.disc y ∧ σp.disc y ≤ σp.time)
    (f_unvis : ∀ y, σp.visited y = false → σp.disc y = σ.disc y ∧ σp.low y = σ.low y ∧
      σp.parent y = σ.parent y ∧ σp.cut y = σ.cut y ∧ σp.fintime y = σ.fintime y)
    (f_visv : σp.visited v = true)
    (f_discv : σp.disc v = σ.time + 1)
    (f_finv : σp.fintime v = σp.time)
    (f_parv : σp.parent v = Int.ofNat u)
    (f_nfv : NodeFacts nbrs σp v)
    (f_newu : ∀ y, σp.visited y = true → σ.visited y = true ∨ InSub σp v y)
    (f_fp : ∀ c, σ.visited c = false → σp.visited c = true → c ≠ v →
      ∀ q, σp.parent c = Int.ofNat q → σ.visited q = false)
    (f_par2 : ∀ y, σ.visited y = false → σp.visited y = true → y ≠ v →
      ∃ p, σp.parent y = Int.ofNat p ∧ σp.visited p = true)
    (f_O : ∀ y, σp.visited y = true → ¬ O y → y ≠ u → NodeFacts nbrs σp y)
    (f_W : Winv n nbrs σp) :
    LoopInv n nbrs O s s1 u (P ++ [v]) (afterchild u v k σp) (k + 1) := by
  have hvisσu : σ.visited u = true := hinv.l_ext.x_vis u hs1u
  have hvu : v ≠ u := fun he => by rw [he, hvisσu] at hbv; exact absurd hbv (by simp)
  have hdiscσu : σ.disc u = s.time + 1 := by rw [(hinv.l_ext.x_dpf u hs1u).1, hs1du]
  have hOu : ¬ O u := fun hO => by rw [hOvis u hO] at hsu; exact absurd hsu (by simp)
  have hchlσ : ∀ c, Chl σ u c → c ≠ u := chl_ne_u hsu hOvis hspuW hinv.l_pu
  have tV : ∀ y, (afterchild u v k σp).visited y = σp.visited y :=
    fun y => congrFun (ac_vis u v k σp) y
  have tD : ∀ y, (afterchild u v k σp).disc y = σp.disc y :=
    fun y => congrFun (ac_disc u v k σp) y
  have tP : ∀ y, (afterchild u v k σp).parent y = σp.parent y :=
    fun y => congrFun (ac_par u v k σp) y
  have tF : ∀ y, (afterchild u v k σp).fintime y = σp.fintime y :=
    fun y => congrFun (ac_fin u v k σp) y
  have tT : (afterchild u v k σp).time = σp.time := ac_time u v k σp
  have aL : ∀ {y : Nat}, y ≠ u → (afterchild u v k σp).low y = σp.low y :=
    fun hy => ac_lowne u v k σp hy
  have aC : ∀ {y : Nat}, y ≠ u → (afterchild u v k σp).cut y = σp.cut y :=
    fun hy => ac_cutne u v k σp hy
  have aLu := ac_lowu u v k σp
  have aCu := ac_cutu u v k σp hvu
  have dparσpu : σp.parent u = σ.parent u := (f_froz u hvisσu).2.1
  have dlowσpu : σp.low u = σ.low u := (f_frozlc u hvisσu).1
  have dcutσpu : σp.cut u = σ.cut u := (f_frozlc u hvisσu).2
  have ddiscσpu : σp.disc u = σ.disc u := (f_froz u hvisσu).1
  have hvis_sv : ∀ y, s.visited y = true → σ.visited y = true :=
    fun y hy => hinv.l_ext.x_vis y (hx01.x_vis y hy)
  have hchl : ∀ c, Chl (afterchild u v k σp) u c ↔ (Chl σ u c ∨ c = v) := by
    intro c
    constructor
    · rintro ⟨h1, h2⟩
      rw [tV c] at h1
      rw [tP c] at h2
      by_cases hcσ : σ.visited c = true
      · refine Or.inl ⟨hcσ, ?_⟩
        rw [← (f_froz c hcσ).2.1]
        exact h2
      · by_cases hcv : c = v
        · exact Or.inr hcv
        · exfalso
          have hq := f_fp c (by simpa using hcσ) h1 hcv u h2
          rw [hvisσu] at hq
          exact absurd hq (by simp)
    · rintro (⟨h1, h2⟩ | hcv)
      · exact ⟨by rw [tV c]; exact f_vis c h1, by rw [tP c, (f_froz c h1).2.1]; exact h2⟩
      · rw [hcv]
        exact ⟨by rw [tV v]; exact f_visv, by rw [tP v]; exact f_parv⟩
  refine ⟨?_, ?_, ?_, ?_, ?_, ?_, ?_, ?_, ?_, ?_, ?_, ?_, ?_, ?_, ?_, ?_⟩
  · -- l_ext
    refine ⟨?_, ?_, ?_, ?_, ?_, ?_⟩
    · intro y hy
      rw [tV y]
      exact f_vis y (hinv.l_ext.x_vis y hy)
    · intro y hy
      have hσ : σ.visited y = true := hinv.l_ext.x_vis y hy
      obtain ⟨b1, b2, b3⟩ := hinv.l_ext.x_dpf y hy
      obtain ⟨c1, c2, c3⟩ := f_froz y hσ
      exact ⟨by rw [tD y, c1, b1], by rw [tP y, c2, b2], by rw [tF y, c3, b3]⟩
    · intro y hy hyu
      have hσ : σ.visited y = true := hinv.l_ext.x_vis y hy
      obtain ⟨b1, b2⟩ := hinv.l_ext.x_lc y hy hyu
      obtain ⟨c1, c2⟩ := f_frozlc y hσ
      exact ⟨by rw [aL hyu, c1, b1], by rw [aC hyu, c2, b2]⟩
    · rw [tT]
      exact le_trans hinv.l_ext.x_time f_time
    · intro y hy hy2
      rw [tV y] at hy2
      by_cases hσ : σ.visited y = true
      · obtain ⟨b1, b2⟩ := hinv.l_ext.x_fresh y hy hσ
        obtain ⟨c1, _, _⟩ := f_froz y hσ
        constructor
        · rw [tD y, c1]; exact b1
        · rw [tD y, c1, tT]; exact le_trans b2 f_time
      · obtain ⟨c1, c2⟩ := f_fresh y (by simpa using hσ) hy2
        constructor
        · rw [tD y]
          have hx := hinv.l_ext.x_time
          omega
        · rw [tD y, tT]; exact c2
    · intro y hy
      rw [tV y] at hy
      have hyu : y ≠ u := by
        intro he
        rw [he, f_vis u hvisσu] at hy
        exact absurd hy (by simp)
      have hyv : y ≠ v := by
        intro he
        rw [he, f_visv] at hy
        exact absurd hy (by simp)
      obtain ⟨c1, c2, c3, c4, c5⟩ := f_unvis y hy
      have hσy : σ.visited y = false := by
        cases hm : σ.visited y with
        | false => rfl
        | true => rw [f_vis y hm] at hy; exact absurd hy (by simp)
      obtain ⟨b1, b2, b3, b4, b5⟩ := hinv.l_ext.x_unvis y hσy
      exact ⟨by rw [tD y, c1, b1], by rw [aL hyu, c2, b2], by rw [tP y, c3, b3],
        by rw [aC hyu, c4, b4], by rw [tF y, c5, b5]⟩
  · -- l_fp
    intro c h1 h2 q hq
    rw [tV c] at h2
    rw [tP c] at hq
    by_cases hσ : σ.visited c = true
    · have hq2 : σ.parent c = Int.ofNat q := by rw [← (f_froz c hσ).2.1]; exact hq
      exact hinv.l_fp c h1 hσ q hq2
    · by_cases hcv : c = v
      · subst hcv
        rw [f_parv] at hq
        exact Or.inl (ofNat_inj' hq).symm
      · right
        have hqσ := f_fp c (by simpa using hσ) h2 hcv q hq
        cases hm : s1.visited q with
        | false => rfl
        | true => rw [hinv.l_ext.x_vis q hm] at hqσ; exact absurd hqσ (by simp)
  · -- l_W
    refine ⟨?_, ?_, ?_, ?_, ?_, ?_⟩
    · intro y hy; rw [tV y] at hy; exact f_W.w1 y hy
    · intro y hy
      rw [tV y] at hy
      have hyu : y ≠ u := by
        intro he
        rw [he, f_vis u hvisσu] at hy
        exact absurd hy (by simp)
      obtain ⟨c1, c2, c3⟩ := f_W.w2 y hy
      exact ⟨by rw [tD y]; exact c1, by rw [aL hyu]; exact c2, by rw [aC hyu]; exact c3⟩
    · intro y hy
      rw [tV y] at hy
      obtain ⟨c1, c2⟩ := f_W.w3 y hy
      exact ⟨by rw [tD y]; exact c1, by rw [tD y, tT]; exact c2⟩
    · intro y z hy hz he
      rw [tV y] at hy
      rw [tV z] at hz
      rw [tD y, tD z] at he
      exact f_W.w4 y z hy hz he
    · intro y hy
      rw [tV y] at hy
      by_cases hyu : y = u
      · subst hyu
        rcases aLu with ⟨h1, h2⟩ | ⟨h1, h2⟩
        · exact ⟨by rw [h1]; exact (f_W.w5 v f_visv).1,
            by rw [h1, tD y]; exact le_trans h2 (f_W.w5 y hy).2⟩
        · exact ⟨by rw [h1]; exact (f_W.w5 y hy).1, by rw [h1, tD y]; exact (f_W.w5 y hy).2⟩
      · obtain ⟨c1, c2⟩ := f_W.w5 y hy
        exact ⟨by rw [aL hyu]; exact c1, by rw [aL hyu, tD y]; exact c2⟩
    · intro c p hc hp
      rw [tV c] at hc
      rw [tP c] at hp
      obtain ⟨m1, m2, m3⟩ := f_W.w6 c p hc hp
      exact ⟨m1, by rw [tV p]; exact m2, by rw [tD p, tD c]; exact m3⟩
  · -- l_O
    intro y hy hOy hyu
    rw [tV y] at hy
    have hnf := f_O y hy hOy hyu
    have dext : ExtAt u σp (afterchild u v k σp) := by
      refine ⟨?_, ?_, ?_, ?_, ?_, ?_⟩
      · intro z hz; rw [tV z]; exact hz
      · intro z _; exact ⟨tD z, tP z, tF z⟩
      · intro z _ hzu; exact ⟨aL hzu, aC hzu⟩
      · rw [tT]
      · intro z hz hz2
        rw [tV z] at hz2
        rw [hz] at hz2
        exact absurd hz2 (by simp)
      · intro z hz
        rw [tV z] at hz
        have hzu : z ≠ u := by
          intro he
          rw [he, f_vis u hvisσu] at hz
          exact absurd hz (by simp)
        exact ⟨tD z, aL hzu, tP z, aC hzu, tF z⟩
    have hnotu : ∀ c, σp.parent c = Int.ofNat y → c ≠ u := by
      intro c h2 he
      subst he
      rw [dparσpu, hinv.l_pu] at h2
      exact absurd h2 (spu_ne hspuW hOy)
    refine nodeFacts_ext hnf dext hyu ?_ (fun c _ h2 => hnotu c h2)
    intro c h1 h2
    rw [tV c] at h1
    rw [tP c] at h2
    exact ⟨h1, hnotu c h2⟩
  · -- l_par
    intro y hy1 hy2
    rw [tV y] at hy2
    by_cases hσ : σ.visited y = true
    · obtain ⟨p, hp1, hp2⟩ := hinv.l_par y hy1 hσ
      exact ⟨p, by rw [tP y, (f_froz y hσ).2.1]; exact hp1,
        by rw [tV p]; exact f_vis p hp2⟩
    · by_cases hyv : y = v
      · subst hyv
        exact ⟨u, by rw [tP y]; exact f_parv, by rw [tV u]; exact f_vis u hvisσu⟩
      · obtain ⟨p, hp1, hp2⟩ := f_par2 y (by simpa using hσ) hy2 hyv
        exact ⟨p, by rw [tP y]; exact hp1, by rw [tV p]; exact hp2⟩
  · -- l_pu
    rw [tP u, dparσpu]
    exact hinv.l_pu
  · -- l_lowleq
    have hld : σp.low u ≤ σp.disc u := by
      have h0 := hinv.l_lowleq
      rw [← dlowσpu, ← ddiscσpu] at h0
      exact h0
    rcases aLu with ⟨h1, h2⟩ | ⟨h1, _⟩
    · rw [h1, tD u]; exact le_trans h2 hld
    · rw [h1, tD u]; exact hld
  · -- l_lowach
    have hσtime : s.time < σ.time := by
      have hx := hinv.l_ext.x_time
      omega
    rcases aLu with ⟨h1, _⟩ | ⟨h1, _⟩
    · rcases f_nfv.nfLowAch with hA | ⟨z, x, hz, hxm, hxv, hlx⟩
      · right
        refine ⟨u, v, ⟨by rw [tV u]; exact f_vis u hvisσu, ?_⟩, hvmem,
          by rw [tV v]; exact f_visv, ?_⟩
        · rw [tD u, ddiscσpu, hdiscσu]
          omega
        · rw [h1, hA, tD v]
      · right
        refine ⟨z, x, ⟨by rw [tV z]; exact hz.1, ?_⟩, hxm,
          by rw [tV x]; exact hxv, ?_⟩
        · rw [tD z]
          have hz2 := hz.2.1
          rw [f_discv] at hz2
          omega
        · rw [h1, hlx, tD x]
    · rcases hinv.l_lowach with hA | ⟨z, x, hz, hxm, hxv, hlx⟩
      · left
        rw [h1, dlowσpu, hA, tD u, ddiscσpu]
      · right
        refine ⟨z, x, ⟨by rw [tV z]; exact f_vis z hz.1,
          by rw [tD z, (f_froz z hz.1).1]; exact hz.2⟩, hxm,
          by rw [tV x]; exact f_vis x hxv, ?_⟩
        rw [h1, dlowσpu, hlx, tD x, (f_froz x hxv).1]
  · -- l_lowdeep
    intro c hc
    rcases (hchl c).mp hc with hcσ | hcv
    · have hcu := hchlσ c hcσ
      rw [aL hcu, (f_frozlc c hcσ.1).1]
      have h9 := hinv.l_lowdeep c hcσ
      rcases aLu with ⟨h1, h2⟩ | ⟨h1, _⟩
      · rw [h1]
        exact le_trans h2 (le_trans (le_of_eq dlowσpu) h9)
      · rw [h1, dlowσpu]
        exact h9
    · rw [hcv, aL hvu]
      rcases aLu with ⟨h1, _⟩ | ⟨h1, h2⟩
      · rw [h1]
      · rw [h1]; exact h2
  · -- l_lowpref
    intro x hx hxs hxne
    rcases List.mem_append.mp hx with h | h
    · have h10 := hinv.l_lowpref x h hxs hxne
      have hxσ : σ.visited x = true := hvis_sv x hxs
      rw [tD x, (f_froz x hxσ).1]
      rcases aLu with ⟨h1, h2⟩ | ⟨h1, _⟩
      · rw [h1]
        exact le_trans h2 (le_trans (le_of_eq dlowσpu) h10)
      · rw [h1, dlowσpu]
        exact h10
    · rw [List.mem_singleton.mp h] at hxs
      have hcon : σ.visited v = true := hvis_sv v hxs
      rw [hcon] at hbv
      exact absurd hbv (by simp)
  · -- l_part
    intro z hz hzu
    obtain ⟨hz1, hz2⟩ := hz
    rw [tV z] at hz1
    rw [tD z] at hz2
    by_cases hσ : σ.visited z = true
    · obtain ⟨c, hc1, hc2⟩ := hinv.l_part z
        ⟨hσ, by rw [← (f_froz z hσ).1]; exact hz2⟩ hzu
      refine ⟨c, (hchl c).mpr (Or.inl hc1), ?_⟩
      obtain ⟨m1, m2, m3⟩ := hc2
      have hcσ : σ.visited c = true := hc1.1
      exact ⟨by rw [tV z]; exact f_vis z m1,
        by rw [tD c, tD z, (f_froz c hcσ).1, (f_froz z hσ).1]; exact m2,
        by rw [tD z, tF c, (f_froz z hσ).1, (f_froz c hcσ).2.2]; exact m3⟩
    · rcases f_newu z hz1 with h | h
      · exact absurd h (by simpa using hσ)
      · refine ⟨v, (hchl v).mpr (Or.inr rfl), ?_⟩
        obtain ⟨m1, m2, m3⟩ := h
        exact ⟨by rw [tV z]; exact m1, by rw [tD v, tD z]; exact m2,
          by rw [tD z, tF v]; exact m3⟩
  · -- l_kidfin
    intro c hc
    rcases (hchl c).mp hc with hcσ | hceq
    · obtain ⟨m1, m2, m3⟩ := hinv.l_kidfin c hcσ
      have hcvis : σ.visited c = true := hcσ.1
      refine ⟨?_, ?_, ?_⟩
      · rw [tD u, tD c, ddiscσpu, (f_froz c hcvis).1]; exact m1
      · rw [tD c, tF c, (f_froz c hcvis).1, (f_froz c hcvis).2.2]; exact m2
      · rw [tF c, tT, (f_froz c hcvis).2.2]; exact le_trans m3 f_time
    · rw [hceq]
      refine ⟨?_, ?_, ?_⟩
      · rw [tD u, tD v, ddiscσpu, f_discv]
        have hw := (hinv.l_W.w3 u hvisσu).2
        omega
      · rw [tD v, tF v]
        exact f_nfv.nfSane.2.1
      · rw [tF v, tT, f_finv]
  · -- l_child1
    exact iff_of_true ⟨v, (hchl v).mpr (Or.inr rfl)⟩ (Nat.succ_le_succ (Nat.zero_le k))
  · -- l_child2
    constructor
    · rintro ⟨c1, c2, h12, hc1, hc2⟩
      rcases (hchl c1).mp hc1 with hσ1 | he1
      · have h1k := hinv.l_child1.mp ⟨c1, hσ1⟩
        omega
      · rcases (hchl c2).mp hc2 with hσ2 | he2
        · have h1k := hinv.l_child1.mp ⟨c2, hσ2⟩
          omega
        · exact absurd (he1.trans he2.symm) h12
    · intro h2
      have hk : 1 ≤ k := by omega
      obtain ⟨c, hcσ⟩ := hinv.l_child1.mpr hk
      refine ⟨c, v, ?_, (hchl c).mpr (Or.inl hcσ), (hchl v).mpr (Or.inr rfl)⟩
      intro he
      rw [he] at hcσ
      rw [hcσ.1] at hbv
      exact absurd hbv (by simp)
  · -- l_cut
    refine aCu.trans ?_
    rw [dparσpu, hinv.l_pu, dcutσpu, ddiscσpu, hinv.l_cut]
    constructor
    · rintro (⟨ha, hb⟩ | ⟨ha, hb⟩ | (⟨ha, hb⟩ | ⟨ha, hc⟩))
      · exact Or.inl ⟨ha, hb⟩
      · refine Or.inr ⟨ha, v, (hchl v).mpr (Or.inr rfl), ?_⟩
        rw [tD u, ddiscσpu, aL hvu]
        exact hb
      · refine Or.inl ⟨ha, ?_⟩
        omega
      · obtain ⟨c, hcσ, hlc⟩ := hc
        refine Or.inr ⟨ha, c, (hchl c).mpr (Or.inl hcσ), ?_⟩
        rw [tD u, ddiscσpu, aL (hchlσ c hcσ), (f_frozlc c hcσ.1).1]
        exact hlc
    · rintro (⟨ha, hb⟩ | ⟨ha, c, hcc, hlc⟩)
      · exact Or.inl ⟨ha, hb⟩
      · rcases (hchl c).mp hcc with hcσ | hceq
        · refine Or.inr (Or.inr (Or.inr ⟨ha, c, hcσ, ?_⟩))
          rw [tD u, ddiscσpu, aL (hchlσ c hcσ), (f_frozlc c hcσ.1).1] at hlc
          exact hlc
        · refine Or.inr (Or.inl ⟨ha, ?_⟩)
          rw [hceq] at hlc
          rw [tD u, ddiscσpu, aL hvu] at hlc
          exact hlc
  · -- l_pvis
    intro x hx
    rcases List.mem_append.mp hx with h | h
    · rw [tV x]
      exact f_vis x (hinv.l_pvis x h)
    · rw [List.mem_singleton.mp h, tV v]
      exact f_visv

theorem step_unvisited {n : Nat} {nbrs : Nat → List Nat}
    (hcl : ∀ a b, b ∈ nbrs a → a < n ∧ b < n)
    {F : Nat} {recur : Nat → D1 → D1}
    (hrec : ∀ (O2 : Nat → Prop) (w : Nat) (τ : D1), CallPre n nbrs F O2 τ w →
      CallPost n nbrs O2 τ (recur w τ) w)
    {O : Nat → Prop} {s s1 : D1} {u : Nat}
    (huu : u < n)
    (hsu : s.visited u = false)
    (hOvis : ∀ a, O a → s.visited a = true)
    (hspu : s.parent u = -1 ∨
      ∃ p, s.parent u = Int.ofNat p ∧ s.visited p = true ∧ O p ∧ u ∈ nbrs p)
    (hsW : Winv n nbrs s)
    (hF : Ucard n s ≤ F)
    (hx01 : ExtAt u s s1)
    (hs1u : s1.visited u = true)
    (hs1t : s1.time = s.time + 1)
    (hs1du : s1.disc u = s.time + 1)
    {P : List Nat} {σ : D1} {k : Nat}
    (hinv : LoopInv n nbrs O s s1 u P σ k)
    {v : Nat} (hvmem : v ∈ nbrs u) (hbv : σ.visited v = false) :
    LoopInv n nbrs O s s1 u (P ++ [v]) (l2body recur u v (σ, k)).1
      (l2body recur u v (σ, k)).2 := by
  have hspuW : s.parent u = -1 ∨ ∃ p, s.parent u = Int.ofNat p ∧ O p := by
    rcases hspu with h | ⟨p, h1, _, h3, _⟩
    · exact Or.inl h
    · exact Or.inr ⟨p, h1, h3⟩
  have hvisσu : σ.visited u = true := hinv.l_ext.x_vis u hs1u
  have hvu : v ≠ u := fun he => by rw [he, hvisσu] at hbv; exact absurd hbv (by simp)
  have hpre : CallPre n nbrs F (fun y => O y ∨ y = u)
      { σ with parent := set1 σ.parent v (Int.ofNat u) } v := by
    refine ⟨(hcl u v hvmem).2, hbv, ?_, winv_parent_write _ hinv.l_W hbv, ?_, ?_, ?_⟩
    · exact lt_of_le_of_lt (ucard_le hinv.l_ext.x_vis)
        (lt_of_lt_of_le (ucard_lt hx01.x_vis huu hsu hs1u) hF)
    · exact Or.inr ⟨u, set1_same σ.parent v _, hvisσu, Or.inr rfl, hvmem⟩
    · intro y hy hOy2
      have hOy : ¬ O y := fun h => hOy2 (Or.inl h)
      have hyu : y ≠ u := fun h => hOy2 (Or.inr h)
      exact nodeFacts_parent_write _ (hinv.l_O y hy hOy hyu) hbv
    · rintro a (h | h)
      · exact hinv.l_ext.x_vis a (hx01.x_vis a (hOvis a h))
      · rw [h]; exact hvisσu
  have hpost := hrec _ v _ hpre
  have hneqv : ∀ y, σ.visited y = true → y ≠ v := by
    intro y hy he
    rw [he] at hy
    rw [hy] at hbv
    exact absurd hbv (by simp)
  have f_vis : ∀ y, σ.visited y = true →
      (recur v { σ with parent := set1 σ.parent v (Int.ofNat u) }).visited y = true :=
    fun y hy => hpost.cp_ext.x_vis y hy
  have f_parv : (recur v { σ with parent := set1 σ.parent v (Int.ofNat u) }).parent v
      = Int.ofNat u := hpost.cp_paru.trans (set1_same σ.parent v _)
  have f_visv := hpost.cp_visu
  have f_froz : ∀ y, σ.visited y = true →
      (recur v { σ with parent := set1 σ.parent v (Int.ofNat u) }).disc y = σ.disc y ∧
      (recur v { σ with parent := set1 σ.parent v (Int.ofNat u) }).parent y = σ.parent y ∧
      (recur v { σ with parent := set1 σ.parent v (Int.ofNat u) }).fintime y = σ.fintime y := by
    intro y hy
    obtain ⟨a1, a2, a3⟩ := hpost.cp_ext.x_dpf y hy
    exact ⟨a1, a2.trans (set1_other σ.parent _ (hneqv y hy)), a3⟩
  have f_frozlc : ∀ y, σ.visited y = true →
      (recur v { σ with parent := set1 σ.parent v (Int.ofNat u) }).low y = σ.low y ∧
      (recur v { σ with parent := set1 σ.parent v (Int.ofNat u) }).cut y = σ.cut y :=
    fun y hy => hpost.cp_ext.x_lc y hy (hneqv y hy)
  have f_O : ∀ y, (recur v { σ with parent := set1 σ.parent v (Int.ofNat u) }).visited y = true →
      ¬ O y → y ≠ u →
      NodeFacts nbrs (recur v { σ with parent := set1 σ.parent v (Int.ofNat u) }) y := by
    intro y hy hOy hyu
    by_cases hσ : σ.visited y = true
    · have hnf0 := nodeFacts_parent_write (Int.ofNat u) (hinv.l_O y hσ hOy hyu) hbv
      refine nodeFacts_ext hnf0 hpost.cp_ext (hneqv y hσ) ?_ ?_
      · intro c h1 h2
        by_cases hcv : c = v
        · exfalso
          rw [hcv, f_parv] at h2
          exact hyu (ofNat_inj' h2).symm
        · by_cases hcσt : σ.visited c = true
          · exact ⟨hcσt, hcv⟩
          · exfalso
            have hq := hpost.cp_fp c (by simpa using hcσt) h1 hcv y h2
            rw [hσ] at hq
            exact absurd hq (by simp)
      · intro c h1 _
        exact hneqv c h1
    · refine hpost.cp_O y hy ?_
      rintro (h | h)
      · exact hOy h
      · exact hyu h
  have f_nfv : NodeFacts nbrs (recur v { σ with parent := set1 σ.parent v (Int.ofNat u) }) v := by
    refine hpost.cp_O v f_visv ?_
    rintro (h | h)
    · have := hinv.l_ext.x_vis v (hx01.x_vis v (hOvis v h))
      rw [this] at hbv
      exact absurd hbv (by simp)
    · exact hvu h
  have hres : l2body recur u v (σ, k)
      = (afterchild u v k (recur v { σ with parent := set1 σ.parent v (Int.ofNat u) }),
         k + 1) := by
    dsimp only [l2body, afterchild]
    rw [if_pos hbv]
  rw [hres]
  refine loopinv_after_child hsu hOvis hspuW hx01 hs1u hs1t hs1du hinv hvmem hbv
    f_vis f_froz f_frozlc hpost.cp_ext.x_time ?_ ?_ f_visv hpost.cp_discu hpost.cp_finu
    f_parv f_nfv ?_ ?_ ?_ f_O hpost.cp_W
  · exact fun y h1 h2 => hpost.cp_ext.x_fresh y h1 h2
  · intro y hy
    obtain ⟨a1, a2, a3, a4, a5⟩ := hpost.cp_ext.x_unvis y hy
    have hyv : y ≠ v := by
      intro he
      rw [he, f_visv] at hy
      exact absurd hy (by simp)
    exact ⟨a1, a2, a3.trans (set1_other σ.parent _ hyv), a4, a5⟩
  · exact fun y hy => hpost.cp_newu y hy
  · exact fun c h1 h2 hcv q hq => hpost.cp_fp c h1 h2 hcv q hq
  · exact fun y h1 h2 hyv => hpost.cp_parents y h1 h2 hyv

theorem dfs2_eq (nbrs : Nat → List Nat) (F u : Nat) (s : D1) :
    dfs2 nbrs (F + 1) u s =
      { (loop2 (fun w τ => dfs2 nbrs F w τ) u (nbrs u) (hdr s u, 0)).1 with
        fintime := set1
          (loop2 (fun w τ => dfs2 nbrs F w τ) u (nbrs u) (hdr s u, 0)).1.fintime u
          (loop2 (fun w τ => dfs2 nbrs F w τ) u (nbrs u) (hdr s u, 0)).1.time } := rfl

theorem header_ext {s : D1} {u : Nat} (hsu : s.visited u = false) :
    ExtAt u s (hdr s u) := by
  refine ⟨?_, ?_, ?_, Nat.le_succ s.time, ?_, ?_⟩
  · intro y hy
    by_cases h : y = u
    · rw [h]; exact set1_same s.visited u true
    · show set1 s.visited u true y = true
      rw [set1_other s.visited true h]; exact hy
  · intro y hy
    have hyu : y ≠ u := fun he => by rw [he, hsu] at hy; exact absurd hy (by simp)
    exact ⟨set1_other s.disc _ hyu, rfl, rfl⟩
  · intro y _ hyu
    exact ⟨set1_other s.low _ hyu, rfl⟩
  · intro y hy hy2
    have hyu : y = u := by
      by_contra h
      rw [show (hdr s u).visited y = set1 s.visited u true y from rfl,
        set1_other s.visited true h, hy] at hy2
      exact absurd hy2 (by simp)
    rw [hyu]
    constructor
    · rw [show (hdr s u).disc u = set1 s.disc u (s.time + 1) u from rfl,
        set1_same s.disc u (s.time + 1)]
      omega
    · rw [show (hdr s u).disc u = set1 s.disc u (s.time + 1) u from rfl,
        set1_same s.disc u (s.time + 1), show (hdr s u).time = s.time + 1 from rfl]
  · intro y hy
    have hyu : y ≠ u := by
      intro he
      rw [he, show (hdr s u).visited u = set1 s.visited u true u from rfl,
        set1_same s.visited u true] at hy
      exact absurd hy (by simp)
    exact ⟨set1_other s.disc _ hyu, set1_other s.low _ hyu, rfl, rfl, rfl⟩

theorem header_winv {n : Nat} {nbrs : Nat → List Nat} {s : D1} {u : Nat} {O : Nat → Prop}
    (hpre : CallPre n nbrs F O s u) : Winv n nbrs (hdr s u) := by
  obtain ⟨hu, hsu, _, hW, hpar, _, _⟩ := hpre
  have hvis : ∀ y, (hdr s u).visited y = set1 s.visited u true y := fun _ => rfl
  have hdisc : ∀ y, (hdr s u).disc y = set1 s.disc u (s.time + 1) y := fun _ => rfl
  have hlow : ∀ y, (hdr s u).low y = set1 s.low u (s.time + 1) y := fun _ => rfl
  refine ⟨?_, ?_, ?_, ?_, ?_, ?_⟩
  · intro y hy
    rw [hvis y] at hy
    by_cases h : y = u
    · rw [h]; exact hu
    · rw [set1_other s.visited true h] at hy
      exact hW.w1 y hy
  · intro y hy
    rw [hvis y] at hy
    by_cases h : y = u
    · rw [h, set1_same s.visited u true] at hy
      exact absurd hy (by simp)
    · rw [set1_other s.visited true h] at hy
      obtain ⟨a1, a2, a3⟩ := hW.w2 y hy
      exact ⟨by rw [hdisc y, set1_other s.disc _ h]; exact a1,
        by rw [hlow y, set1_other s.low _ h]; exact a2, a3⟩
  · intro y hy
    rw [hvis y] at hy
    by_cases h : y = u
    · subst h
      rw [hdisc y, set1_same s.disc y (s.time + 1)]
      exact ⟨by omega, le_refl _⟩
    · rw [set1_other s.visited true h] at hy
      obtain ⟨a1, a2⟩ := hW.w3 y hy
      rw [hdisc y, set1_other s.disc _ h, show (hdr s u).time = s.time + 1 from rfl]
      exact ⟨a1, by omega⟩
  · intro y z hy hz he
    rw [hvis y] at hy
    rw [hvis z] at hz
    rw [hdisc y, hdisc z] at he
    by_cases h1 : y = u <;> by_cases h2 : z = u
    · rw [h1, h2]
    · rw [h1, set1_same s.disc u (s.time + 1)] at he
      rw [set1_other s.disc _ h2] at he
      rw [set1_other s.visited true h2] at hz
      have := (hW.w3 z hz).2
      omega
    · rw [h2, set1_same s.disc u (s.time + 1)] at he
      rw [set1_other s.disc _ h1] at he
      rw [set1_other s.visited true h1] at hy
      have := (hW.w3 y hy).2
      omega
    · rw [set1_other s.disc _ h1, set1_other s.disc _ h2] at he
      rw [set1_other s.visited true h1] at hy
      rw [set1_other s.visited true h2] at hz
      exact hW.w4 y z hy hz he
  · intro y hy
    rw [hvis y] at hy
    by_cases h : y = u
    · subst h
      rw [hdisc y, hlow y, set1_same s.disc y (s.time + 1), set1_same s.low y (s.time + 1)]
      exact ⟨by omega, le_refl _⟩
    · rw [set1_other s.visited true h] at hy
      obtain ⟨a1, a2⟩ := hW.w5 y hy
      rw [hdisc y, hlow y, set1_other s.disc _ h, set1_other s.low _ h]
      exact ⟨a1, a2⟩
  · intro c p hc hp
    rw [hvis c] at hc
    have hp' : s.parent c = Int.ofNat p := hp
    by_cases h : c = u
    · rcases hpar with hroot | ⟨p0, e1, e2, _, e4⟩
      · rw [h, hroot] at hp'
        exact absurd hp'.symm (ofNat_ne_neg_one' p)
      · rw [h, e1] at hp'
        have hpp : p0 = p := ofNat_inj' hp'
        subst hpp
        have hp0u : p0 ≠ u := fun he => by rw [he, hsu] at e2; exact absurd e2 (by simp)
        refine ⟨?_, ?_, ?_⟩
        · rw [h]; exact e4
        · rw [hvis p0, set1_other s.visited true hp0u]; exact e2
        · rw [hdisc p0, hdisc c, set1_other s.disc _ hp0u, h,
            set1_same s.disc u (s.time + 1)]
          have := (hW.w3 p0 e2).2
          omega
    · rw [set1_other s.visited true h] at hc
      obtain ⟨m1, m2, m3⟩ := hW.w6 c p hc hp'
      have hpu : p ≠ u := fun he => by rw [he, hsu] at m2; exact absurd m2 (by simp)
      refine ⟨m1, ?_, ?_⟩
      · rw [hvis p, set1_other s.visited true hpu]; exact m2
      · rw [hdisc p, hdisc c, set1_other s.disc _ hpu, set1_other s.disc _ h]
        exact m3

theorem header_loopinv {n F : Nat} {nbrs : Nat → List Nat} {O : Nat → Prop}
    {s : D1} {u : Nat} (hpre : CallPre n nbrs F O s u) :
    LoopInv n nbrs O s (hdr s u) u [] (hdr s u) 0 := by
  have hsu := hpre.hvu
  have hspuW : s.parent u = -1 ∨ ∃ p, s.parent u = Int.ofNat p ∧ O p := by
    rcases hpre.hpar with h | ⟨p, h1, _, h3, _⟩
    · exact Or.inl h
    · exact Or.inr ⟨p, h1, h3⟩
  have hOu : ¬ O u := fun h => by rw [hpre.hOvis u h] at hsu; exact absurd hsu (by simp)
  have hx01 := header_ext hsu
  have hs1du : (hdr s u).disc u = s.time + 1 := set1_same s.disc u (s.time + 1)
  have hs1lu : (hdr s u).low u = s.time + 1 := set1_same s.low u (s.time + 1)
  have hnochl : ∀ c, ¬ Chl (hdr s u) u c := by
    intro c hc
    obtain ⟨hc1, hc2⟩ := hc
    by_cases h : c = u
    · rw [h] at hc2
      exact spu_ne hspuW hOu hc2
    · have hcs : s.visited c = true := by
        rw [show (hdr s u).visited c = set1 s.visited u true c from rfl,
          set1_other s.visited true h] at hc1
        exact hc1
      have hw := hpre.hW.w6 c u hcs hc2
      rw [hw.2.1] at hsu
      exact absurd hsu (by simp)
  refine ⟨extAt_refl u (hdr s u), ?_, header_winv hpre, ?_, ?_, rfl, ?_, ?_, ?_, ?_, ?_,
    ?_, ?_, ?_, ?_, ?_⟩
  · intro c h1 h2 q hq
    rw [h2] at h1
    exact absurd h1 (by simp)
  · intro y hy hOy hyu
    have hys : s.visited y = true := by
      rw [show (hdr s u).visited y = set1 s.visited u true y from rfl,
        set1_other s.visited true hyu] at hy
      exact hy
    have hnotu : ∀ c, s.parent c = Int.ofNat y → c ≠ u := by
      intro c h2 he
      rw [he] at h2
      exact spu_ne hspuW hOy h2
    refine nodeFacts_ext (hpre.hO y hys hOy) hx01 hyu ?_ ?_
    · intro c h1 h2
      have hcu : c ≠ u := hnotu c h2
      refine ⟨?_, hcu⟩
      rw [show (hdr s u).visited c = set1 s.visited u true c from rfl,
        set1_other s.visited true hcu] at h1
      exact h1
    · exact fun c _ h2 => hnotu c h2
  · intro y h1 h2
    rw [h2] at h1
    exact absurd h1 (by simp)
  · rw [hs1lu, hs1du]
  · left
    rw [hs1lu, hs1du]
  · intro c hc
    exact absurd hc (hnochl c)
  · intro x hx
    exact absurd hx (List.not_mem_nil x)
  · intro z hz hzu
    obtain ⟨hz1, hz2⟩ := hz
    have hzs : s.visited z = true := by
      rw [show (hdr s u).visited z = set1 s.visited u true z from rfl,
        set1_other s.visited true hzu] at hz1
      exact hz1
    rw [show (hdr s u).disc z = set1 s.disc u (s.time + 1) z from rfl,
      set1_other s.disc _ hzu] at hz2
    have hw3 := (hpre.hW.w3 z hzs).2
    omega
  · intro c hc
    exact absurd hc (hnochl c)
  · exact iff_of_false (fun h => hnochl _ h.choose_spec) (by omega)
  · refine iff_of_false ?_ (by omega)
    rintro ⟨c1, c2, _, hc1, _⟩
    exact hnochl c1 hc1
  · refine iff_of_false ?_ ?_
    · intro h
      have h2 : s.cut u = true := h
      rw [(hpre.hW.w2 u hsu).2.2] at h2
      exact absurd h2 (by simp)
    · rintro (⟨_, h2⟩ | ⟨_, c, hc, _⟩)
      · omega
      · exact hnochl c hc
  · intro x hx
    exact absurd hx (List.not_mem_nil x)

theorem loop2_spec {n : Nat} {nbrs : Nat → List Nat}
    (hcl : ∀ a b, b ∈ nbrs a → a < n ∧ b < n)
    {F : Nat} {recur : Nat → D1 → D1}
    (hrec : ∀ (O2 : Nat → Prop) (w : Nat) (τ : D1), CallPre n nbrs F O2 τ w →
      CallPost n nbrs O2 τ (recur w τ) w)
    {O : Nat → Prop} {s s1 : D1} {u : Nat}
    (huu : u < n) (hsu : s.visited u = false)
    (hOvis : ∀ a, O a → s.visited a = true)
    (hspu : s.parent u = -1 ∨
      ∃ p, s.parent u = Int.ofNat p ∧ s.visited p = true ∧ O p ∧ u ∈ nbrs p)
    (hsW : Winv n nbrs s)
    (hF : Ucard n s ≤ F)
    (hx01 : ExtAt u s s1)
    (hs1u : s1.visited u = true)
    (hs1t : s1.time = s.time + 1)
    (hs1du : s1.disc u = s.time + 1) :
    ∀ (R P : List Nat) (σ : D1) (k : Nat), nbrs u = P ++ R →
      LoopInv n nbrs O s s1 u P σ k →
      LoopInv n nbrs O s s1 u (nbrs u) (loop2 recur u R (σ, k)).1
        (loop2 recur u R (σ, k)).2 := by
  have hspuW : s.parent u = -1 ∨ ∃ p, s.parent u = Int.ofNat p ∧ O p := by
    rcases hspu with h | ⟨p, h1, _, h3, _⟩
    · exact Or.inl h
    · exact Or.inr ⟨p, h1, h3⟩
  intro R
  induction R with
  | nil =>
    intro P σ k hsplit hinv
    rw [List.append_nil] at hsplit
    rw [hsplit]
    exact hinv
  | cons v R ih =>
    intro P σ k hsplit hinv
    rw [loop2_cons]
    have hvmem : v ∈ nbrs u := by
      rw [hsplit]
      exact List.mem_append.mpr (Or.inr (List.mem_cons_self v R))
    have hsplit2 : nbrs u = (P ++ [v]) ++ R := by
      rw [hsplit, List.append_assoc]
      rfl
    by_cases hbv : σ.visited v = false
    · exact ih (P ++ [v]) _ _ hsplit2
        (step_unvisited hcl hrec huu hsu hOvis hspu hsW hF hx01 hs1u hs1t hs1du hinv
          hvmem hbv)
    · have hbv2 : σ.visited v = true := by simpa using hbv
      exact ih (P ++ [v]) _ _ hsplit2
        (step_visited hsu hOvis hspuW hsW hx01 hs1u hs1du hinv hvmem hbv2 recur)

theorem nodeFacts_fintime_write {nbrs : Nat → List Nat} {σe : D1} {u y : Nat} (a : Nat)
    (hnf : NodeFacts nbrs σe y) (hyu : y ≠ u)
    (hnc : σe.parent u ≠ Int.ofNat y) :
    NodeFacts nbrs { σe with fintime := set1 σe.fintime u a } y := by
  have hf : ∀ z, z ≠ u →
      ({ σe with fintime := set1 σe.fintime u a } : D1).fintime z = σe.fintime z :=
    fun z hz => set1_other σe.fintime a hz
  have hcne : ∀ c, σe.parent c = Int.ofNat y → c ≠ u := by
    intro c hc he
    rw [he] at hc
    exact hnc hc
  have hins : ∀ z, InSub { σe with fintime := set1 σe.fintime u a } y z ↔ InSub σe y z := by
    intro z
    unfold InSub
    rw [hf y hyu]
  refine ⟨hnf.nfVis, ?_, hnf.nfFe, ?_, ?_, ?_, ?_, ?_, ?_, hnf.nfCutRoot, hnf.nfCutIn⟩
  · obtain ⟨a1, a2, a3, a4⟩ := hnf.nfSane
    exact ⟨a1, by rw [hf y hyu]; exact a2, by rw [hf y hyu]; exact a3, a4⟩
  · intro x hx hd
    exact (hins x).mpr (hnf.nfNbrSub x hx hd)
  · intro c hc hpc
    have hcu : c ≠ u := hcne c hpc
    obtain ⟨k1, k2, k3⟩ := hnf.nfKids c hc hpc
    exact ⟨k1, by rw [hf y hyu]; exact k2, by rw [hf c hcu, hf y hyu]; exact k3⟩
  · intro z hz hzy
    obtain ⟨c, hc1, hc2, hc3⟩ := hnf.nfSplit z ((hins z).mp hz) hzy
    have hcu : c ≠ u := hcne c hc2
    exact ⟨c, hc1, hc2, ⟨hc3.1, hc3.2.1, by rw [hf c hcu]; exact hc3.2.2⟩⟩
  · intro z hz
    refine Relation.ReflTransGen.mono ?_ (hnf.nfChain z ((hins z).mp hz))
    rintro b c ⟨h1, h2, h3⟩
    exact ⟨h1, (hins b).mpr h2, (hins c).mpr h3⟩
  · intro z x hz hx hxv hne
    exact hnf.nfLowUb z x ((hins z).mp hz) hx hxv hne
  · rcases hnf.nfLowAch with h | ⟨z, x, hz, hx, hxv, he⟩
    · exact Or.inl h
    · exact Or.inr ⟨z, x, (hins z).mpr hz, hx, hxv, he⟩

theorem dfs2_spec {n : Nat} {nbrs : Nat → List Nat}
    (hcl : ∀ a b, b ∈ nbrs a → a < n ∧ b < n) :
    ∀ (F : Nat) (O : Nat → Prop) (u : Nat) (s : D1),
      CallPre n nbrs F O s u → CallPost n nbrs O s (dfs2 nbrs F u s) u := by
  intro F
  induction F with
  | zero =>
    intro O u s hpre
    exact absurd hpre.hfuel (by omega)
  | succ F ih =>
    intro O u s hpre
    have hsu := hpre.hvu
    have huu := hpre.hu
    have hspuW : s.parent u = -1 ∨ ∃ p, s.parent u = Int.ofNat p ∧ O p := by
      rcases hpre.hpar with h | ⟨p, h1, _, h3, _⟩
      · exact Or.inl h
      · exact Or.inr ⟨p, h1, h3⟩
    have hOu : ¬ O u := fun h => by rw [hpre.hOvis u h] at hsu; exact absurd hsu (by simp)
    have hx01 := header_ext hsu
    have hs1u : (hdr s u).visited u = true := set1_same s.visited u true
    have hs1t : (hdr s u).time = s.time + 1 := rfl
    have hs1du : (hdr s u).disc u = s.time + 1 := set1_same s.disc u (s.time + 1)
    have hloop := loop2_spec hcl (fun O2 w τ h => ih O2 w τ h) huu hsu hpre.hOvis
      hpre.hpar hpre.hW (by have := hpre.hfuel; omega) hx01 hs1u hs1t hs1du
      (nbrs u) [] (hdr s u) 0 (List.nil_append (nbrs u)).symm (header_loopinv hpre)
    rw [dfs2_eq nbrs F u s]
    obtain ⟨g1, g2, g3, g4, g5, g6, g7, g8, g9, g10, g11, g12, g13, g14, g15, g16⟩ := hloop
    set L := loop2 (fun w τ => dfs2 nbrs F w τ) u (nbrs u) (hdr s u, 0) with hLdef
    have tfin : ∀ z, z ≠ u →
        ({ L.1 with fintime := set1 L.1.fintime u L.1.time } : D1).fintime z
          = L.1.fintime z :=
      fun z hz => set1_other L.1.fintime L.1.time hz
    have tfinu : ({ L.1 with fintime := set1 L.1.fintime u L.1.time } : D1).fintime u
        = L.1.time := set1_same L.1.fintime u L.1.time
    have hvisσeu : L.1.visited u = true := g1.x_vis u hs1u
    have hdiscσeu : L.1.disc u = s.time + 1 := (g1.x_dpf u hs1u).1.trans hs1du
    have htime1 : s.time + 1 ≤ L.1.time := by
      have hx := g1.x_time
      rw [hs1t] at hx
      exact hx
    have hvis_sσe : ∀ y, s.visited y = true → L.1.visited y = true :=
      fun y hy => g1.x_vis y (hx01.x_vis y hy)
    have hfresh_s1 : ∀ y, y ≠ u → s.visited y = false → (hdr s u).visited y = false := by
      intro y hy hys
      rw [show (hdr s u).visited y = set1 s.visited u true y from rfl,
        set1_other s.visited true hy]
      exact hys
    have hdisc_old : ∀ y, s.visited y = true → L.1.disc y = s.disc y := by
      intro y hy
      rw [(g1.x_dpf y (hx01.x_vis y hy)).1, (hx01.x_dpf y hy).1]
    have hunvis_s1 : ∀ y, L.1.visited y = false → (hdr s u).visited y = false := by
      intro y hy
      cases hm : (hdr s u).visited y with
      | false => rfl
      | true => rw [g1.x_vis y hm] at hy; exact absurd hy (by simp)
    have hNw : ∀ z, Nw s L.1 z ↔
        InSub { L.1 with fintime := set1 L.1.fintime u L.1.time } u z := by
      intro z
      constructor
      · rintro ⟨hz1, hz2⟩
        refine ⟨hz1, ?_, ?_⟩
        · show L.1.disc u ≤ L.1.disc z
          rw [hdiscσeu]
          omega
        · show L.1.disc z ≤ _
          rw [tfinu]
          exact (g3.w3 z hz1).2
      · rintro ⟨hz1, hz2, hz3⟩
        refine ⟨hz1, ?_⟩
        have hz2b : L.1.disc u ≤ L.1.disc z := hz2
        rw [hdiscσeu] at hz2b
        omega
    have hchlne : ∀ c, L.1.visited c = true → L.1.parent c = Int.ofNat u → c ≠ u := by
      intro c _ hc he
      rw [he, g6] at hc
      exact spu_ne hspuW hOu hc
    have hNFc : ∀ c, L.1.visited c = true → L.1.parent c = Int.ofNat u →
        NodeFacts nbrs L.1 c := by
      intro c hc1 hc2
      have hcu := hchlne c hc1 hc2
      refine g4 c hc1 ?_ hcu
      intro hOc
      have hsc : s.visited c = true := hpre.hOvis c hOc
      have hd1 : L.1.disc c = s.disc c := hdisc_old c hsc
      have hd2 := (hpre.hW.w3 c hsc).2
      have hd3 := (g12 c ⟨hc1, hc2⟩).1
      rw [hdiscσeu, hd1] at hd3
      omega
    have hnfu : NodeFacts nbrs { L.1 with fintime := set1 L.1.fintime u L.1.time } u := by
      refine ⟨hvisσeu, ?_, ?_, ?_, ?_, ?_, ?_, ?_, ?_, ?_, ?_⟩
      · refine ⟨?_, ?_, ?_, g7⟩
        · show 1 ≤ L.1.disc u
          rw [hdiscσeu]; omega
        · show L.1.disc u ≤ _
          rw [tfinu, hdiscσeu]; exact htime1
        · show _ ≤ L.1.time
          rw [tfinu]
      · intro x hx
        exact g16 x hx
      · intro x hx hd
        have hxv : L.1.visited x = true := g16 x hx
        have hdx : L.1.disc u < L.1.disc x := hd
        refine (hNw x).mp ⟨hxv, ?_⟩
        rw [hdiscσeu] at hdx
        omega
      · intro c hc hpc
        have hc1 : L.1.visited c = true := hc
        have hpc1 : L.1.parent c = Int.ofNat u := hpc
        have hcu := hchlne c hc1 hpc1
        obtain ⟨m1, m2, m3⟩ := g12 c ⟨hc1, hpc1⟩
        refine ⟨m1, ?_, ?_⟩
        · show L.1.disc c ≤ _
          rw [tfinu]
          exact le_trans m2 m3
        · rw [tfin c hcu, tfinu]
          exact m3
      · intro z hz hzu
        obtain ⟨c, hcChl, hcins⟩ := g11 z ((hNw z).mpr hz) hzu
        have hcu := hchlne c hcChl.1 hcChl.2
        exact ⟨c, hcChl.1, hcChl.2,
          ⟨hcins.1, hcins.2.1, by rw [tfin c hcu]; exact hcins.2.2⟩⟩
      · intro z hz
        by_cases hzu : z = u
        · rw [hzu]
        · obtain ⟨c, hcChl, hcins⟩ := g11 z ((hNw z).mpr hz) hzu
          have hcu := hchlne c hcChl.1 hcChl.2
          have hnfc := hNFc c hcChl.1 hcChl.2
          have hg12 := g12 c hcChl
          have liftIns : ∀ x, InSub L.1 c x →
              InSub { L.1 with fintime := set1 L.1.fintime u L.1.time } u x := by
            rintro x ⟨m1, m2, m3⟩
            refine ⟨m1, ?_, ?_⟩
            · show L.1.disc u ≤ L.1.disc x
              exact le_of_lt (lt_of_lt_of_le hg12.1 m2)
            · show L.1.disc x ≤ _
              rw [tfinu]
              exact le_trans m3 hg12.2.2
          have hchain := hnfc.nfChain z hcins
          have hlift := Relation.ReflTransGen.mono
            (r := fun a b => L.1.parent a = Int.ofNat b ∧ InSub L.1 c a ∧ InSub L.1 c b)
            (fun a b hab => And.intro hab.1 (And.intro (liftIns a hab.2.1) (liftIns b hab.2.2)))
            hchain
          refine Relation.ReflTransGen.tail hlift ?_
          refine ⟨hcChl.2, (hNw c).mp ⟨hcChl.1, ?_⟩, ⟨hvisσeu, le_refl _, ?_⟩⟩
          · have := hg12.1
            rw [hdiscσeu] at this
            omega
          · show L.1.disc u ≤ _
            rw [tfinu, hdiscσeu]
            exact htime1
      · intro z x hz hx hxv hne
        by_cases hzu : z = u
        · rw [hzu] at hx hne
          by_cases hsx : s.visited x = true
          · refine g10 x hx hsx ?_
            intro he
            rw [← g6] at he
            exact hne he
          · by_cases hxu : x = u
            · rw [hxu]
              exact g7
            · have hfx := g1.x_fresh x (hfresh_s1 x hxu (by simpa using hsx)) hxv
              rw [hs1t] at hfx
              have hl : L.1.low u ≤ L.1.disc u := g7
              rw [hdiscσeu] at hl
              show L.1.low u ≤ L.1.disc x
              omega
        · obtain ⟨c, hcChl, hcins⟩ := g11 z ((hNw z).mpr hz) hzu
          have hnfc := hNFc c hcChl.1 hcChl.2
          have h1 := hnfc.nfLowUb z x hcins hx hxv hne
          exact le_trans (g9 c hcChl) h1
      · rcases g8 with h | ⟨z, x, hz, hx, hxv, he⟩
        · exact Or.inl h
        · exact Or.inr ⟨z, x, (hNw z).mp hz, hx, hxv, he⟩
      · intro hroot
        have hroot2 : s.parent u = -1 := by rw [← g6]; exact hroot
        constructor
        · intro hcut
          rcases g15.mp hcut with ⟨_, h2⟩ | ⟨hne, _⟩
          · obtain ⟨c1, c2, h12, hc1, hc2⟩ := g14.mpr h2
            exact ⟨c1, c2, h12, hc1.1, hc2.1, hc1.2, hc2.2⟩
          · exact absurd hroot2 hne
        · rintro ⟨c1, c2, h12, hv1, hv2, hp1, hp2⟩
          exact g15.mpr (Or.inl ⟨hroot2, g14.mp ⟨c1, c2, h12, ⟨hv1, hp1⟩, ⟨hv2, hp2⟩⟩⟩)
      · intro hnr
        have hnr2 : s.parent u ≠ -1 := by rw [← g6]; exact hnr
        constructor
        · intro hcut
          rcases g15.mp hcut with ⟨hr, _⟩ | ⟨_, c, hcChl, hlc⟩
          · exact absurd hr hnr2
          · exact ⟨c, hcChl.1, hcChl.2, hlc⟩
        · rintro ⟨c, hv1, hp1, hl1⟩
          exact g15.mpr (Or.inr ⟨hnr2, c, ⟨hv1, hp1⟩, hl1⟩)
    refine ⟨?_, ?_, hvisσeu, hdiscσeu, tfinu, g6, ⟨g3.w1, g3.w2, g3.w3, g3.w4, g3.w5, g3.w6⟩, ?_, ?_, ?_⟩
    · refine ⟨?_, ?_, ?_, ?_, ?_, ?_⟩
      · exact fun y hy => hvis_sσe y hy
      · intro y hy
        have hyu : y ≠ u := fun he => by rw [he, hsu] at hy; exact absurd hy (by simp)
        obtain ⟨b1, b2, b3⟩ := hx01.x_dpf y hy
        obtain ⟨c1, c2, c3⟩ := g1.x_dpf y (hx01.x_vis y hy)
        exact ⟨c1.trans b1, c2.trans b2, by rw [tfin y hyu, c3, b3]⟩
      · intro y hy hyu
        obtain ⟨b1, b2⟩ := hx01.x_lc y hy hyu
        obtain ⟨c1, c2⟩ := g1.x_lc y (hx01.x_vis y hy) hyu
        exact ⟨c1.trans b1, c2.trans b2⟩
      · show s.time ≤ L.1.time
        omega
      · intro y hy hy2
        by_cases hyu : y = u
        · rw [hyu]
          constructor
          · show s.time < L.1.disc u
            rw [hdiscσeu]; omega
          · show L.1.disc u ≤ L.1.time
            rw [hdiscσeu]; exact htime1
        · have hfx := g1.x_fresh y (hfresh_s1 y hyu hy) hy2
          rw [hs1t] at hfx
          refine ⟨?_, ?_⟩
          · show s.time < L.1.disc y
            omega
          · show L.1.disc y ≤ L.1.time
            exact hfx.2
      · intro y hy
        have hyu : y ≠ u := fun he => by rw [he, hvisσeu] at hy; exact absurd hy (by simp)
        obtain ⟨c1, c2, c3, c4, c5⟩ := g1.x_unvis y hy
        obtain ⟨b1, b2, b3, b4, b5⟩ := hx01.x_unvis y (hunvis_s1 y hy)
        exact ⟨c1.trans b1, c2.trans b2, c3.trans b3, c4.trans b4,
          by rw [tfin y hyu, c5, b5]⟩
    · intro c h1 h2 hcu q hq
      have hq2 : L.1.parent c = Int.ofNat q := hq
      rcases g2 c (hfresh_s1 c hcu h1) h2 q hq2 with h | h
      · rw [h]; exact hsu
      · cases hm : s.visited q with
        | false => rfl
        | true => rw [hx01.x_vis q hm] at h; exact absurd h (by simp)
    · intro y hy hOy
      by_cases hyu : y = u
      · rw [hyu]
        exact hnfu
      · have hnf := g4 y hy hOy hyu
        refine nodeFacts_fintime_write L.1.time hnf hyu ?_
        rw [g6]
        exact spu_ne hspuW hOy
    · intro y h1 h2 hyu
      obtain ⟨p, hp1, hp2⟩ := g5 y (hfresh_s1 y hyu h1) h2
      exact ⟨p, hp1, hp2⟩
    · intro y hy
      by_cases hsy : s.visited y = true
      · exact Or.inl hsy
      · right
        by_cases hyu : y = u
        · rw [hyu]
          refine ⟨hvisσeu, le_refl _, ?_⟩
          show L.1.disc u ≤ _
          rw [tfinu, hdiscσeu]
          exact htime1
        · have hfx := g1.x_fresh y (hfresh_s1 y hyu (by simpa using hsy)) hy
          rw [hs1t] at hfx
          refine ⟨hy, ?_, ?_⟩
          · show L.1.disc u ≤ L.1.disc y
            rw [hdiscσeu]
            omega
          · show L.1.disc y ≤ _
            rw [tfinu]
            exact hfx.2

theorem fbc2_facts {n : Nat} {nbrs : Nat → List Nat}
    (hcl : ∀ a b, b ∈ nbrs a → a < n ∧ b < n)
    (hconn : ∀ a b, a < n → b < n → Reach nbrs a b)
    (hn : 0 < n) :
    TarjanFacts n nbrs (fbc2 n nbrs) := by
  have hpre : CallPre n nbrs (n + 1) (fun _ => False)
      { initD1 with parent := set1 initD1.parent 0 (-1) } 0 := by
    refine ⟨hn, rfl, ?_, ?_, Or.inl (set1_same initD1.parent 0 (-1)), ?_, ?_⟩
    · have h1 : Ucard n { initD1 with parent := set1 initD1.parent 0 (-1) } ≤ n := by
        unfold Ucard
        calc ((Finset.range n).filter _).card ≤ (Finset.range n).card :=
              Finset.card_filter_le _ _
          _ = n := Finset.card_range n
      omega
    · exact ⟨fun y hy => absurd hy (by simp [initD1]), fun y _ => ⟨rfl, rfl, rfl⟩,
        fun y hy => absurd hy (by simp [initD1]),
        fun y z hy => absurd hy (by simp [initD1]),
        fun y hy => absurd hy (by simp [initD1]),
        fun c p hc => absurd hc (by simp [initD1])⟩
    · intro y hy
      exact absurd hy (by simp [initD1])
    · intro a h
      exact absurd h not_false
  have hpost := dfs2_spec hcl (n + 1) (fun _ => False) 0
    { initD1 with parent := set1 initD1.parent 0 (-1) } hpre
  set S := dfs2 nbrs (n + 1) 0 { initD1 with parent := set1 initD1.parent 0 (-1) } with hS
  have hNF : ∀ y, S.visited y = true → NodeFacts nbrs S y :=
    fun y hy => hpost.cp_O y hy not_false
  have hclosed : ∀ a b, S.visited a = true → b ∈ nbrs a → S.visited b = true :=
    fun a b ha hb => (hNF a ha).nfFe b hb
  have hreach : ∀ a b, Reach nbrs a b → S.visited a = true → S.visited b = true := by
    intro a b h
    induction h with
    | refl => exact fun h => h
    | tail _ hbc ih => exact fun ha => hclosed _ _ (ih ha) hbc
  have hallvis : ∀ y, y < n → S.visited y = true :=
    fun y hy => hreach 0 y (hconn 0 y hn hy) hpost.cp_visu
  have htop : fbc2 n nbrs = S := by
    obtain ⟨m, rfl⟩ : ∃ m, n = m + 1 := ⟨n - 1, by omega⟩
    unfold fbc2
    rw [List.range_succ_eq_map, List.foldl_cons]
    rw [if_neg (by simp [initD1])]
    have hfold : ∀ (l : List Nat) (σ : D1), (∀ i ∈ l, σ.visited i = true) →
        l.foldl (fun s i => if s.visited i then s
          else dfs2 nbrs (m + 1 + 1) i { s with parent := set1 s.parent i (-1) }) σ = σ := by
      intro l
      induction l with
      | nil => intro σ _; rfl
      | cons i l ihl =>
        intro σ hvis
        rw [List.foldl_cons, if_pos (hvis i (List.mem_cons_self i l))]
        exact ihl σ (fun j hj => hvis j (List.mem_cons_of_mem i hj))
    exact hfold _ S (by
      intro i hi
      obtain ⟨j, hj, rfl⟩ := List.mem_map.mp hi
      have hjm := List.mem_range.mp hj
      exact hallvis (j + 1) (by omega))
  rw [htop]
  refine ⟨?_, hpost.cp_W, hNF, ?_, hpost.cp_visu, hpost.cp_discu, ?_, ?_⟩
  · intro y
    exact ⟨fun hy => hpost.cp_W.w1 y hy, fun hy => hallvis y hy⟩
  · exact hpost.cp_paru.trans (set1_same initD1.parent 0 (-1))
  · intro y hy hy0
    exact hpost.cp_parents y rfl hy hy0
  · intro y hy
    rcases hpost.cp_newu y hy with h | h
    · exact absurd h (by simp [initD1])
    · exact h

theorem subNest {n : Nat} {nbrs : Nat → List Nat} {S : D1} (tf : TarjanFacts n nbrs S) :
    ∀ (d y z : Nat), S.disc z - S.disc y ≤ d → S.visited y = true → InSub S y z →
      S.fintime z ≤ S.fintime y := by
  intro d
  induction d with
  | zero =>
    intro y z hd hy hz
    have hle := hz.2.1
    have he : S.disc z = S.disc y := by omega
    rw [tf.tf_W.w4 z y hz.1 hy he]
  | succ d ih =>
    intro y z hd hy hz
    by_cases hzy : z = y
    · rw [hzy]
    · obtain ⟨c, hc1, hc2, hc3⟩ := (tf.tf_NF y hy).nfSplit z hz hzy
      obtain ⟨k1, k2, k3⟩ := (tf.tf_NF y hy).nfKids c hc1 hc2
      have hrec := ih c z (by have := hc3.2.1; omega) hc1 hc3
      exact le_trans hrec k3

theorem sub_trans {n : Nat} {nbrs : Nat → List Nat} {S : D1} (tf : TarjanFacts n nbrs S)
    {y c z : Nat} (hy : S.visited y = true) (h1 : InSub S y c) (h2 : InSub S c z) :
    InSub S y z :=
  ⟨h2.1, le_trans h1.2.1 h2.2.1,
    le_trans h2.2.2 (subNest tf (S.disc c - S.disc y) y c (le_refl _) hy h1)⟩

theorem parentIn {n : Nat} {nbrs : Nat → List Nat} {S : D1} (tf : TarjanFacts n nbrs S) :
    ∀ (d x z : Nat), S.disc z - S.disc x ≤ d → S.visited x = true →
      InSub S x z → z ≠ x → ∀ p, S.parent z = Int.ofNat p → InSub S x p := by
  intro d
  induction d with
  | zero =>
    intro x z hd hx hz hzx p _
    have hle := hz.2.1
    have he : S.disc z = S.disc x := by omega
    exact absurd (tf.tf_W.w4 z x hz.1 hx he) hzx
  | succ d ih =>
    intro x z hd hx hz hzx p hp
    obtain ⟨c, hc1, hc2, hc3⟩ := (tf.tf_NF x hx).nfSplit z hz hzx
    obtain ⟨k1, k2, k3⟩ := (tf.tf_NF x hx).nfKids c hc1 hc2
    by_cases hcz : c = z
    · rw [hcz] at hc2
      have hxp : x = p := ofNat_inj' (hc2.symm.trans hp)
      rw [← hxp]
      exact ⟨hx, le_refl _, (tf.tf_NF x hx).nfSane.2.1⟩
    · have hrec := ih c z (by have := hc3.2.1; omega) hc1 hc3
        (fun he => hcz he.symm) p hp
      exact sub_trans tf hx ⟨hc1, le_of_lt k1, k2⟩ hrec

theorem sub_reach {n : Nat} {nbrs : Nat → List Nat} {S : D1} (tf : TarjanFacts n nbrs S)
    (hsym : ∀ u w, w ∈ nbrs u → u ∈ nbrs w) {y z : Nat}
    (hy : S.visited y = true) (hz : InSub S y z) : ReachIn nbrs (InSub S y) z y := by
  refine Relation.ReflTransGen.mono ?_ ((tf.tf_NF y hy).nfChain z hz)
  rintro a b ⟨h1, h2, h3⟩
  have hw := tf.tf_W.w6 a b h2.1 h1
  exact ⟨hsym b a hw.1, h2, h3⟩

theorem reachin_symm {nbrs : Nat → List Nat} (hsym : ∀ u w, w ∈ nbrs u → u ∈ nbrs w)
    {Q : Nat → Prop} {a b : Nat} (h : ReachIn nbrs Q a b) : ReachIn nbrs Q b a := by
  induction h with
  | refl => exact Relation.ReflTransGen.refl
  | tail _ hbc ih =>
    exact Relation.ReflTransGen.trans
      (Relation.ReflTransGen.single ⟨hsym _ _ hbc.1, hbc.2.2, hbc.2.1⟩) ih

theorem reachin_avoid {nbrs : Nat → List Nat} {Q : Nat → Prop} {v a b : Nat}
    (hQ : ∀ x, Q x → x ≠ v) (h : ReachIn nbrs Q a b) : ReachAvoid nbrs v a b :=
  Relation.ReflTransGen.mono
    (fun p q hpq => ⟨hpq.1, hQ p hpq.2.1, hQ q hpq.2.2⟩) h

theorem reachavoid_symm {nbrs : Nat → List Nat} (hsym : ∀ u w, w ∈ nbrs u → u ∈ nbrs w)
    {v a b : Nat} (h : ReachAvoid nbrs v a b) : ReachAvoid nbrs v b a := by
  induction h with
  | refl => exact Relation.ReflTransGen.refl
  | tail _ hbc ih =>
    exact Relation.ReflTransGen.trans
      (Relation.ReflTransGen.single ⟨hsym _ _ hbc.1, hbc.2.2, hbc.2.1⟩) ih

theorem sub_closure_gen {n : Nat} {nbrs : Nat → List Nat} {S : D1}
    (tf : TarjanFacts n nbrs S) (hsym : ∀ u w, w ∈ nbrs u → u ∈ nbrs w) {c w : Nat}
    (hvc : S.visited c = true) (hpc : S.parent c = Int.ofNat w)
    (hend : ∀ z x, InSub S c z → x ∈ nbrs z → S.visited x = true →
      Int.ofNat x ≠ S.parent z → S.disc x < S.disc c → InSub S x c → x = w) :
    ∀ z x, InSub S c z → x ∈ nbrs z → InSub S c x ∨ x = w := by
  intro z x hz hx
  have hvz : S.visited z = true := hz.1
  have hvx : S.visited x = true := (tf.tf_NF z hvz).nfFe x hx
  rcases lt_trichotomy (S.disc z) (S.disc x) with hlt | heq | hgt
  · exact Or.inl (sub_trans tf hvc hz ((tf.tf_NF z hvz).nfNbrSub x hx hlt))
  · have hxz : x = z := tf.tf_W.w4 x z hvx hvz heq.symm
    rw [hxz]
    exact Or.inl hz
  · have hxz : InSub S x z := (tf.tf_NF x hvx).nfNbrSub z (hsym z x hx) hgt
    by_cases hdx : S.disc c ≤ S.disc x
    · exact Or.inl ⟨hvx, hdx, le_trans (le_of_lt hgt) hz.2.2⟩
    · push_neg at hdx
      have hxsubc : InSub S x c := ⟨hvc, le_of_lt hdx, le_trans hz.2.1 hxz.2.2⟩
      by_cases hcnt : Int.ofNat x = S.parent z
      · by_cases hzc : z = c
        · rw [hzc, hpc] at hcnt
          exact Or.inr (ofNat_inj' hcnt)
        · have hpi := parentIn tf (S.disc z - S.disc c) c z (le_refl _) hvc hz hzc x
            hcnt.symm
          exact absurd hpi.2.1 (by omega)
      · exact Or.inr (hend z x hz hx hvx hcnt hdx hxsubc)

theorem sub_closure_root {n : Nat} {nbrs : Nat → List Nat} {S : D1}
    (tf : TarjanFacts n nbrs S) (hsym : ∀ u w, w ∈ nbrs u → u ∈ nbrs w) {c : Nat}
    (hvc : S.visited c = true) (hpc : S.parent c = Int.ofNat 0) :
    ∀ z x, InSub S c z → x ∈ nbrs z → InSub S c x ∨ x = 0 := by
  refine sub_closure_gen tf hsym hvc hpc ?_
  intro z x _ _ hvx _ hdx hxsubc
  by_cases hxc : x = c
  · rw [hxc] at hdx
    exact absurd hdx (lt_irrefl _)
  · have hpi := parentIn tf (S.disc c - S.disc x) x c (le_refl _) hvx hxsubc
      (fun he => hxc he.symm) 0 hpc
    have h1 := hpi.2.1
    rw [tf.tf_disc0] at h1
    have h2 := (tf.tf_W.w3 x hvx).1
    have h3 : S.disc x = S.disc 0 := by rw [tf.tf_disc0]; omega
    exact tf.tf_W.w4 x 0 hvx tf.tf_vis0 h3

theorem sub_closure_in {n : Nat} {nbrs : Nat → List Nat} {S : D1}
    (tf : TarjanFacts n nbrs S) (hsym : ∀ u w, w ∈ nbrs u → u ∈ nbrs w) {c w : Nat}
    (hvc : S.visited c = true) (hvw : S.visited w = true)
    (hpc : S.parent c = Int.ofNat w) (hlow : S.disc w ≤ S.low c) :
    ∀ z x, InSub S c z → x ∈ nbrs z → InSub S c x ∨ x = w := by
  refine sub_closure_gen tf hsym hvc hpc ?_
  intro z x hz hx hvx hcnt hdx hxsubc
  by_cases hxw : x = w
  · exact hxw
  · exfalso
    have hxc : x ≠ c := fun he => by rw [he] at hdx; exact absurd hdx (lt_irrefl _)
    have hxw2 := parentIn tf (S.disc c - S.disc x) x c (le_refl _) hvx hxsubc
      (fun he => hxc he.symm) w hpc
    have h1 : S.disc x < S.disc w := by
      rcases lt_or_eq_of_le hxw2.2.1 with h | h
      · exact h
      · exact absurd (tf.tf_W.w4 x w hvx hvw h) hxw
    have h3 := (tf.tf_NF c hvc).nfLowUb z x hz hx hvx hcnt
    omega

theorem no_escape {nbrs : Nat → List Nat} {S : D1} {c w : Nat}
    (hclo : ∀ z x, InSub S c z → x ∈ nbrs z → InSub S c x ∨ x = w) :
    ∀ a b, ReachAvoid nbrs w a b → InSub S c a → InSub S c b := by
  intro a b h
  induction h with
  | refl => exact fun h => h
  | tail _ hbc ih =>
    intro ha
    rcases hclo _ _ (ih ha) hbc.1 with h | h
    · exact h
    · exact absurd h hbc.2.2

theorem tarjan_sound {n : Nat} {nbrs : Nat → List Nat} {S : D1}
    (tf : TarjanFacts n nbrs S) (hsym : ∀ u w, w ∈ nbrs u → u ∈ nbrs w) {v : Nat}
    (hv : v < n) (hcut : S.cut v = true) : CutOracle n nbrs v := by
  have hvv : S.visited v = true := (tf.tf_visiff v).mpr hv
  by_cases hv0 : v = 0
  · subst hv0
    obtain ⟨c1, c2, h12, hvc1, hvc2, hp1, hp2⟩ :=
      ((tf.tf_NF 0 hvv).nfCutRoot tf.tf_par0).mp hcut
    have hw1 := tf.tf_W.w6 c1 0 hvc1 hp1
    have hne1 : c1 ≠ 0 := fun he => by rw [he] at hw1; exact absurd hw1.2.2 (lt_irrefl _)
    have hw2 := tf.tf_W.w6 c2 0 hvc2 hp2
    have hne2 : c2 ≠ 0 := fun he => by rw [he] at hw2; exact absurd hw2.2.2 (lt_irrefl _)
    refine ⟨c1, c2, (tf.tf_visiff c1).mp hvc1, (tf.tf_visiff c2).mp hvc2, hne1, hne2, ?_⟩
    intro hreach
    have hsubc1 : InSub S c1 c1 := ⟨hvc1, le_refl _, (tf.tf_NF c1 hvc1).nfSane.2.1⟩
    have h2 := no_escape (sub_closure_root tf hsym hvc1 hp1) c1 c2 hreach hsubc1
    have h3 := parentIn tf (S.disc c2 - S.disc c1) c1 c2 (le_refl _) hvc1 h2
      (fun he => h12 he.symm) 0 hp2
    have h4 := h3.2.1
    have h5 := hw1.2.2
    omega
  · obtain ⟨p, hp, _⟩ := tf.tf_parents v hvv hv0
    have hpar_ne : S.parent v ≠ -1 := by rw [hp]; exact ofNat_ne_neg_one' p
    obtain ⟨c, hvc, hpc, hlc⟩ := ((tf.tf_NF v hvv).nfCutIn hpar_ne).mp hcut
    have hw6 := tf.tf_W.w6 c v hvc hpc
    have hcv : c ≠ v := fun he => by rw [he] at hw6; exact absurd hw6.2.2 (lt_irrefl _)
    refine ⟨c, 0, (tf.tf_visiff c).mp hvc, (tf.tf_visiff 0).mp tf.tf_vis0, hcv,
      fun he => hv0 he.symm, ?_⟩
    intro hreach
    have hsubcc : InSub S c c := ⟨hvc, le_refl _, (tf.tf_NF c hvc).nfSane.2.1⟩
    have h2 := no_escape (sub_closure_in tf hsym hvc hvv hpc hlc) c 0 hreach hsubcc
    have h3 := h2.2.1
    rw [tf.tf_disc0] at h3
    have h4 := hw6.2.2
    have h5 := (tf.tf_W.w3 v hvv).1
    omega

theorem tarjan_complete {n : Nat} {nbrs : Nat → List Nat} {S : D1}
    (tf : TarjanFacts n nbrs S) (hsym : ∀ u w, w ∈ nbrs u → u ∈ nbrs w) {v : Nat}
    (hv : v < n) (hcut : S.cut v = false) : ¬ CutOracle n nbrs v := by
  rintro ⟨a, b, ha, hb, hav, hbv, hnr⟩
  apply hnr
  have hva : S.visited a = true := (tf.tf_visiff a).mpr ha
  have hvb : S.visited b = true := (tf.tf_visiff b).mpr hb
  by_cases hv0 : v = 0
  · subst hv0
    have hroot := (tf.tf_NF 0 tf.tf_vis0).nfCutRoot tf.tf_par0
    have hnopair : ¬ ∃ c1 c2, c1 ≠ c2 ∧ S.visited c1 = true ∧ S.visited c2 = true ∧
        S.parent c1 = Int.ofNat 0 ∧ S.parent c2 = Int.ofNat 0 := by
      intro hpair
      have hc := hroot.mpr hpair
      rw [hc] at hcut
      exact absurd hcut (by simp)
    obtain ⟨ca, hca1, hca2, hcains⟩ :=
      (tf.tf_NF 0 tf.tf_vis0).nfSplit a (tf.tf_sub0 a hva) hav
    obtain ⟨cb, hcb1, hcb2, hcbins⟩ :=
      (tf.tf_NF 0 tf.tf_vis0).nfSplit b (tf.tf_sub0 b hvb) hbv
    have hceq : ca = cb := by
      by_contra hne
      exact hnopair ⟨ca, cb, hne, hca1, hcb1, hca2, hcb2⟩
    rw [← hceq] at hcbins
    have hQ : ∀ x, InSub S ca x → x ≠ 0 := by
      intro x hx he
      rw [he] at hx
      have h1 := hx.2.1
      have h2 := (tf.tf_W.w6 ca 0 hca1 hca2).2.2
      omega
    exact Relation.ReflTransGen.trans
      (reachin_avoid hQ (sub_reach tf hsym hca1 hcains))
      (reachin_avoid hQ (reachin_symm hsym (sub_reach tf hsym hca1 hcbins)))
  · have hvv : S.visited v = true := (tf.tf_visiff v).mpr hv
    have hncut : ∀ c, S.visited c = true → S.parent c = Int.ofNat v → S.low c < S.disc v := by
      intro c hc hpc
      by_contra hge
      push_neg at hge
      obtain ⟨p, hp, _⟩ := tf.tf_parents v hvv hv0
      have hne : S.parent v ≠ -1 := by rw [hp]; exact ofNat_ne_neg_one' p
      have hic := ((tf.tf_NF v hvv).nfCutIn hne).mpr ⟨c, hc, hpc, hge⟩
      rw [hic] at hcut
      exact absurd hcut (by simp)
    have hreach0 : ∀ (d y : Nat), S.disc y ≤ d → S.visited y = true → y ≠ v →
        ReachAvoid nbrs v y 0 := by
      intro d
      induction d with
      | zero =>
        intro y hd hy _
        have := (tf.tf_W.w3 y hy).1
        omega
      | succ d ih =>
        intro y hd hy hyv
        by_cases hy0 : y = 0
        · rw [hy0]
          exact Relation.ReflTransGen.refl
        · obtain ⟨p, hp, hvp⟩ := tf.tf_parents y hy hy0
          have hw6 := tf.tf_W.w6 y p hy hp
          by_cases hpv : p = v
          · rw [hpv] at hp
            have hw6v := tf.tf_W.w6 y v hy hp
            have hlc := hncut y hy hp
            rcases (tf.tf_NF y hy).nfLowAch with hA | ⟨z, x, hz, hxm, hxv, hlx⟩
            · exfalso
              have h1 := hw6v.2.2
              rw [hA] at hlc
              omega
            · have hdchain : ∀ m, InSub S y m → m ≠ v := by
                intro m hm he
                rw [he] at hm
                have h1 := hm.2.1
                have h2 := hw6v.2.2
                omega
              have hxv2 : x ≠ v := by
                intro he
                rw [he] at hlx
                omega
              have hstep : ReachAvoid nbrs v z x :=
                Relation.ReflTransGen.single ⟨hxm, hdchain z hz, hxv2⟩
              have hyz : ReachAvoid nbrs v y z :=
                reachin_avoid hdchain (reachin_symm hsym (sub_reach tf hsym hy hz))
              have hrecx : ReachAvoid nbrs v x 0 := by
                refine ih x ?_ hxv hxv2
                have h1 := hw6v.2.2
                omega
              exact Relation.ReflTransGen.trans hyz
                (Relation.ReflTransGen.trans hstep hrecx)
          · have hstep : ReachAvoid nbrs v y p :=
              Relation.ReflTransGen.single ⟨hsym p y hw6.1, hyv, hpv⟩
            have hrec := ih p (by have := hw6.2.2; omega) hvp hpv
            exact Relation.ReflTransGen.trans hstep hrec
    exact Relation.ReflTransGen.trans
      (hreach0 (S.disc a) a (le_refl _) hva hav)
      (reachavoid_symm hsym (hreach0 (S.disc b) b (le_refl _) hvb hbv))

/-- C2: on a connected simple graph, `find_biconnected_components` marks
`is_cut[v]` exactly when removing `v` disconnects the remaining graph. -/
theorem c2_cut_iff_articulation (st : St)
    (hdeg : ∀ w, st.degree w = (st.neighbors w).length)
    (hcl : ∀ a b, b ∈ st.neighbors a → a < st.n ∧ b < st.n)
    (hsym : ∀ a b, b ∈ st.neighbors a → a ∈ st.neighbors b)
    (hconn : ∀ a b, a < st.n → b < st.n → Reach st.neighbors a b)
    (v : Nat) (hv : v < st.n) :
    (find_biconnected_components st).d.is_cut v = true ↔
      CutOracle st.n st.neighbors v := by
  have hn : 0 < st.n := by omega
  have tf := fbc2_facts hcl hconn hn
  have hbridge : (find_biconnected_components st).d.is_cut v
      = (fbc2 st.n st.neighbors).cut v := by
    have h1 : projD (fbcD st.n st.neighbors st.degree) = fbcD0 st.n st.neighbors :=
      proj_fbc st.n st.neighbors st.degree hdeg
    have h2 : projD1 (fbc2 st.n st.neighbors) = fbcD0 st.n st.neighbors :=
      proj_fbc2 st.n st.neighbors
    calc (find_biconnected_components st).d.is_cut v
        = (projD (fbcD st.n st.neighbors st.degree)).cut v := rfl
      _ = (fbcD0 st.n st.neighbors).cut v := by rw [h1]
      _ = (projD1 (fbc2 st.n st.neighbors)).cut v := by rw [h2]
      _ = (fbc2 st.n st.neighbors).cut v := rfl
  rw [hbridge]
  constructor
  · intro h
    exact tarjan_sound tf hsym hv h
  · intro h
    by_contra hc
    have hfalse : (fbc2 st.n st.neighbors).cut v = false := by
      cases hcv : (fbc2 st.n st.neighbors).cut v with
      | false => rfl
      | true => exact absurd hcv hc
    exact tarjan_complete tf hsym hv hfalse h

theorem c2_cut_iff_articulation_witness :
    (find_biconnected_components path3_st).d.is_cut 1 = true ↔
      CutOracle path3_st.n path3_st.neighbors 1 := by
  refine c2_cut_iff_articulation path3_st (fun w => rfl) ?_ ?_ ?_ 1 (by decide)
  · intro a b h
    rcases a with _ | a
    · have hb : b = 1 := List.mem_singleton.mp h
      rw [hb]
      exact ⟨by decide, by decide⟩
    rcases a with _ | a
    · rcases List.mem_cons.mp h with hb | hb
      · rw [hb]; exact ⟨by decide, by decide⟩
      · have hb2 : b = 2 := List.mem_singleton.mp hb
        rw [hb2]; exact ⟨by decide, by decide⟩
    rcases a with _ | a
    · have hb : b = 1 := List.mem_singleton.mp h
      rw [hb]
      exact ⟨by decide, by decide⟩
    · exact absurd h (List.not_mem_nil b)
  · intro a b h
    rcases a with _ | a
    · have hb : b = 1 := List.mem_singleton.mp h
      rw [hb]; decide
    rcases a with _ | a
    · rcases List.mem_cons.mp h with hb | hb
      · rw [hb]; decide
      · have hb2 : b = 2 := List.mem_singleton.mp hb
        rw [hb2]; decide
    rcases a with _ | a
    · have hb : b = 1 := List.mem_singleton.mp h
      rw [hb]; decide
    · exact absurd h (List.not_mem_nil b)
  · intro a b ha hb
    have ha2 : a < 3 := ha
    have hb2 : b < 3 := hb
    clear ha hb
    interval_cases a <;> interval_cases b
    all_goals first
      | exact Relation.ReflTransGen.refl
      | exact Relation.ReflTransGen.single (by decide)
      | exact Relation.ReflTransGen.head
          (show (1 : Nat) ∈ path3_st.neighbors 0 by decide)
          (Relation.ReflTransGen.single (by decide))
      | exact Relation.ReflTransGen.head
          (show (1 : Nat) ∈ path3_st.neighbors 2 by decide)
          (Relation.ReflTransGen.single (by decide))

end RPLMesh
